import Mathlib

/-!
# Verification of the diff-match-patch JavaScript library (jrc03c fork)

This file shallowly embeds the library's `src/index.js` into Lean 4 and proves
(or refutes) the frozen specification claims about it.

Modelling conventions:
* A JavaScript string is a sequence of UTF-16 code units; we model it as
  `List Nat` (`Str` below).  `index.js` treats one character = one code unit.
* JavaScript `while` loops become fueled recursion; every call site passes a
  fuel that provably exceeds the loop's iteration count (or the top-level
  theorem universally quantifies over the fuel).
* Mutable engine configuration (`diffTimeout`, `matchThreshold`, …) becomes an
  explicit `Config` record parameter.
* The wall clock consulted by `diffBisect_` becomes an oracle `Nat → Bool`
  ("has the deadline passed at the i-th check?") with a threaded tick counter.
* Fallible operations (`diffFromDelta`, `matchBitap_`, …) return `Except Err α`.
-/

set_option maxHeartbeats 2000000
set_option maxRecDepth 4000

namespace DMP

/-- A JS string: a list of UTF-16 code units (spec §9: character = code unit). -/
abbrev Str := List Nat

/-- The operation of a diff: one of the three constants of index.js:67-69
    (`DIFF_DELETE = -1`, `DIFF_INSERT = 1`, `DIFF_EQUAL = 0`); the library
    never stores any other value in a tuple's first slot. -/
inductive Op where
  | delete
  | insert
  | equal
deriving DecidableEq, Repr

/-- `DIFF_DELETE` from index.js:67. -/
def DIFF_DELETE : Op := .delete

/-- `DIFF_INSERT` from index.js:68. -/
def DIFF_INSERT : Op := .insert

/-- `DIFF_EQUAL` from index.js:69. -/
def DIFF_EQUAL : Op := .equal

/-- One diff tuple (`DiffMatchPatch.Diff`, index.js:78-81): an operation and
    a text. -/
structure Diff where
  op : Op
  text : Str
deriving DecidableEq, Repr

/-- The engine configuration (`DiffMatchPatch` constructor defaults,
    index.js:29-58).  `diffTimeout` keeps only what the code branches on. -/
structure Config where
  diffTimeout : ℚ := 1
  diffEditCost : Nat := 4
  matchThreshold : ℚ := 1/2
  matchDistance : Nat := 1000
  patchDeleteThreshold : ℚ := 1/2
  patchMargin : Nat := 4
  matchMaxBits : Nat := 32

/-- JS `String.prototype.substring(start, finish)`: both arguments are clamped
    into `[0, length]` and swapped if out of order. -/
def jsSubstring (s : Str) (start finish : Int) : Str :=
  let n : Int := s.length
  let a := min (max start 0) n
  let b := min (max finish 0) n
  (s.take (max a b).toNat).drop (min a b).toNat

/-- JS `s.substring(start)` (single-argument form). -/
def jsSubstringFrom (s : Str) (start : Int) : Str :=
  jsSubstring s start s.length

/-- JS `String.prototype.charAt(i)`: the one-code-unit string at `i`, or the
    empty string out of range. -/
def jsCharAt (s : Str) (i : Int) : Str :=
  if 0 ≤ i then
    match s.get? i.toNat with
    | some c => [c]
    | none => []
  else []

/-- JS `String.prototype.indexOf(sub, start)` (with clamped `start`):
    the least position `i ≥ start` where `sub` occurs, else `-1`. -/
def jsIndexOfFrom (s sub : Str) (start : Int) : Int :=
  let st := (min (max start 0) (s.length : Int)).toNat
  match ((List.range (s.length + 1)).drop st).find? (fun i => sub.isPrefixOf (s.drop i)) with
  | some i => i
  | none => -1

/-- JS `String.prototype.indexOf(sub)`. -/
def jsIndexOf (s sub : Str) : Int :=
  jsIndexOfFrom s sub 0

/-- JS `String.prototype.lastIndexOf(sub, start)`: the greatest position
    `i ≤ start` where `sub` occurs, else `-1`. -/
def jsLastIndexOf (s sub : Str) (start : Int) : Int :=
  let st := (min (max start 0) (s.length : Int)).toNat
  match ((List.range (s.length + 1)).filter (fun i => decide (i ≤ st) && sub.isPrefixOf (s.drop i))).getLast? with
  | some i => i
  | none => -1

/-- The binary-search loop shared verbatim by `diffCommonPrefix`
    (index.js:645-657) and `diffCommonSuffix` (index.js:685-696):

    while (pointermin < pointermid) {
      if p(pointermin, pointermid) then pointermin = pointermid (and the
      compared window start advances with it) else pointermax = pointermid;
      pointermid = floor((pointermax - pointermin) / 2 + pointermin) }

    The predicate receives `(pointermin, pointermid)` because the compared
    window starts at `pointerstart`/`pointerend`, which the source keeps equal
    to `pointermin`.  The loop finishes within `pointermax - pointermin + 2`
    iterations (proved below), and every call site passes at least that much
    fuel, so this function computes exactly the JS loop's result. -/
def jsBinSearch (p : Nat → Nat → Bool) : Nat → Nat → Nat → Nat → Nat
  | 0, _, pmid, _ => pmid
  | fuel + 1, pmin, pmid, pmax =>
    if pmin < pmid then
      if p pmin pmid then
        jsBinSearch p fuel pmid ((pmax - pmid) / 2 + pmid) pmax
      else
        jsBinSearch p fuel pmin ((pmid - pmin) / 2 + pmin) pmid
    else pmid

/-- `diffCommonPrefix` (index.js:632-660): length of the common prefix of two
    strings, computed by binary search over substring comparisons. -/
def diffCommonPrefix (text1 text2 : Str) : Nat :=
  if text1 = [] ∨ text2 = [] ∨ jsCharAt text1 0 ≠ jsCharAt text2 0 then 0
  else
    jsBinSearch
      (fun pstart pmid =>
        decide (jsSubstring text1 pstart pmid = jsSubstring text2 pstart pmid))
      (min text1.length text2.length + 2) 0
      (min text1.length text2.length) (min text1.length text2.length)

/-- `diffCommonSuffix` (index.js:668-699): length of the common suffix. -/
def diffCommonSuffix (text1 text2 : Str) : Nat :=
  if text1 = [] ∨ text2 = [] ∨
      jsCharAt text1 ((text1.length : Int) - 1) ≠ jsCharAt text2 ((text2.length : Int) - 1) then 0
  else
    jsBinSearch
      (fun pend pmid =>
        decide (jsSubstring text1 ((text1.length : Int) - pmid) ((text1.length : Int) - pend) =
          jsSubstring text2 ((text2.length : Int) - pmid) ((text2.length : Int) - pend)))
      (min text1.length text2.length + 2) 0
      (min text1.length text2.length) (min text1.length text2.length)

/-- `diffText1` (index.js:1566-1576): concatenation of all non-INSERT texts. -/
def diffText1 (diffs : List Diff) : Str :=
  (diffs.filter (fun d => d.op ≠ DIFF_INSERT)).foldr (fun d acc => d.text ++ acc) []

/-- `diffText2` (index.js:1583-1593): concatenation of all non-DELETE texts. -/
def diffText2 (diffs : List Diff) : Str :=
  (diffs.filter (fun d => d.op ≠ DIFF_DELETE)).foldr (fun d acc => d.text ++ acc) []

end DMP

namespace DMP

/-! ## Correctness of the common-prefix / common-suffix binary searches

`lcpLen` is proof infrastructure (the mathematical longest-common-prefix
length); we prove the source's binary search computes exactly it. -/

/-- Longest-common-prefix length (proof infrastructure, not from the source). -/
def lcpLen : Str → Str → Nat
  | a :: as, b :: bs => if a = b then lcpLen as bs + 1 else 0
  | _, _ => 0

theorem lcpLen_le_left : ∀ a b : Str, lcpLen a b ≤ a.length := by
  intro a
  induction a with
  | nil => intro b; cases b <;> simp [lcpLen]
  | cons x xs ih =>
    intro b
    cases b with
    | nil => simp [lcpLen]
    | cons y ys =>
      simp only [lcpLen]
      split
      · simpa using ih ys
      · simp

theorem lcpLen_le_right : ∀ a b : Str, lcpLen a b ≤ b.length := by
  intro a
  induction a with
  | nil => intro b; cases b <;> simp [lcpLen]
  | cons x xs ih =>
    intro b
    cases b with
    | nil => simp [lcpLen]
    | cons y ys =>
      simp only [lcpLen]
      split
      · simpa using ih ys
      · simp

theorem take_eq_of_le_lcpLen : ∀ (a b : Str) (k : Nat), k ≤ lcpLen a b →
    a.take k = b.take k := by
  intro a
  induction a with
  | nil =>
    intro b k hk
    cases b <;> simp [lcpLen] at hk <;> simp [hk]
  | cons x xs ih =>
    intro b k hk
    cases b with
    | nil => simp [lcpLen] at hk; simp [hk]
    | cons y ys =>
      simp only [lcpLen] at hk
      cases k with
      | zero => simp
      | succ k =>
        split at hk
        · next hxy =>
          subst hxy
          simp only [List.take_succ_cons, List.cons.injEq, true_and]
          exact ih ys k (by omega)
        · omega

theorem le_lcpLen_of_take_eq : ∀ (a b : Str) (k : Nat), k ≤ a.length →
    k ≤ b.length → a.take k = b.take k → k ≤ lcpLen a b := by
  intro a
  induction a with
  | nil => intro b k hk _ _; simp at hk; omega
  | cons x xs ih =>
    intro b k hka hkb htake
    cases b with
    | nil => simp at hkb; omega
    | cons y ys =>
      cases k with
      | zero => omega
      | succ k =>
        simp only [List.take_succ_cons, List.cons.injEq] at htake
        simp only [lcpLen, htake.1, if_true]
        have := ih ys k (by simpa using hka) (by simpa using hkb) htake.2
        omega

theorem jsSubstring_nat (s : Str) (i j : Nat) (hij : i ≤ j) (hj : j ≤ s.length) :
    jsSubstring s i j = (s.take j).drop i := by
  unfold jsSubstring
  have hi0 : max (i : Int) 0 = (i : Int) := max_eq_left (by exact_mod_cast Nat.zero_le i)
  have hj0 : max (j : Int) 0 = (j : Int) := max_eq_left (by exact_mod_cast Nat.zero_le j)
  have hiL : min (i : Int) (s.length : Int) = (i : Int) :=
    min_eq_left (by exact_mod_cast le_trans hij hj)
  have hjL : min (j : Int) (s.length : Int) = (j : Int) :=
    min_eq_left (by exact_mod_cast hj)
  simp only [hi0, hj0, hiL, hjL]
  have hmin : min (i : Int) (j : Int) = (i : Int) := min_eq_left (by exact_mod_cast hij)
  have hmax : max (i : Int) (j : Int) = (j : Int) := max_eq_right (by exact_mod_cast hij)
  simp [hmin, hmax]

/-- The shared binary search computes `L` whenever the probe is equivalent to
    "`pmid ≤ L`" on valid states. -/
theorem jsBinSearch_eq (p : Nat → Nat → Bool) (L M : Nat) (hLM : L ≤ M)
    (hp : ∀ pmin pmid, pmin ≤ L → pmin < pmid → pmid ≤ M →
      (p pmin pmid = true ↔ pmid ≤ L)) :
    ∀ (fuel pmin pmid pmax : Nat), pmin ≤ L → pmin ≤ pmid → pmid ≤ pmax → pmax ≤ M →
      (L < pmax ∨ (pmid = pmax ∧ pmax = M)) →
      (pmin < pmid ∨ pmax ≤ pmid + 1) →
      pmax - pmin + (if pmid = pmax then 1 else 0) + 1 ≤ fuel →
      jsBinSearch p fuel pmin pmid pmax = L := by
  intro fuel
  induction fuel with
  | zero => intro pmin pmid pmax _ _ _ _ _ _ h7; omega
  | succ fuel ih =>
    intro pmin pmid pmax h1 h2 h3 h4 h5 h6 h7
    unfold jsBinSearch
    by_cases hlt : pmin < pmid
    · simp only [hlt, if_true]
      by_cases hpb : p pmin pmid = true
      · have hle : pmid ≤ L := (hp pmin pmid h1 hlt (le_trans h3 h4)).mp hpb
        simp only [hpb, if_true]
        apply ih
        · exact hle
        · omega
        · omega
        · exact h4
        · rcases h5 with h5 | ⟨h5a, h5b⟩
          · left; exact h5
          · right; constructor <;> omega
        · omega
        · rcases h5 with h5 | ⟨h5a, h5b⟩ <;> split <;> split at h7 <;> omega
      · have hgt : L < pmid := by
          by_contra hc
          exact hpb ((hp pmin pmid h1 hlt (le_trans h3 h4)).mpr (by omega))
        simp only [hpb, if_false]
        apply ih
        · exact h1
        · omega
        · omega
        · omega
        · left; exact hgt
        · omega
        · have hne : (pmid - pmin) / 2 + pmin ≠ pmid := by omega
          simp only [hne, if_false]
          split at h7 <;> omega
    · simp only [hlt, if_false]
      have hmineq : pmin = pmid := by omega
      rcases h5 with h5 | ⟨h5a, h5b⟩
      · rcases h6 with h6 | h6
        · omega
        · omega
      · omega

end DMP

namespace DMP

theorem jsCharAt_zero_cons (c : Nat) (t : Str) : jsCharAt (c :: t) 0 = [c] := by
  simp [jsCharAt, List.get?]

theorem jsSubstring_rev (s : Str) (i j : Nat) (hij : i ≤ j) (hj : j ≤ s.length) :
    jsSubstring s ((s.length : Int) - j) ((s.length : Int) - i) =
      ((s.reverse.take j).drop i).reverse := by
  have h1 : ((s.length : Int) - j) = ((s.length - j : Nat) : Int) := by omega
  have h2 : ((s.length : Int) - i) = ((s.length - i : Nat) : Int) := by
    have := le_trans hij hj; omega
  rw [h1, h2, jsSubstring_nat s (s.length - j) (s.length - i) (by omega) (by omega)]
  have hrev : ((s.take (s.length - i)).drop (s.length - j)).reverse =
      (s.reverse.take j).drop i := by
    rw [List.reverse_drop, List.reverse_take, List.drop_take]
    congr 1
    · simp [List.length_take]
      omega
    · congr 1
      omega
  calc (s.take (s.length - i)).drop (s.length - j)
      = (((s.take (s.length - i)).drop (s.length - j)).reverse).reverse := by
        rw [List.reverse_reverse]
    _ = ((s.reverse.take j).drop i).reverse := by rw [hrev]

/-- The common-prefix binary search (index.js:632-660) computes exactly the
    longest-common-prefix length. -/
theorem diffCommonPrefix_eq (a b : Str) : diffCommonPrefix a b = lcpLen a b := by
  unfold diffCommonPrefix
  split
  · next h =>
    rcases h with h | h | h
    · subst h; cases b <;> simp [lcpLen]
    · subst h; cases a <;> simp [lcpLen]
    · cases a with
      | nil => cases b <;> simp [lcpLen]
      | cons x xs =>
        cases b with
        | nil => simp [lcpLen]
        | cons y ys =>
          rw [jsCharAt_zero_cons, jsCharAt_zero_cons] at h
          have hxy : x ≠ y := by
            intro he; exact h (by rw [he])
          simp [lcpLen, hxy]
  · next h =>
    push_neg at h
    apply jsBinSearch_eq _ (lcpLen a b) (min a.length b.length)
      (le_min (lcpLen_le_left a b) (lcpLen_le_right a b))
    · intro pmin pmid h1 h2 h3
      have hpa : pmid ≤ a.length := le_trans h3 (min_le_left _ _)
      have hpb : pmid ≤ b.length := le_trans h3 (min_le_right _ _)
      rw [decide_eq_true_iff,
        jsSubstring_nat a pmin pmid (le_of_lt h2) hpa,
        jsSubstring_nat b pmin pmid (le_of_lt h2) hpb]
      constructor
      · intro hwin
        apply le_lcpLen_of_take_eq a b pmid hpa hpb
        have htk : a.take pmin = b.take pmin :=
          take_eq_of_le_lcpLen a b pmin h1
        have ha2 : a.take pmid = a.take pmin ++ (a.take pmid).drop pmin := by
          conv_lhs => rw [← List.take_append_drop pmin (a.take pmid)]
          rw [List.take_take, min_eq_left (le_of_lt h2)]
        have hb2 : b.take pmid = b.take pmin ++ (b.take pmid).drop pmin := by
          conv_lhs => rw [← List.take_append_drop pmin (b.take pmid)]
          rw [List.take_take, min_eq_left (le_of_lt h2)]
        rw [ha2, hb2, htk, hwin]
      · intro hle
        have := take_eq_of_le_lcpLen a b pmid hle
        rw [this]
    · exact Nat.zero_le _
    · exact Nat.zero_le _
    · exact le_refl _
    · exact le_refl _
    · right; exact ⟨rfl, rfl⟩
    · right; omega
    · simp

/-- The common-suffix binary search (index.js:668-699) computes exactly the
    longest-common-prefix length of the reversed strings. -/
theorem diffCommonSuffix_eq (a b : Str) :
    diffCommonSuffix a b = lcpLen a.reverse b.reverse := by
  unfold diffCommonSuffix
  split
  · next h =>
    rcases h with h | h | h
    · subst h; cases hb : b.reverse <;> simp [lcpLen]
    · subst h; cases ha : a.reverse <;> simp [lcpLen]
    · cases ha : a.reverse with
      | nil =>
        simp [lcpLen]
      | cons x xs =>
        cases hb : b.reverse with
        | nil =>
          cases hx : b.reverse <;> rw [hx] at hb
          · simp [lcpLen]
          · exact absurd hb (by simp_all)
        | cons y ys =>
          have hxa : jsCharAt a ((a.length : Int) - 1) = [x] := by
            have hs : a = xs.reverse ++ [x] := by
              have := congrArg List.reverse ha
              simpa using this
            rw [hs]
            simp only [jsCharAt, List.length_append, List.length_reverse,
              List.length_cons, List.length_nil]
            have h0 : (0 : Int) ≤ ((xs.length + 1 : Nat) : Int) - 1 := by omega
            rw [if_pos (by push_cast; omega)]
            have hidx : (((xs.length + 1 : Nat) : Int) - 1).toNat = xs.length := by omega
            rw [hidx, List.get?_append_right (by simp)]
            simp [List.get?]
          have hxb : jsCharAt b ((b.length : Int) - 1) = [y] := by
            have hs : b = ys.reverse ++ [y] := by
              have := congrArg List.reverse hb
              simpa using this
            rw [hs]
            simp only [jsCharAt, List.length_append, List.length_reverse,
              List.length_cons, List.length_nil]
            rw [if_pos (by push_cast; omega)]
            have hidx : (((ys.length + 1 : Nat) : Int) - 1).toNat = ys.length := by omega
            rw [hidx, List.get?_append_right (by simp)]
            simp [List.get?]
          rw [hxa, hxb] at h
          have hxy : x ≠ y := by
            intro he; exact h (by rw [he])
          simp [lcpLen, hxy]
  · next h =>
    push_neg at h
    have hLa : lcpLen a.reverse b.reverse ≤ a.length :=
      le_trans (lcpLen_le_left _ _) (by simp)
    have hLb : lcpLen a.reverse b.reverse ≤ b.length :=
      le_trans (lcpLen_le_right _ _) (by simp)
    apply jsBinSearch_eq _ (lcpLen a.reverse b.reverse) (min a.length b.length)
      (le_min hLa hLb)
    · intro pend pmid h1 h2 h3
      have hpa : pmid ≤ a.length := le_trans h3 (min_le_left _ _)
      have hpb : pmid ≤ b.length := le_trans h3 (min_le_right _ _)
      rw [decide_eq_true_iff,
        jsSubstring_rev a pend pmid (le_of_lt h2) hpa,
        jsSubstring_rev b pend pmid (le_of_lt h2) hpb]
      have hrevinj : ∀ u v : Str, u.reverse = v.reverse ↔ u = v := by
        intro u v
        constructor
        · intro hh
          have := congrArg List.reverse hh
          simpa using this
        · intro hh; rw [hh]
      rw [hrevinj]
      have hpa' : pmid ≤ a.reverse.length := by simpa using hpa
      have hpb' : pmid ≤ b.reverse.length := by simpa using hpb
      constructor
      · intro hwin
        apply le_lcpLen_of_take_eq a.reverse b.reverse pmid hpa' hpb'
        have htk : a.reverse.take pend = b.reverse.take pend :=
          take_eq_of_le_lcpLen _ _ pend h1
        have ha2 : a.reverse.take pmid =
            a.reverse.take pend ++ (a.reverse.take pmid).drop pend := by
          conv_lhs => rw [← List.take_append_drop pend (a.reverse.take pmid)]
          rw [List.take_take, min_eq_left (le_of_lt h2)]
        have hb2 : b.reverse.take pmid =
            b.reverse.take pend ++ (b.reverse.take pmid).drop pend := by
          conv_lhs => rw [← List.take_append_drop pend (b.reverse.take pmid)]
          rw [List.take_take, min_eq_left (le_of_lt h2)]
        rw [ha2, hb2, htk, hwin]
      · intro hle
        have := take_eq_of_le_lcpLen a.reverse b.reverse pmid hle
        rw [this]
    · exact Nat.zero_le _
    · exact Nat.zero_le _
    · exact le_refl _
    · exact le_refl _
    · right; exact ⟨rfl, rfl⟩
    · right; omega
    · simp

end DMP

namespace DMP

/-- Convert a Lean string literal to a `Str` (for concrete test inputs). -/
def strOf (s : String) : Str := s.data.map Char.toNat

/-! ## `diffCleanupMerge` (index.js:1305-1475)

The first (coalescing) pass walks the script once with a pending run of
DELETE/INSERT texts, processing each EQUAL; we embed the walk as a zipper:
`acc` holds the already-emitted output in reverse order (so `acc.head` is the
element just before the pending run, `diffs[pointer - countDelete -
countInsert - 1]` in the source, and appending at `acc`'s tail is the
source's `diffs.splice(0, 0, …)`). -/

/-- index.js:1333-1359: factor any common prefix of the combined insert and
    delete texts into the preceding EQUAL, or a fresh EQUAL at the script
    head when there is none. Returns the updated zipper and pending texts. -/
def factorPrefix (acc : List Diff) (textDelete textInsert : Str) :
    List Diff × Str × Str :=
  let commonlength := diffCommonPrefix textInsert textDelete
  if commonlength ≠ 0 then
    match acc with
    | a :: as =>
      if a.op = DIFF_EQUAL then
        (⟨a.op, a.text ++ textInsert.take commonlength⟩ :: as,
          textDelete.drop commonlength, textInsert.drop commonlength)
      else
        ((a :: as) ++ [⟨DIFF_EQUAL, textInsert.take commonlength⟩],
          textDelete.drop commonlength, textInsert.drop commonlength)
    | [] =>
      ([⟨DIFF_EQUAL, textInsert.take commonlength⟩],
        textDelete.drop commonlength, textInsert.drop commonlength)
  else (acc, textDelete, textInsert)

/-- index.js:1361-1378: factor any common suffix of the pending texts onto the
    front of the current EQUAL's text. Returns (new equal text, new pending). -/
def factorSuffix (e textDelete textInsert : Str) : Str × Str × Str :=
  let commonlength := diffCommonSuffix textInsert textDelete
  if commonlength ≠ 0 then
    (textInsert.drop (textInsert.length - commonlength) ++ e,
      textDelete.take (textDelete.length - commonlength),
      textInsert.take (textInsert.length - commonlength))
  else (e, textDelete, textInsert)

/-- index.js:1381-1401: emit the merged DELETE-then-INSERT pair (dropping
    empty texts) onto the zipper. -/
def emitRun (acc : List Diff) (textDelete textInsert : Str) : List Diff :=
  let acc1 := if textDelete ≠ [] then ⟨DIFF_DELETE, textDelete⟩ :: acc else acc
  if textInsert ≠ [] then ⟨DIFF_INSERT, textInsert⟩ :: acc1 else acc1

/-- Processing of one EQUAL diff in the coalescing pass
    (index.js:1329-1416, `case DIFF_EQUAL`), given the pending run counters
    and texts. `e` is the EQUAL's text. -/
def coalesceEqual (acc : List Diff) (countDelete countInsert : Nat)
    (textDelete textInsert : Str) (e : Str) : List Diff :=
  if countDelete + countInsert > 1 then
    if countDelete ≠ 0 ∧ countInsert ≠ 0 then
      match factorPrefix acc textDelete textInsert with
      | (acc1, td1, ti1) =>
        match factorSuffix e td1 ti1 with
        | (e1, td2, ti2) => ⟨DIFF_EQUAL, e1⟩ :: emitRun acc1 td2 ti2
    else
      ⟨DIFF_EQUAL, e⟩ :: emitRun acc textDelete textInsert
  else if countDelete = 1 then
    -- single pending DELETE: it was left in place (no splice happened),
    -- and the EQUAL cannot merge backwards over it (index.js:1404-1410).
    ⟨DIFF_EQUAL, e⟩ :: ⟨DIFF_DELETE, textDelete⟩ :: acc
  else if countInsert = 1 then
    ⟨DIFF_EQUAL, e⟩ :: ⟨DIFF_INSERT, textInsert⟩ :: acc
  else
    -- no pending edits: merge with a preceding EQUAL if any (index.js:1404-1410)
    match acc with
    | a :: as =>
      if a.op = DIFF_EQUAL then ⟨a.op, a.text ++ e⟩ :: as
      else ⟨DIFF_EQUAL, e⟩ :: a :: as
    | [] => [⟨DIFF_EQUAL, e⟩]

/-- The coalescing walk (index.js:1315-1418). The end of the list plays the
    role of the dummy `EQUAL ""` pushed at index.js:1307. -/
def coalesceLoop : List Diff → List Diff → Nat → Nat → Str → Str → List Diff
  | [], acc, cd, ci, td, ti => coalesceEqual acc cd ci td ti []
  | d :: rest, acc, cd, ci, td, ti =>
    if d.op = DIFF_INSERT then coalesceLoop rest acc cd (ci + 1) td (ti ++ d.text)
    else if d.op = DIFF_DELETE then coalesceLoop rest acc (cd + 1) ci (td ++ d.text) ti
    else coalesceLoop rest (coalesceEqual acc cd ci td ti d.text) 0 0 [] []

/-- First pass of `diffCleanupMerge`: coalesce, then remove the trailing
    empty diff if present (index.js:1420-1422). The zipper is reversed back. -/
def cleanupMergePass1 (diffs : List Diff) : List Diff :=
  match coalesceLoop diffs [] 0 0 [] [] with
  | d :: rest => if d.text = [] then rest.reverse else (d :: rest).reverse
  | [] => []

/-- Second pass of `diffCleanupMerge` (index.js:1424-1469): slide single
    edits surrounded by equalities.  `acc` is the processed prefix in reverse
    (`acc.length` = the source's `pointer`); the boolean accumulates the
    source's `changes` flag. -/
def shiftLoop : List Diff → List Diff → Bool → List Diff × Bool
  | acc, cur :: next :: rest, changed =>
    match acc with
    | [] => shiftLoop [cur] (next :: rest) changed
    | prev :: accTail =>
      if prev.op = DIFF_EQUAL ∧ next.op = DIFF_EQUAL then
        if jsSubstringFrom cur.text ((cur.text.length : Int) - prev.text.length) =
            prev.text then
          -- shift the edit over the previous equality (index.js:1437-1452)
          shiftLoop
            (⟨next.op, prev.text ++ next.text⟩ ::
              ⟨cur.op, prev.text ++
                jsSubstring cur.text 0 ((cur.text.length : Int) - prev.text.length)⟩ ::
              accTail)
            rest true
        else if jsSubstring cur.text 0 (next.text.length : Int) = next.text then
          -- shift the edit over the next equality (index.js:1453-1466)
          shiftLoop
            (⟨cur.op, jsSubstringFrom cur.text (next.text.length : Int) ++ next.text⟩ ::
              ⟨prev.op, prev.text ++ next.text⟩ :: accTail)
            rest true
        else shiftLoop (cur :: prev :: accTail) (next :: rest) changed
      else shiftLoop (cur :: acc) (next :: rest) changed
  | acc, rest, changed => (acc.reverse ++ rest, changed)

/-- `diffCleanupMerge` (index.js:1305-1475).  The source recurses on itself
    whenever the shift pass made a change; `fuel` bounds that recursion and
    `none` means the fuel ran out before the recursion finished (the theorems
    below quantify over all sufficient fuels). -/
def diffCleanupMerge : Nat → List Diff → Option (List Diff)
  | 0, _ => none
  | fuel + 1, diffs =>
    match shiftLoop [] (cleanupMergePass1 diffs) false with
    | (d2, true) => diffCleanupMerge fuel d2
    | (d2, false) => some d2

end DMP

namespace DMP

/-! ## Invariants of the coalescing pass (claims C2, C3) -/

/-- Allowed adjacency after coalescing: every consecutive pair of diffs
    includes an EQUAL, or is a DELETE immediately followed by an INSERT. -/
def okAdj (u v : Diff) : Prop :=
  u.op = DIFF_EQUAL ∨ v.op = DIFF_EQUAL ∨ (u.op = DIFF_DELETE ∧ v.op = DIFF_INSERT)

instance (u v : Diff) : Decidable (okAdj u v) := by unfold okAdj; infer_instance

/-- A DELETE immediately followed by an INSERT out of the coalescing pass has
    both texts nonempty and sharing no common prefix or suffix. -/
def pairFactored (u v : Diff) : Prop :=
  u.op = DIFF_DELETE → v.op = DIFF_INSERT →
    u.text ≠ [] ∧ v.text ≠ [] ∧ diffCommonPrefix v.text u.text = 0 ∧
      diffCommonSuffix v.text u.text = 0

/-- Both adjacency facts together. -/
def coalesced (u v : Diff) : Prop := okAdj u v ∧ pairFactored u v

/-- The head of the zipper (the most recently emitted diff) is an EQUAL. -/
def headEq : List Diff → Prop
  | [] => True
  | a :: _ => a.op = DIFF_EQUAL

/-- Zipper invariant of the coalescing walk. -/
def accInv (acc : List Diff) : Prop :=
  headEq acc ∧ List.Chain' (fun u v => coalesced v u) acc

theorem lcpLen_drop : ∀ a b : Str, lcpLen (a.drop (lcpLen a b)) (b.drop (lcpLen a b)) = 0 := by
  intro a
  induction a with
  | nil => intro b; cases b <;> simp [lcpLen]
  | cons x xs ih =>
    intro b
    cases b with
    | nil => simp [lcpLen]
    | cons y ys =>
      by_cases hxy : x = y
      · simp only [lcpLen, hxy, if_true, List.drop_succ_cons]
        exact ih ys
      · simp [lcpLen, hxy]

theorem lcpLen_take_of_zero (a b : Str) (h : lcpLen a b = 0) (m k : Nat) :
    lcpLen (a.take m) (b.take k) = 0 := by
  cases a with
  | nil => cases hb : b.take k <;> simp [lcpLen]
  | cons x xs =>
    cases b with
    | nil =>
      cases hx : (x :: xs).take m <;> simp [lcpLen]
    | cons y ys =>
      simp only [lcpLen] at h
      have hxy : x ≠ y := by
        intro he
        simp [he] at h
      cases m with
      | zero => simp [lcpLen]
      | succ m =>
        cases k with
        | zero => simp [lcpLen]
        | succ k => simp [lcpLen, hxy]

theorem coalesced_of_right_equal (u v : Diff) (h : v.op = DIFF_EQUAL) : coalesced u v := by
  refine ⟨Or.inr (Or.inl h), ?_⟩
  intro _ hv
  rw [h] at hv
  exact absurd hv (by simp [DIFF_EQUAL, DIFF_INSERT])

theorem coalesced_of_left_equal (u v : Diff) (h : u.op = DIFF_EQUAL) : coalesced u v := by
  refine ⟨Or.inl h, ?_⟩
  intro hu _
  rw [h] at hu
  exact absurd hu (by simp [DIFF_EQUAL, DIFF_DELETE])

/-- Pushing an EQUAL onto any invariant zipper preserves the invariant. -/
theorem accInv_push_equal (acc : List Diff) (e : Str) (h : accInv acc) :
    accInv (⟨DIFF_EQUAL, e⟩ :: acc) := by
  refine ⟨rfl, ?_⟩
  cases acc with
  | nil => exact List.chain'_singleton _
  | cons a as =>
    rw [List.chain'_cons]
    exact ⟨coalesced_of_right_equal a ⟨DIFF_EQUAL, e⟩ rfl, h.2⟩

/-- Pushing a DELETE or INSERT onto an EQUAL-headed zipper keeps the chain. -/
theorem chain_push_edit (acc : List Diff) (d : Diff) (h : accInv acc) :
    List.Chain' (fun u v => coalesced v u) (d :: acc) := by
  cases acc with
  | nil => exact List.chain'_singleton _
  | cons a as =>
    rw [List.chain'_cons]
    exact ⟨coalesced_of_left_equal a d h.1, h.2⟩

/-- `emitRun` preserves the chain, assuming the pending pair is factored
    whenever both texts are nonempty. -/
theorem emitRun_chain (acc : List Diff) (td ti : Str) (h : accInv acc)
    (hf : td ≠ [] → ti ≠ [] →
      diffCommonPrefix ti td = 0 ∧ diffCommonSuffix ti td = 0) :
    List.Chain' (fun u v => coalesced v u) (emitRun acc td ti) := by
  unfold emitRun
  by_cases htd : td ≠ []
  · rw [if_pos htd]
    by_cases hti : ti ≠ []
    · rw [if_pos hti, List.chain'_cons]
      refine ⟨?_, chain_push_edit acc _ h⟩
      refine ⟨Or.inr (Or.inr ⟨rfl, rfl⟩), ?_⟩
      intro _ _
      exact ⟨htd, hti, (hf htd hti).1, (hf htd hti).2⟩
    · rw [if_neg hti]
      exact chain_push_edit acc _ h
  · rw [if_neg htd]
    by_cases hti : ti ≠ []
    · rw [if_pos hti]
      exact chain_push_edit acc _ h
    · rw [if_neg hti]
      exact h.2

theorem lcpLen_rev_strip (x y : Str) :
    lcpLen ((x.take (x.length - lcpLen x.reverse y.reverse)).reverse)
      ((y.take (y.length - lcpLen x.reverse y.reverse)).reverse) = 0 := by
  have hx : lcpLen x.reverse y.reverse ≤ x.length := by
    simpa using lcpLen_le_left x.reverse y.reverse
  have hy : lcpLen x.reverse y.reverse ≤ y.length := by
    simpa using lcpLen_le_right x.reverse y.reverse
  rw [List.reverse_take, List.reverse_take]
  have e1 : x.length - (x.length - lcpLen x.reverse y.reverse) =
      lcpLen x.reverse y.reverse := by omega
  have e2 : y.length - (y.length - lcpLen x.reverse y.reverse) =
      lcpLen x.reverse y.reverse := by omega
  rw [e1, e2]
  exact lcpLen_drop x.reverse y.reverse

/-- After `factorPrefix`, the zipper invariant still holds and the pending
    texts share no common prefix. -/
theorem factorPrefix_inv (acc : List Diff) (td ti : Str) (h : accInv acc) :
    accInv (factorPrefix acc td ti).1 ∧
      lcpLen (factorPrefix acc td ti).2.2 (factorPrefix acc td ti).2.1 = 0 := by
  unfold factorPrefix
  rw [diffCommonPrefix_eq]
  by_cases hcl : lcpLen ti td ≠ 0
  · cases acc with
    | nil =>
      rw [if_pos hcl]
      exact ⟨⟨rfl, List.chain'_singleton _⟩, lcpLen_drop ti td⟩
    | cons a as =>
      have hEq : a.op = DIFF_EQUAL := h.1
      rw [if_pos hcl]
      simp only [hEq, if_true]
      refine ⟨⟨rfl, ?_⟩, lcpLen_drop ti td⟩
      cases as with
      | nil => exact List.chain'_singleton _
      | cons a2 as2 =>
        have hch := h.2
        rw [List.chain'_cons] at hch ⊢
        exact ⟨coalesced_of_right_equal a2 _ rfl, hch.2⟩
  · rw [if_neg hcl]
    exact ⟨h, (by omega : lcpLen ti td = 0)⟩

/-- After `factorSuffix`, the pending texts share no common prefix and no
    common suffix (given they already shared no prefix). -/
theorem factorSuffix_facts (e td1 ti1 : Str) (hz : lcpLen ti1 td1 = 0) :
    lcpLen (factorSuffix e td1 ti1).2.2 (factorSuffix e td1 ti1).2.1 = 0 ∧
      lcpLen (factorSuffix e td1 ti1).2.2.reverse
        (factorSuffix e td1 ti1).2.1.reverse = 0 := by
  unfold factorSuffix
  rw [diffCommonSuffix_eq]
  by_cases hcs : lcpLen ti1.reverse td1.reverse ≠ 0
  · rw [if_pos hcs]
    exact ⟨lcpLen_take_of_zero _ _ hz _ _, lcpLen_rev_strip ti1 td1⟩
  · rw [if_neg hcs]
    exact ⟨hz, (by omega : lcpLen ti1.reverse td1.reverse = 0)⟩

/-- `coalesceEqual` preserves the zipper invariant, provided a zero counter
    means the corresponding pending text is empty (true throughout the
    source's walk). -/
theorem coalesceEqual_inv (acc : List Diff) (cd ci : Nat) (td ti : Str) (e : Str)
    (h : accInv acc) (hcd : cd = 0 → td = []) (hci : ci = 0 → ti = []) :
    accInv (coalesceEqual acc cd ci td ti e) := by
  unfold coalesceEqual
  by_cases h1 : cd + ci > 1
  · rw [if_pos h1]
    by_cases h2 : cd ≠ 0 ∧ ci ≠ 0
    · rw [if_pos h2]
      obtain ⟨hi1, hz1⟩ := factorPrefix_inv acc td ti h
      rcases hfp : factorPrefix acc td ti with ⟨acc1, td1, ti1⟩
      rw [hfp] at hi1 hz1
      simp only at hi1 hz1
      obtain ⟨hz2, hz3⟩ := factorSuffix_facts e td1 ti1 hz1
      rcases hfs : factorSuffix e td1 ti1 with ⟨e1, td2, ti2⟩
      rw [hfs] at hz2 hz3
      simp only at hz2 hz3
      simp only [hfp, hfs]
      have hchain : List.Chain' (fun u v => coalesced v u) (emitRun acc1 td2 ti2) := by
        apply emitRun_chain _ _ _ hi1
        intro htd hti
        rw [diffCommonPrefix_eq, diffCommonSuffix_eq]
        exact ⟨hz2, hz3⟩
      refine ⟨rfl, ?_⟩
      cases hr : emitRun acc1 td2 ti2 with
      | nil => exact List.chain'_singleton _
      | cons b bs =>
        rw [List.chain'_cons]
        rw [hr] at hchain
        exact ⟨coalesced_of_right_equal b _ rfl, hchain⟩
    · rw [if_neg h2]
      have hchain : List.Chain' (fun u v => coalesced v u) (emitRun acc td ti) := by
        apply emitRun_chain acc td ti h
        intro htd hti
        exfalso
        rcases Decidable.not_and_iff_or_not.mp h2 with hc | hc
        · exact htd (hcd (by omega))
        · exact hti (hci (by omega))
      refine ⟨rfl, ?_⟩
      cases hr : emitRun acc td ti with
      | nil => exact List.chain'_singleton _
      | cons b bs =>
        rw [List.chain'_cons]
        rw [hr] at hchain
        exact ⟨coalesced_of_right_equal b _ rfl, hchain⟩
  · rw [if_neg h1]
    by_cases h3 : cd = 1
    · rw [if_pos h3]
      refine ⟨rfl, ?_⟩
      rw [List.chain'_cons]
      exact ⟨coalesced_of_right_equal _ _ rfl, chain_push_edit acc _ h⟩
    · rw [if_neg h3]
      by_cases h4 : ci = 1
      · rw [if_pos h4]
        refine ⟨rfl, ?_⟩
        rw [List.chain'_cons]
        exact ⟨coalesced_of_right_equal _ _ rfl, chain_push_edit acc _ h⟩
      · rw [if_neg h4]
        cases acc with
        | nil => exact ⟨rfl, List.chain'_singleton _⟩
        | cons a as =>
          have hEq : a.op = DIFF_EQUAL := h.1
          simp only [hEq, if_true]
          refine ⟨rfl, ?_⟩
          cases as with
          | nil => exact List.chain'_singleton _
          | cons a2 as2 =>
            have hch := h.2
            rw [List.chain'_cons] at hch ⊢
            exact ⟨coalesced_of_right_equal a2 _ rfl, hch.2⟩

/-- The coalescing walk preserves the zipper invariant. -/
theorem coalesceLoop_inv : ∀ (rest : List Diff) (acc : List Diff) (cd ci : Nat)
    (td ti : Str), accInv acc → (cd = 0 → td = []) → (ci = 0 → ti = []) →
    accInv (coalesceLoop rest acc cd ci td ti) := by
  intro rest
  induction rest with
  | nil =>
    intro acc cd ci td ti h hcd hci
    exact coalesceEqual_inv acc cd ci td ti [] h hcd hci
  | cons d rest ih =>
    intro acc cd ci td ti h hcd hci
    unfold coalesceLoop
    by_cases hI : d.op = DIFF_INSERT
    · rw [if_pos hI]
      exact ih acc cd (ci + 1) td (ti ++ d.text) h hcd (by omega)
    · rw [if_neg hI]
      by_cases hD : d.op = DIFF_DELETE
      · rw [if_pos hD]
        exact ih acc (cd + 1) ci (td ++ d.text) ti h (by omega) hci
      · rw [if_neg hD]
        exact ih (coalesceEqual acc cd ci td ti d.text) 0 0 [] []
          (coalesceEqual_inv acc cd ci td ti d.text h hcd hci)
          (fun _ => rfl) (fun _ => rfl)

/-- The result of the first cleanup pass is a `coalesced` chain. -/
theorem cleanupMergePass1_chain (x : List Diff) :
    List.Chain' coalesced (cleanupMergePass1 x) := by
  unfold cleanupMergePass1
  have h := coalesceLoop_inv x [] 0 0 [] [] ⟨trivial, List.chain'_nil⟩
    (fun _ => rfl) (fun _ => rfl)
  cases hc : coalesceLoop x [] 0 0 [] [] with
  | nil => exact List.chain'_nil
  | cons d rest =>
    rw [hc] at h
    show List.Chain' coalesced (if d.text = [] then rest.reverse else (d :: rest).reverse)
    by_cases hd : d.text = []
    · rw [if_pos hd, List.chain'_reverse]
      exact (h.2).tail
    · rw [if_neg hd, List.chain'_reverse]
      exact h.2

/-- Once the `changes` flag of the shift pass is set it stays set. -/
theorem shiftLoop_flag_mono : ∀ (acc rest : List Diff) (ch : Bool), ch = true →
    (shiftLoop acc rest ch).2 = true := by
  intro acc rest ch
  induction acc, rest, ch using shiftLoop.induct with
  | case1 cur next rest changed ih =>
    intro hch
    simp only [shiftLoop]
    exact ih hch
  | case2 cur next rest changed prev accTail hops hleft ih =>
    intro hch
    simp only [shiftLoop, if_pos hops, if_pos hleft]
    exact ih rfl
  | case3 cur next rest changed prev accTail hops hleft hright ih =>
    intro hch
    simp only [shiftLoop, if_pos hops, if_neg hleft, if_pos hright]
    exact ih rfl
  | case4 cur next rest changed prev accTail hops hleft hright ih =>
    intro hch
    simp only [shiftLoop, if_pos hops, if_neg hleft, if_neg hright]
    exact ih hch
  | case5 cur next rest changed prev accTail hops ih =>
    intro hch
    simp only [shiftLoop, if_neg hops]
    exact ih hch
  | case6 acc rest changed hno =>
    intro hch
    rcases rest with _ | ⟨cur, _ | ⟨next, rest2⟩⟩
    · simp only [shiftLoop]; exact hch
    · simp only [shiftLoop]; exact hch
    · exact absurd rfl (hno cur next rest2)

/-- If the shift pass reports no change, it returned its input unchanged. -/
theorem shiftLoop_false_eq : ∀ (acc rest : List Diff) (ch : Bool), ch = false →
    ∀ res : List Diff, shiftLoop acc rest ch = (res, false) →
    res = acc.reverse ++ rest := by
  intro acc rest ch
  induction acc, rest, ch using shiftLoop.induct with
  | case1 cur next rest changed ih =>
    intro hch res h
    simp only [shiftLoop] at h
    simpa using ih hch res h
  | case2 cur next rest changed prev accTail hops hleft ih =>
    intro hch res h
    simp only [shiftLoop, if_pos hops, if_pos hleft] at h
    have hcontra : ((res, false) : List Diff × Bool).2 = true := by
      rw [← h]; exact shiftLoop_flag_mono _ _ _ rfl
    simp at hcontra
  | case3 cur next rest changed prev accTail hops hleft hright ih =>
    intro hch res h
    simp only [shiftLoop, if_pos hops, if_neg hleft, if_pos hright] at h
    have hcontra : ((res, false) : List Diff × Bool).2 = true := by
      rw [← h]; exact shiftLoop_flag_mono _ _ _ rfl
    simp at hcontra
  | case4 cur next rest changed prev accTail hops hleft hright ih =>
    intro hch res h
    simp only [shiftLoop, if_pos hops, if_neg hleft, if_neg hright] at h
    have := ih hch res h
    simp only [List.reverse_cons, List.append_assoc] at this ⊢
    simpa using this
  | case5 cur next rest changed prev accTail hops ih =>
    intro hch res h
    simp only [shiftLoop, if_neg hops] at h
    have := ih hch res h
    simp only [List.reverse_cons, List.append_assoc] at this ⊢
    simpa using this
  | case6 acc rest changed hno =>
    intro hch res h
    rcases rest with _ | ⟨cur, _ | ⟨next, rest2⟩⟩
    · simp only [shiftLoop] at h
      injection h with h1 h2
      exact h1.symm
    · simp only [shiftLoop] at h
      injection h with h1 h2
      exact h1.symm
    · exact absurd rfl (hno cur next rest2)

/-- A completed `diffCleanupMerge` result is a first-pass image and a
    fixpoint of the shift pass. -/
theorem diffCleanupMerge_extract : ∀ (fuel : Nat) (d r : List Diff),
    diffCleanupMerge fuel d = some r →
    (∃ x, cleanupMergePass1 x = r) ∧ shiftLoop [] r false = (r, false) := by
  intro fuel
  induction fuel with
  | zero => intro d r h; exact absurd h (by simp [diffCleanupMerge])
  | succ fuel ih =>
    intro d r h
    unfold diffCleanupMerge at h
    rcases hs : shiftLoop [] (cleanupMergePass1 d) false with ⟨d2, ch⟩
    rw [hs] at h
    cases ch with
    | true => exact ih d2 r h
    | false =>
      have hd2r : d2 = r := by injection h
      have hd2 : d2 = cleanupMergePass1 d := by
        simpa using shiftLoop_false_eq [] (cleanupMergePass1 d) false rfl d2 hs
      subst hd2r
      refine ⟨⟨d, hd2.symm⟩, ?_⟩
      rw [← hd2] at hs
      exact hs

/-! ## Idempotence analysis of `diffCleanupMerge` (claim C3) -/

/-- `coalesced` plus "not two adjacent EQUALs": the shape on which the
    coalescing pass acts as the identity. -/
def coalescedStrong (u v : Diff) : Prop :=
  coalesced u v ∧ ¬(u.op = DIFF_EQUAL ∧ v.op = DIFF_EQUAL)

/-- What processing the dummy trailing `EQUAL ""` does to an already-reduced
    reversed script (proof infrastructure). -/
def dummyEnd : List Diff → List Diff
  | [] => [⟨DIFF_EQUAL, []⟩]
  | a :: as => if a.op = DIFF_EQUAL then ⟨a.op, a.text ++ []⟩ :: as
               else ⟨DIFF_EQUAL, []⟩ :: a :: as

theorem coalesceEqual_00_nil (e : Str) :
    coalesceEqual [] 0 0 [] [] e = [⟨DIFF_EQUAL, e⟩] := by
  unfold coalesceEqual
  rw [if_neg (by omega), if_neg (by omega), if_neg (by omega)]

theorem coalesceEqual_00_edit (a : Diff) (as : List Diff) (e : Str)
    (ha : a.op ≠ DIFF_EQUAL) :
    coalesceEqual (a :: as) 0 0 [] [] e = ⟨DIFF_EQUAL, e⟩ :: a :: as := by
  unfold coalesceEqual
  rw [if_neg (by omega), if_neg (by omega), if_neg (by omega)]
  simp only [ha, if_false]

theorem coalesceEqual_00_merge (a : Diff) (as : List Diff) (e : Str)
    (ha : a.op = DIFF_EQUAL) :
    coalesceEqual (a :: as) 0 0 [] [] e = ⟨a.op, a.text ++ e⟩ :: as := by
  unfold coalesceEqual
  rw [if_neg (by omega), if_neg (by omega), if_neg (by omega)]
  simp only [ha, if_true]

theorem coalesceEqual_10 (acc : List Diff) (td e : Str) :
    coalesceEqual acc 1 0 td [] e =
      ⟨DIFF_EQUAL, e⟩ :: ⟨DIFF_DELETE, td⟩ :: acc := by
  unfold coalesceEqual
  rw [if_neg (by omega), if_pos rfl]

theorem coalesceEqual_01 (acc : List Diff) (ti e : Str) :
    coalesceEqual acc 0 1 [] ti e =
      ⟨DIFF_EQUAL, e⟩ :: ⟨DIFF_INSERT, ti⟩ :: acc := by
  unfold coalesceEqual
  rw [if_neg (by omega), if_neg (by omega), if_pos rfl]

theorem factorPrefix_zero (acc : List Diff) (td ti : Str)
    (h : diffCommonPrefix ti td = 0) : factorPrefix acc td ti = (acc, td, ti) := by
  unfold factorPrefix
  rw [h, if_neg (by omega)]

theorem factorSuffix_zero (e td ti : Str)
    (h : diffCommonSuffix ti td = 0) : factorSuffix e td ti = (e, td, ti) := by
  unfold factorSuffix
  rw [h, if_neg (by omega)]

theorem coalesceEqual_11 (acc : List Diff) (td ti e : Str)
    (h1 : diffCommonPrefix ti td = 0) (h2 : diffCommonSuffix ti td = 0)
    (h3 : td ≠ []) (h4 : ti ≠ []) :
    coalesceEqual acc 1 1 td ti e =
      ⟨DIFF_EQUAL, e⟩ :: ⟨DIFF_INSERT, ti⟩ :: ⟨DIFF_DELETE, td⟩ :: acc := by
  unfold coalesceEqual
  rw [if_pos (by omega), if_pos ⟨by omega, by omega⟩]
  simp only [factorPrefix_zero acc td ti h1, factorSuffix_zero e td ti h2]
  unfold emitRun
  rw [if_pos h3, if_pos h4]

theorem coalesceLoop_cons_equal (d : Diff) (rest acc : List Diff)
    (cd ci : Nat) (td ti : Str) (h : d.op = DIFF_EQUAL) :
    coalesceLoop (d :: rest) acc cd ci td ti =
      coalesceLoop rest (coalesceEqual acc cd ci td ti d.text) 0 0 [] [] := by
  conv_lhs => unfold coalesceLoop
  rw [if_neg (by rw [h]; decide), if_neg (by rw [h]; decide)]

theorem coalesceLoop_cons_delete (d : Diff) (rest acc : List Diff)
    (cd ci : Nat) (td ti : Str) (h : d.op = DIFF_DELETE) :
    coalesceLoop (d :: rest) acc cd ci td ti =
      coalesceLoop rest acc (cd + 1) ci (td ++ d.text) ti := by
  conv_lhs => unfold coalesceLoop
  rw [if_neg (by rw [h]; decide), if_pos h]

theorem coalesceLoop_cons_insert (d : Diff) (rest acc : List Diff)
    (cd ci : Nat) (td ti : Str) (h : d.op = DIFF_INSERT) :
    coalesceLoop (d :: rest) acc cd ci td ti =
      coalesceLoop rest acc cd (ci + 1) td (ti ++ d.text) := by
  conv_lhs => unfold coalesceLoop
  rw [if_pos h]

theorem Diff_eta (d : Diff) (o : Op) (h : d.op = o) : (⟨o, d.text⟩ : Diff) = d := by
  rw [← h]

theorem coalesceLoop_reconstruct_nil (acc : List Diff) :
    coalesceLoop [] acc 0 0 [] [] = dummyEnd acc := by
  show coalesceEqual acc 0 0 [] [] [] = dummyEnd acc
  cases acc with
  | nil => rw [coalesceEqual_00_nil]; rfl
  | cons a as =>
    by_cases ha : a.op = DIFF_EQUAL
    · rw [coalesceEqual_00_merge a as [] ha]
      simp only [dummyEnd]
      rw [if_pos ha]
    · rw [coalesceEqual_00_edit a as [] ha]
      simp only [dummyEnd]
      rw [if_neg ha]

/-- On a reduced script (`coalescedStrong` chain), the coalescing walk only
    appends the dummy EQUAL: it reconstructs its input. -/
theorem coalesceLoop_reconstruct : ∀ (n : Nat) (rest acc : List Diff),
    rest.length ≤ n →
    List.Chain' coalescedStrong rest →
    List.Chain' (fun u v => coalescedStrong v u) acc →
    (∀ a as b bs, acc = a :: as → rest = b :: bs → coalescedStrong a b) →
    coalesceLoop rest acc 0 0 [] [] = dummyEnd (rest.reverse ++ acc) := by
  intro n
  induction n with
  | zero =>
    intro rest acc hlen hrest hacc hlink
    have hre : rest = [] := List.length_eq_zero.mp (Nat.le_zero.mp hlen)
    subst hre
    simpa using coalesceLoop_reconstruct_nil acc
  | succ n ih =>
    intro rest acc hlen hrest hacc hlink
    rcases rest with _ | ⟨d, rest2⟩
    · simpa using coalesceLoop_reconstruct_nil acc
    rcases hop : d.op with _ | _ | _
    case equal =>
      -- d is an EQUAL: emitted (never merged backwards: the previous element
      -- is an edit by the no-adjacent-EQUALs hypothesis)
      rw [coalesceLoop_cons_equal d rest2 acc 0 0 [] [] hop]
      have hstep : coalesceEqual acc 0 0 [] [] d.text = d :: acc := by
        cases acc with
        | nil => rw [coalesceEqual_00_nil]; rw [Diff_eta d DIFF_EQUAL hop]
        | cons a as =>
          have hS := hlink a as d rest2 rfl rfl
          have ha : a.op ≠ DIFF_EQUAL := fun hc => hS.2 ⟨hc, hop⟩
          rw [coalesceEqual_00_edit a as d.text ha, Diff_eta d DIFF_EQUAL hop]
      rw [hstep]
      rw [ih rest2 (d :: acc) (by simpa using hlen) hrest.tail ?_ ?_]
      · simp
      · cases acc with
        | nil => exact List.chain'_singleton _
        | cons a as =>
          rw [List.chain'_cons]
          exact ⟨hlink a as d rest2 rfl rfl, hacc⟩
      · intro a as b bs ha hb
        injection ha with h1 h2
        subst h1
        subst hb
        exact (List.chain'_cons.mp hrest).1
    case delete =>
      rw [coalesceLoop_cons_delete d rest2 acc 0 0 [] [] hop]
      simp only [List.nil_append]
      rcases rest2 with _ | ⟨e, rest3⟩
      · show coalesceEqual acc 1 0 d.text [] [] = _
        rw [coalesceEqual_10, Diff_eta d DIFF_DELETE hop]
        simp only [List.reverse_cons, List.reverse_nil, List.nil_append,
          List.cons_append, List.singleton_append]
        simp only [dummyEnd]
        rw [if_neg (by rw [hop]; decide)]
      rcases hopE : e.op with _ | _ | _
      case delete =>
        exfalso
        have hS := (List.chain'_cons.mp hrest).1
        rcases hS.1.1 with hu | hu | hu
        · rw [hop] at hu; exact absurd hu (by decide)
        · rw [hopE] at hu; exact absurd hu (by decide)
        · rw [hopE] at hu; exact absurd hu.2 (by decide)
      case equal =>
        rw [coalesceLoop_cons_equal e rest3 acc 1 0 d.text [] hopE]
        rw [coalesceEqual_10, Diff_eta d DIFF_DELETE hop, Diff_eta e DIFF_EQUAL hopE]
        have hrest3 : List.Chain' coalescedStrong (e :: rest3) :=
          (List.chain'_cons.mp hrest).2
        rw [ih rest3 (e :: d :: acc)
          (by simp only [List.length_cons] at hlen; omega) hrest3.tail ?_ ?_]
        · simp
        · rw [List.chain'_cons]
          refine ⟨(List.chain'_cons.mp hrest).1, ?_⟩
          cases acc with
          | nil => exact List.chain'_singleton _
          | cons a as =>
            rw [List.chain'_cons]
            exact ⟨hlink a as d (e :: rest3) rfl rfl, hacc⟩
        · intro a as b bs ha hb
          injection ha with h1 h2
          subst h1
          subst hb
          exact (List.chain'_cons.mp hrest3).1
      case insert =>
        rw [coalesceLoop_cons_insert e rest3 acc 1 0 d.text [] hopE]
        simp only [List.nil_append]
        have hSde := (List.chain'_cons.mp hrest).1
        have hfact := hSde.1.2 hop hopE
        rcases hfact with ⟨hd1, he1, hp, hs⟩
        have hrest3 : List.Chain' coalescedStrong (e :: rest3) :=
          (List.chain'_cons.mp hrest).2
        rcases rest3 with _ | ⟨f, rest4⟩
        · show coalesceEqual acc 1 1 d.text e.text [] = _
          rw [coalesceEqual_11 acc d.text e.text [] hp hs hd1 he1,
            Diff_eta d DIFF_DELETE hop, Diff_eta e DIFF_INSERT hopE]
          simp only [List.reverse_cons, List.reverse_nil, List.nil_append,
            List.cons_append, List.singleton_append, List.append_assoc]
          simp only [dummyEnd]
          rw [if_neg (by rw [hopE]; decide)]
        have hSef := (List.chain'_cons.mp hrest3).1
        have hopF : f.op = DIFF_EQUAL := by
          rcases hSef.1.1 with hu | hu | hu
          · rw [hopE] at hu; exact absurd hu (by decide)
          · exact hu
          · rw [hopE] at hu; exact absurd hu.1 (by decide)
        rw [coalesceLoop_cons_equal f rest4 acc 1 1 d.text e.text hopF]
        rw [coalesceEqual_11 acc d.text e.text f.text hp hs hd1 he1,
          Diff_eta d DIFF_DELETE hop, Diff_eta e DIFF_INSERT hopE,
          Diff_eta f DIFF_EQUAL hopF]
        have hrest4 : List.Chain' coalescedStrong (f :: rest4) :=
          (List.chain'_cons.mp hrest3).2
        rw [ih rest4 (f :: e :: d :: acc) ?_ hrest4.tail ?_ ?_]
        · simp
        · have := hlen
          simp only [List.length_cons] at this ⊢
          omega
        · rw [List.chain'_cons]
          refine ⟨hSef, ?_⟩
          rw [List.chain'_cons]
          refine ⟨hSde, ?_⟩
          cases acc with
          | nil => exact List.chain'_singleton _
          | cons a as =>
            rw [List.chain'_cons]
            exact ⟨hlink a as d (e :: f :: rest4) rfl rfl, hacc⟩
        · intro a as b bs ha hb
          injection ha with h1 h2
          subst h1
          subst hb
          exact (List.chain'_cons.mp hrest4).1
    case insert =>
      rw [coalesceLoop_cons_insert d rest2 acc 0 0 [] [] hop]
      simp only [List.nil_append]
      rcases rest2 with _ | ⟨e, rest3⟩
      · show coalesceEqual acc 0 1 [] d.text [] = _
        rw [coalesceEqual_01, Diff_eta d DIFF_INSERT hop]
        simp only [List.reverse_cons, List.reverse_nil, List.nil_append,
          List.cons_append, List.singleton_append]
        simp only [dummyEnd]
        rw [if_neg (by rw [hop]; decide)]
      have hSde := (List.chain'_cons.mp hrest).1
      have hopE : e.op = DIFF_EQUAL := by
        rcases hSde.1.1 with hu | hu | hu
        · rw [hop] at hu; exact absurd hu (by decide)
        · exact hu
        · rw [hop] at hu; exact absurd hu.1 (by decide)
      rw [coalesceLoop_cons_equal e rest3 acc 0 1 [] d.text hopE]
      rw [coalesceEqual_01, Diff_eta d DIFF_INSERT hop, Diff_eta e DIFF_EQUAL hopE]
      have hrest3 : List.Chain' coalescedStrong (e :: rest3) :=
        (List.chain'_cons.mp hrest).2
      rw [ih rest3 (e :: d :: acc)
        (by simp only [List.length_cons] at hlen; omega) hrest3.tail ?_ ?_]
      · simp
      · rw [List.chain'_cons]
        refine ⟨hSde, ?_⟩
        cases acc with
        | nil => exact List.chain'_singleton _
        | cons a as =>
          rw [List.chain'_cons]
          exact ⟨hlink a as d (e :: rest3) rfl rfl, hacc⟩
      · intro a as b bs ha hb
        injection ha with h1 h2
        subst h1
        subst hb
        exact (List.chain'_cons.mp hrest3).1

theorem chain'_and {R S : Diff → Diff → Prop} : ∀ (l : List Diff),
    List.Chain' R l → List.Chain' S l →
    List.Chain' (fun a b => R a b ∧ S a b) l := by
  intro l
  induction l with
  | nil => intro _ _; exact List.chain'_nil
  | cons a t ih =>
    intro hR hS
    cases t with
    | nil => exact List.chain'_singleton _
    | cons b t2 =>
      rw [List.chain'_cons] at hR hS ⊢
      exact ⟨⟨hR.1, hS.1⟩, ih hR.2 hS.2⟩

/-- On a reduced script with no adjacent EQUALs and no empty EQUALs, the
    first cleanup pass is the identity. -/
theorem cleanupMergePass1_fix (r : List Diff)
    (hchain : List.Chain' coalescedStrong r)
    (hne : ∀ x ∈ r, x.op = DIFF_EQUAL → x.text ≠ []) :
    cleanupMergePass1 r = r := by
  unfold cleanupMergePass1
  rw [coalesceLoop_reconstruct r.length r [] (le_refl _) hchain List.chain'_nil
    (by intro a as b bs ha hb; exact absurd ha (by simp)), List.append_nil]
  rcases hr : r.reverse with _ | ⟨a, as⟩
  · have hrnil : r = [] := by simpa using congrArg List.reverse hr
    subst hrnil
    rfl
  · have hr2 : r = (a :: as).reverse := by simpa using congrArg List.reverse hr
    by_cases ha : a.op = DIFF_EQUAL
    · have hane : a.text ≠ [] := hne a (by rw [hr2]; simp) ha
      simp only [dummyEnd]
      rw [if_pos ha]
      show (if a.text ++ [] = [] then as.reverse
        else ((⟨a.op, a.text ++ []⟩ : Diff) :: as).reverse) = r
      rw [if_neg (by simpa using hane), List.append_nil, hr2]
    · simp only [dummyEnd]
      rw [if_neg ha]
      show (if ([] : Str) = [] then (a :: as).reverse else
        ((⟨DIFF_EQUAL, []⟩ : Diff) :: a :: as).reverse) = r
      rw [if_pos rfl, hr2]

/-- Packaging of the `diffCleanupMerge` fixpoint facts for a result `r` with
    no adjacent EQUALs: a second application returns `r` unchanged. -/
theorem diffCleanupMerge_fix (r : List Diff)
    (hfix : shiftLoop [] r false = (r, false))
    (hchain : List.Chain' coalesced r)
    (hEE : List.Chain' (fun u v => ¬(u.op = DIFF_EQUAL ∧ v.op = DIFF_EQUAL)) r)
    (hne : ∀ x ∈ r, x.op = DIFF_EQUAL → x.text ≠ []) :
    ∀ fuel2 : Nat, diffCleanupMerge (fuel2 + 1) r = some r := by
  intro fuel2
  have hstrong : List.Chain' coalescedStrong r := chain'_and r hchain hEE
  unfold diffCleanupMerge
  rw [cleanupMergePass1_fix r hstrong hne, hfix]

/-! ## Claims C2 and C3 -/

/-- Claim C2, counterexample: `diff_cleanup_merge` can return two consecutive
    EQUAL Ops (an exactly cancelling delete/insert pair merges into the
    preceding EQUAL, leaving the following EQUAL unmerged), and an Op with
    empty text can survive (a lone empty INSERT is left in place).  Inputs:
    `[DELETE "a", INSERT "a", EQUAL "y"]` and `[INSERT ""]`. -/
theorem claimC2_counterexample :
    diffCleanupMerge 2 [⟨DIFF_DELETE, [97]⟩, ⟨DIFF_INSERT, [97]⟩, ⟨DIFF_EQUAL, [121]⟩] =
      some [⟨DIFF_EQUAL, [97]⟩, ⟨DIFF_EQUAL, [121]⟩] ∧
    diffCleanupMerge 2 [⟨DIFF_INSERT, []⟩] = some [⟨DIFF_INSERT, []⟩] :=
  ⟨by decide, by decide⟩

/-- Claim C2 (amended): after `diff_cleanup_merge` completes, every pair of
    consecutive Ops either contains an EQUAL or is a DELETE immediately
    followed by an INSERT — so no two consecutive DELETEs, no two consecutive
    INSERTs, and no INSERT directly followed by a DELETE.  (Two consecutive
    EQUALs and empty-text Ops can survive, see the counterexample.)  Since
    `diff_main` runs `diff_cleanup_merge` last, its scripts inherit this. -/
theorem claimC2_amended (fuel : Nat) (d r : List Diff)
    (h : diffCleanupMerge fuel d = some r) : List.Chain' okAdj r := by
  obtain ⟨⟨x, hx⟩, _⟩ := diffCleanupMerge_extract fuel d r h
  have hc := cleanupMergePass1_chain x
  rw [hx] at hc
  exact hc.imp (fun a b hab => hab.1)

/-- Witness for `claimC2_amended` at the concrete input
    `[DELETE "ab", INSERT "b", EQUAL "c"]`. -/
theorem claimC2_witness :
    List.Chain' okAdj [⟨DIFF_DELETE, [97]⟩, ⟨DIFF_EQUAL, [98, 99]⟩] :=
  claimC2_amended 2 [⟨DIFF_DELETE, [97, 98]⟩, ⟨DIFF_INSERT, [98]⟩, ⟨DIFF_EQUAL, [99]⟩]
    [⟨DIFF_DELETE, [97]⟩, ⟨DIFF_EQUAL, [98, 99]⟩] (by decide)

/-- Claim C3, counterexample: `diff_cleanup_merge` is not idempotent.  On
    `d = [DELETE "a", INSERT "a", EQUAL "y"]` the first application returns
    `[EQUAL "a", EQUAL "y"]`; the second merges the two EQUALs into
    `[EQUAL "ay"]`, a different Op sequence. -/
theorem claimC3_counterexample :
    diffCleanupMerge 2 [⟨DIFF_DELETE, [97]⟩, ⟨DIFF_INSERT, [97]⟩, ⟨DIFF_EQUAL, [121]⟩] =
      some [⟨DIFF_EQUAL, [97]⟩, ⟨DIFF_EQUAL, [121]⟩] ∧
    diffCleanupMerge 2 [⟨DIFF_EQUAL, [97]⟩, ⟨DIFF_EQUAL, [121]⟩] =
      some [⟨DIFF_EQUAL, [97, 121]⟩] ∧
    some [(⟨DIFF_EQUAL, [97, 121]⟩ : Diff)] ≠
      some [⟨DIFF_EQUAL, [97]⟩, ⟨DIFF_EQUAL, [121]⟩] :=
  ⟨by decide, by decide, by decide⟩

/-- Claim C3 (amended): `diff_cleanup_merge` is idempotent on every result
    that contains no two consecutive EQUAL Ops and no EQUAL Op with empty
    text: applying it again returns the same Op sequence (for any recursion
    fuel).  The counterexample shows the restriction is necessary. -/
theorem claimC3_amended (fuel : Nat) (d r : List Diff)
    (h : diffCleanupMerge fuel d = some r)
    (hEE : List.Chain' (fun u v => ¬(u.op = DIFF_EQUAL ∧ v.op = DIFF_EQUAL)) r)
    (hne : ∀ x ∈ r, x.op = DIFF_EQUAL → x.text ≠ []) (fuel2 : Nat) :
    diffCleanupMerge (fuel2 + 1) r = some r := by
  obtain ⟨⟨x, hx⟩, hfix⟩ := diffCleanupMerge_extract fuel d r h
  have hchain := cleanupMergePass1_chain x
  rw [hx] at hchain
  exact diffCleanupMerge_fix r hfix hchain hEE hne fuel2

/-- Witness for `claimC3_amended` at the concrete input
    `[DELETE "a", INSERT "b"]` (a fixpoint of the cleanup). -/
theorem claimC3_witness :
    diffCleanupMerge 1 [⟨DIFF_DELETE, [97]⟩, ⟨DIFF_INSERT, [98]⟩] =
      some [⟨DIFF_DELETE, [97]⟩, ⟨DIFF_INSERT, [98]⟩] :=
  claimC3_amended 1 [⟨DIFF_DELETE, [97]⟩, ⟨DIFF_INSERT, [98]⟩]
    [⟨DIFF_DELETE, [97]⟩, ⟨DIFF_INSERT, [98]⟩] (by decide)
    (List.chain'_cons.mpr ⟨by decide, List.chain'_singleton _⟩) (by decide) 0

/-! ## `diffHalfMatch_` (index.js:771-885) -/

/-- One iteration of `diffHalfMatchI_`'s occurrence loop: the state carried is
    `(bestCommon, bestLongtextA, bestLongtextB, bestShorttextA,
    bestShorttextB)` (index.js:800-826).  `j` walks the occurrences of `seed`
    in `shorttext`; since `seed` is nonempty at every call, `j` strictly
    increases, so `shorttext.length + 1` fuel runs the loop to completion. -/
def hmILoop (longtext shorttext seed : Str) (i : Nat) :
    Nat → Int → Str × Str × Str × Str × Str → Str × Str × Str × Str × Str
  | 0, _, best => best
  | fuel + 1, j, best =>
    let j1 := jsIndexOfFrom shorttext seed (j + 1)
    if j1 = -1 then best
    else
      let prefixLength := diffCommonPrefix (jsSubstringFrom longtext i)
        (jsSubstringFrom shorttext j1)
      let suffixLength := diffCommonSuffix (jsSubstring longtext 0 i)
        (jsSubstring shorttext 0 j1)
      if best.1.length < suffixLength + prefixLength then
        hmILoop longtext shorttext seed i fuel j1
          (jsSubstring shorttext (j1 - suffixLength) j1 ++
            jsSubstring shorttext j1 (j1 + prefixLength),
           jsSubstring longtext 0 ((i : Int) - suffixLength),
           jsSubstringFrom longtext ((i : Int) + prefixLength),
           jsSubstring shorttext 0 (j1 - suffixLength),
           jsSubstringFrom shorttext (j1 + prefixLength))
      else
        hmILoop longtext shorttext seed i fuel j1 best

/-- `diffHalfMatchI_` (index.js:798-839): does a quarter-length seed at
    position `i` of `longtext` extend to a half-length common substring? -/
def diffHalfMatchI (longtext shorttext : Str) (i : Nat) :
    Option (Str × Str × Str × Str × Str) :=
  let seed := jsSubstring longtext i ((i : Int) + longtext.length / 4)
  let best := hmILoop longtext shorttext seed i (shorttext.length + 1) (-1)
    ([], [], [], [], [])
  if best.1.length * 2 ≥ longtext.length then
    some (best.2.1, best.2.2.1, best.2.2.2.1, best.2.2.2.2, best.1)
  else none

/-- `diffHalfMatch_` (index.js:771-885). Returns
    `(text1A, text1B, text2A, text2B, midCommon)` or `none`. -/
def diffHalfMatch (cfg : Config) (text1 text2 : Str) :
    Option (Str × Str × Str × Str × Str) :=
  if cfg.diffTimeout ≤ 0 then none
  else
    let longtext := if text1.length > text2.length then text1 else text2
    let shorttext := if text1.length > text2.length then text2 else text1
    if longtext.length < 4 ∨ shorttext.length * 2 < longtext.length then none
    else
      let hm1 := diffHalfMatchI longtext shorttext ((longtext.length + 3) / 4)
      let hm2 := diffHalfMatchI longtext shorttext ((longtext.length + 1) / 2)
      let hm :=
        match hm1, hm2 with
        | none, none => none
        | some h1, none => some h1
        | none, some h2 => some h2
        | some h1, some h2 =>
          -- Both matched.  Select the longest (index.js:863-866).
          some (if h1.2.2.2.2.length > h2.2.2.2.2.length then h1 else h2)
      match hm with
      | none => none
      | some h =>
        if text1.length > text2.length then
          some (h.1, h.2.1, h.2.2.1, h.2.2.2.1, h.2.2.2.2)
        else
          some (h.2.2.1, h.2.2.2.1, h.1, h.2.1, h.2.2.2.2)

/-! Segment identities used to verify the half-match decomposition. -/

theorem jsSubstring_zero (s : Str) (p : Nat) (hp : p ≤ s.length) :
    jsSubstring s 0 p = s.take p := by
  have h := jsSubstring_nat s 0 p (Nat.zero_le p) hp
  rw [List.drop_zero] at h
  simpa using h

theorem jsSubstringFrom_nat (s : Str) (q : Nat) (hq : q ≤ s.length) :
    jsSubstringFrom s q = s.drop q := by
  unfold jsSubstringFrom
  rw [jsSubstring_nat s q s.length hq (le_refl _), List.take_length]

theorem take_drop_chain (u : Str) (p q : Nat) (hpq : p ≤ q) :
    (u.take q).drop p ++ u.drop q = u.drop p := by
  have h1 : (u.take q).drop p = (u.drop p).take (q - p) := List.drop_take q p u
  have h2 : u.drop q = (u.drop p).drop (q - p) := by
    rw [List.drop_drop]
    congr 1
    omega
  rw [h1, h2, List.take_append_drop]

theorem seg3 (s : Str) (p q : Nat) (hpq : p ≤ q) (hq : q ≤ s.length) :
    s.take p ++ ((s.take q).drop p ++ s.drop q) = s := by
  rw [take_drop_chain s p q hpq, List.take_append_drop]

theorem seg_append (s : Str) (p q r : Nat) (hpq : p ≤ q) (hqr : q ≤ r) :
    (s.take q).drop p ++ (s.take r).drop q = (s.take r).drop p := by
  have h := take_drop_chain (s.take r) p q hpq
  rw [List.take_take, min_eq_left hqr] at h
  exact h

theorem rev_tail_eq (u v : Str) (su : Nat)
    (h : u.reverse.take su = v.reverse.take su) :
    u.drop (u.length - su) = v.drop (v.length - su) := by
  have h1 : (u.reverse.take su).reverse = u.drop (u.length - su) := by
    rw [List.reverse_take]
    simp
  have h2 : (v.reverse.take su).reverse = v.drop (v.length - su) := by
    rw [List.reverse_take]
    simp
  rw [← h1, ← h2, h]

theorem jsIndexOfFrom_range (s sub : Str) (st : Int) :
    jsIndexOfFrom s sub st = -1 ∨
    (0 ≤ jsIndexOfFrom s sub st ∧ jsIndexOfFrom s sub st ≤ (s.length : Int)) := by
  simp only [jsIndexOfFrom]
  cases hf : ((List.range (s.length + 1)).drop
      ((min (max st 0) (s.length : Int)).toNat)).find? (fun i => sub.isPrefixOf (s.drop i)) with
  | none => left; rfl
  | some i =>
    right
    have hmem : i ∈ (List.range (s.length + 1)).drop
        ((min (max st 0) (s.length : Int)).toNat) := List.mem_of_find?_eq_some hf
    have hmem2 : i ∈ List.range (s.length + 1) :=
      List.mem_of_mem_drop hmem
    rw [List.mem_range] at hmem2
    constructor
    · show (0 : Int) ≤ (i : Int)
      exact Int.natCast_nonneg i
    · show (i : Int) ≤ (s.length : Int)
      exact_mod_cast Nat.lt_succ_iff.mp hmem2

/-- The half-match 5-tuple decomposes `longtext` and `shorttext`. -/
def hmValid (longtext shorttext : Str) (best : Str × Str × Str × Str × Str) : Prop :=
  best.2.1 ++ best.1 ++ best.2.2.1 = longtext ∧
  best.2.2.2.1 ++ best.1 ++ best.2.2.2.2 = shorttext

/-- The updated best tuple in `diffHalfMatchI_`'s loop decomposes both texts
    (index.js:816-825). -/
theorem hmUpdate_valid (longtext shorttext : Str) (i jn : Nat)
    (hi : i ≤ longtext.length) (hj : jn ≤ shorttext.length) :
    hmValid longtext shorttext
      (jsSubstring shorttext ((jn : Int) -
          diffCommonSuffix (jsSubstring longtext 0 i) (jsSubstring shorttext 0 jn)) jn ++
        jsSubstring shorttext jn ((jn : Int) +
          diffCommonPrefix (jsSubstringFrom longtext i) (jsSubstringFrom shorttext jn)),
       jsSubstring longtext 0 ((i : Int) -
          diffCommonSuffix (jsSubstring longtext 0 i) (jsSubstring shorttext 0 jn)),
       jsSubstringFrom longtext ((i : Int) +
          diffCommonPrefix (jsSubstringFrom longtext i) (jsSubstringFrom shorttext jn)),
       jsSubstring shorttext 0 ((jn : Int) -
          diffCommonSuffix (jsSubstring longtext 0 i) (jsSubstring shorttext 0 jn)),
       jsSubstringFrom shorttext ((jn : Int) +
          diffCommonPrefix (jsSubstringFrom longtext i) (jsSubstringFrom shorttext jn))) := by
  have hpre_eq : diffCommonPrefix (jsSubstringFrom longtext i) (jsSubstringFrom shorttext jn) =
      lcpLen (longtext.drop i) (shorttext.drop jn) := by
    rw [jsSubstringFrom_nat _ i hi, jsSubstringFrom_nat _ jn hj, diffCommonPrefix_eq]
  have hsuf_eq : diffCommonSuffix (jsSubstring longtext 0 i) (jsSubstring shorttext 0 jn) =
      lcpLen (longtext.take i).reverse (shorttext.take jn).reverse := by
    rw [jsSubstring_zero _ i hi, jsSubstring_zero _ jn hj, diffCommonSuffix_eq]
  set pre := diffCommonPrefix (jsSubstringFrom longtext i) (jsSubstringFrom shorttext jn)
  set suf := diffCommonSuffix (jsSubstring longtext 0 i) (jsSubstring shorttext 0 jn)
  have hpre1 : pre ≤ longtext.length - i := by
    rw [hpre_eq]
    simpa using lcpLen_le_left (longtext.drop i) (shorttext.drop jn)
  have hpre2 : pre ≤ shorttext.length - jn := by
    rw [hpre_eq]
    simpa using lcpLen_le_right (longtext.drop i) (shorttext.drop jn)
  have hsuf1 : suf ≤ i := by
    rw [hsuf_eq]
    have := lcpLen_le_left (longtext.take i).reverse (shorttext.take jn).reverse
    simp only [List.length_reverse, List.length_take] at this
    omega
  have hsuf2 : suf ≤ jn := by
    rw [hsuf_eq]
    have := lcpLen_le_right (longtext.take i).reverse (shorttext.take jn).reverse
    simp only [List.length_reverse, List.length_take] at this
    omega
  have hpre_take : (longtext.drop i).take pre = (shorttext.drop jn).take pre := by
    rw [hpre_eq]
    exact take_eq_of_le_lcpLen _ _ _ (le_refl _)
  have hsuf_take : (longtext.take i).reverse.take suf =
      (shorttext.take jn).reverse.take suf := by
    rw [hsuf_eq]
    exact take_eq_of_le_lcpLen _ _ _ (le_refl _)
  have piece1 : (longtext.take i).drop (i - suf) = (shorttext.take jn).drop (jn - suf) := by
    have h := rev_tail_eq (longtext.take i) (shorttext.take jn) suf hsuf_take
    rw [List.length_take, min_eq_left hi, List.length_take, min_eq_left hj] at h
    exact h
  have piece2 : (longtext.take (i + pre)).drop i = (shorttext.take (jn + pre)).drop jn := by
    rw [List.drop_take (i + pre) i, List.drop_take (jn + pre) jn]
    have e1 : i + pre - i = pre := by omega
    have e2 : jn + pre - jn = pre := by omega
    rw [e1, e2, hpre_take]
  -- rewrite all the tuple components into `take`/`drop` form
  have c1 : ((jn : Int) - suf) = (((jn - suf : Nat) : Nat) : Int) := by omega
  have c2 : ((jn : Int) + pre) = (((jn + pre : Nat) : Nat) : Int) := by omega
  have c3 : ((i : Int) - suf) = (((i - suf : Nat) : Nat) : Int) := by omega
  have c4 : ((i : Int) + pre) = (((i + pre : Nat) : Nat) : Int) := by omega
  rw [c1, c2, c3, c4]
  rw [jsSubstring_nat shorttext (jn - suf) jn (by omega) hj]
  rw [jsSubstring_nat shorttext jn (jn + pre) (by omega) (by omega)]
  rw [jsSubstring_zero longtext (i - suf) (by omega)]
  rw [jsSubstringFrom_nat longtext (i + pre) (by omega)]
  rw [jsSubstring_zero shorttext (jn - suf) (by omega)]
  rw [jsSubstringFrom_nat shorttext (jn + pre) (by omega)]
  constructor
  · show longtext.take (i - suf) ++
      ((shorttext.take jn).drop (jn - suf) ++ (shorttext.take (jn + pre)).drop jn) ++
      longtext.drop (i + pre) = longtext
    rw [← piece1, ← piece2]
    rw [seg_append longtext (i - suf) i (i + pre) (by omega) (by omega)]
    rw [List.append_assoc]
    exact seg3 longtext (i - suf) (i + pre) (by omega) (by omega)
  · show shorttext.take (jn - suf) ++
      ((shorttext.take jn).drop (jn - suf) ++ (shorttext.take (jn + pre)).drop jn) ++
      shorttext.drop (jn + pre) = shorttext
    rw [seg_append shorttext (jn - suf) jn (jn + pre) (by omega) (by omega)]
    rw [List.append_assoc]
    exact seg3 shorttext (jn - suf) (jn + pre) (by omega) (by omega)

/-- The loop of `diffHalfMatchI_` keeps the best tuple either untouched
    (initial) or a valid decomposition of both texts. -/
theorem hmILoop_valid (longtext shorttext seed : Str) (i : Nat)
    (hi : i ≤ longtext.length) :
    ∀ (fuel : Nat) (j : Int) (best : Str × Str × Str × Str × Str),
    (best = ([], [], [], [], []) ∨ hmValid longtext shorttext best) →
    (hmILoop longtext shorttext seed i fuel j best = ([], [], [], [], []) ∨
      hmValid longtext shorttext (hmILoop longtext shorttext seed i fuel j best)) := by
  intro fuel
  induction fuel with
  | zero =>
    intro j best hbest
    simpa [hmILoop] using hbest
  | succ fuel ih =>
    intro j best hbest
    simp only [hmILoop]
    by_cases hj1 : jsIndexOfFrom shorttext seed (j + 1) = -1
    · rw [if_pos hj1]
      exact hbest
    · rw [if_neg hj1]
      rcases jsIndexOfFrom_range shorttext seed (j + 1) with hr | ⟨hr0, hrle⟩
      · exact absurd hr hj1
      split
      · apply ih
        right
        have hcast : jsIndexOfFrom shorttext seed (j + 1) =
            (((jsIndexOfFrom shorttext seed (j + 1)).toNat : Nat) : Int) :=
          (Int.toNat_of_nonneg hr0).symm
        rw [hcast]
        exact hmUpdate_valid longtext shorttext i
          (jsIndexOfFrom shorttext seed (j + 1)).toNat hi (by omega)
      · exact ih _ best hbest

/-- `diffHalfMatchI_` only returns valid half-length decompositions. -/
theorem diffHalfMatchI_valid (longtext shorttext : Str) (i : Nat)
    (hi : i ≤ longtext.length) (hlen : 0 < longtext.length)
    (a b c d m : Str)
    (h : diffHalfMatchI longtext shorttext i = some (a, b, c, d, m)) :
    a ++ m ++ b = longtext ∧ c ++ m ++ d = shorttext ∧
      longtext.length ≤ 2 * m.length := by
  simp only [diffHalfMatchI] at h
  have hloop := hmILoop_valid longtext shorttext
    (jsSubstring longtext i ((i : Int) + longtext.length / 4)) i hi
    (shorttext.length + 1) (-1) ([], [], [], [], []) (Or.inl rfl)
  set best := hmILoop longtext shorttext
    (jsSubstring longtext i ((i : Int) + longtext.length / 4)) i
    (shorttext.length + 1) (-1) ([], [], [], [], []) with hbestdef
  rcases hloop with hinit | hvalid
  · rw [hinit] at h
    simp only [List.length_nil] at h
    rw [if_neg (by omega)] at h
    exact absurd h (by simp)
  · revert h
    split
    · next hge =>
      intro h
      injection h with h1
      simp only [Prod.mk.injEq] at h1
      obtain ⟨e1, e2, e3, e4, e5⟩ := h1
      subst e1; subst e2; subst e3; subst e4; subst e5
      exact ⟨hvalid.1, hvalid.2, by omega⟩
    · intro h
      exact absurd h (by simp)

/-- Whatever `diffHalfMatch_` selects came from one of the two seeded
    searches, hence is a valid decomposition. -/
theorem hmSelect_valid (longN shortN : Str) (h41 : 4 ≤ longN.length)
    (hm : Str × Str × Str × Str × Str)
    (hcase : diffHalfMatchI longN shortN ((longN.length + 3) / 4) = some hm ∨
      diffHalfMatchI longN shortN ((longN.length + 1) / 2) = some hm) :
    hm.1 ++ hm.2.2.2.2 ++ hm.2.1 = longN ∧
    hm.2.2.1 ++ hm.2.2.2.2 ++ hm.2.2.2.1 = shortN ∧
    longN.length ≤ 2 * hm.2.2.2.2.length := by
  obtain ⟨a, b, c, d, m⟩ := hm
  rcases hcase with hc | hc
  · exact diffHalfMatchI_valid longN shortN _ (by omega) (by omega) a b c d m hc
  · exact diffHalfMatchI_valid longN shortN _ (by omega) (by omega) a b c d m hc

/-- Claim C7: whenever `diff_half_match` returns a 5-tuple
    `(text1A, text1B, text2A, text2B, midCommon)`, the tuple decomposes both
    inputs around the common middle and the middle is at least half the
    longer input; and it returns null whenever `diff_timeout ≤ 0`. -/
theorem claimC7 (cfg : Config) (text1 text2 : Str) :
    (∀ t1a t1b t2a t2b mid : Str,
      diffHalfMatch cfg text1 text2 = some (t1a, t1b, t2a, t2b, mid) →
      t1a ++ mid ++ t1b = text1 ∧ t2a ++ mid ++ t2b = text2 ∧
        max text1.length text2.length ≤ 2 * mid.length) ∧
    (cfg.diffTimeout ≤ 0 → diffHalfMatch cfg text1 text2 = none) := by
  constructor
  · intro t1a t1b t2a t2b mid h
    simp only [diffHalfMatch] at h
    by_cases ht : cfg.diffTimeout ≤ 0
    · rw [if_pos ht] at h
      exact absurd h (by simp)
    rw [if_neg ht] at h
    by_cases hlong : text1.length > text2.length
    · simp only [if_pos hlong] at h
      by_cases hguard : text1.length < 4 ∨ text2.length * 2 < text1.length
      · rw [if_pos hguard] at h
        exact absurd h (by simp)
      rw [if_neg hguard] at h
      push_neg at hguard
      rcases h1def : diffHalfMatchI text1 text2 ((text1.length + 3) / 4) with _ | h1v <;>
        rcases h2def : diffHalfMatchI text1 text2 ((text1.length + 1) / 2) with _ | h2v <;>
        rw [h1def, h2def] at h
      · exact absurd h (by simp)
      · injection h with h1
        simp only [Prod.mk.injEq] at h1
        obtain ⟨e1, e2, e3, e4, e5⟩ := h1
        subst e1; subst e2; subst e3; subst e4; subst e5
        obtain ⟨hv1, hv2, hv3⟩ := hmSelect_valid text1 text2 (by omega) h2v (Or.inr h2def)
        exact ⟨hv1, hv2, by rw [max_eq_left (le_of_lt hlong)]; exact hv3⟩
      · injection h with h1
        simp only [Prod.mk.injEq] at h1
        obtain ⟨e1, e2, e3, e4, e5⟩ := h1
        subst e1; subst e2; subst e3; subst e4; subst e5
        obtain ⟨hv1, hv2, hv3⟩ := hmSelect_valid text1 text2 (by omega) h1v (Or.inl h1def)
        exact ⟨hv1, hv2, by rw [max_eq_left (le_of_lt hlong)]; exact hv3⟩
      · injection h with h1
        simp only [Prod.mk.injEq] at h1
        obtain ⟨e1, e2, e3, e4, e5⟩ := h1
        subst e1; subst e2; subst e3; subst e4; subst e5
        have hsel : (if h2v.2.2.2.2.length < h1v.2.2.2.2.length then h1v else h2v) = h1v ∨
            (if h2v.2.2.2.2.length < h1v.2.2.2.2.length then h1v else h2v) = h2v := by
          split <;> simp
        obtain ⟨hv1, hv2, hv3⟩ := hmSelect_valid text1 text2 (by omega)
          (if h2v.2.2.2.2.length < h1v.2.2.2.2.length then h1v else h2v)
          (by rcases hsel with hs | hs <;> rw [hs]
              · exact Or.inl h1def
              · exact Or.inr h2def)
        exact ⟨hv1, hv2, by rw [max_eq_left (le_of_lt hlong)]; exact hv3⟩
    · simp only [if_neg hlong] at h
      by_cases hguard : text2.length < 4 ∨ text1.length * 2 < text2.length
      · rw [if_pos hguard] at h
        exact absurd h (by simp)
      rw [if_neg hguard] at h
      push_neg at hguard
      have hmax : max text1.length text2.length = text2.length :=
        max_eq_right (by omega)
      rcases h1def : diffHalfMatchI text2 text1 ((text2.length + 3) / 4) with _ | h1v <;>
        rcases h2def : diffHalfMatchI text2 text1 ((text2.length + 1) / 2) with _ | h2v <;>
        rw [h1def, h2def] at h
      · exact absurd h (by simp)
      · injection h with h1
        simp only [Prod.mk.injEq] at h1
        obtain ⟨e1, e2, e3, e4, e5⟩ := h1
        subst e1; subst e2; subst e3; subst e4; subst e5
        obtain ⟨hv1, hv2, hv3⟩ := hmSelect_valid text2 text1 (by omega) h2v (Or.inr h2def)
        exact ⟨hv2, hv1, by rw [hmax]; exact hv3⟩
      · injection h with h1
        simp only [Prod.mk.injEq] at h1
        obtain ⟨e1, e2, e3, e4, e5⟩ := h1
        subst e1; subst e2; subst e3; subst e4; subst e5
        obtain ⟨hv1, hv2, hv3⟩ := hmSelect_valid text2 text1 (by omega) h1v (Or.inl h1def)
        exact ⟨hv2, hv1, by rw [hmax]; exact hv3⟩
      · injection h with h1
        simp only [Prod.mk.injEq] at h1
        obtain ⟨e1, e2, e3, e4, e5⟩ := h1
        subst e1; subst e2; subst e3; subst e4; subst e5
        have hsel : (if h2v.2.2.2.2.length < h1v.2.2.2.2.length then h1v else h2v) = h1v ∨
            (if h2v.2.2.2.2.length < h1v.2.2.2.2.length then h1v else h2v) = h2v := by
          split <;> simp
        obtain ⟨hv1, hv2, hv3⟩ := hmSelect_valid text2 text1 (by omega)
          (if h2v.2.2.2.2.length < h1v.2.2.2.2.length then h1v else h2v)
          (by rcases hsel with hs | hs <;> rw [hs]
              · exact Or.inl h1def
              · exact Or.inr h2def)
        exact ⟨hv2, hv1, by rw [hmax]; exact hv3⟩
  · intro ht
    simp only [diffHalfMatch]
    rw [if_pos ht]

/-- Witness for C7 at text1 = "1234567890", text2 = "a345678z": the half
    match is ("12", "90", "a", "z", "345678"). -/
theorem claimC7_witness :
    ([49, 50] : Str) ++ [51, 52, 53, 54, 55, 56] ++ [57, 48] =
        ([49, 50, 51, 52, 53, 54, 55, 56, 57, 48] : Str) ∧
    ([97] : Str) ++ [51, 52, 53, 54, 55, 56] ++ [122] =
        ([97, 51, 52, 53, 54, 55, 56, 122] : Str) ∧
    max (List.length ([49, 50, 51, 52, 53, 54, 55, 56, 57, 48] : Str))
        (List.length ([97, 51, 52, 53, 54, 55, 56, 122] : Str)) ≤
      2 * List.length ([51, 52, 53, 54, 55, 56] : Str) :=
  (claimC7 {} [49, 50, 51, 52, 53, 54, 55, 56, 57, 48]
      [97, 51, 52, 53, 54, 55, 56, 122]).1
    [49, 50] [57, 48] [97] [122] [51, 52, 53, 54, 55, 56] (by decide)

/-! ### Delta encoding (index.js:1640-1738)

`diffToDelta` renders each diff as a tab-separated token: `+` followed by
the `encodeURI` of the inserted text (with `%20` turned back into spaces on
the joined string), `-`/`=` followed by the decimal length of the text.
`diffFromDelta` splits on tabs and rebuilds the diffs against `text1`,
raising the errors of index.js:1690, 1702, 1721 and 1728.  `encodeURI` and
`decodeURI` are the ECMAScript builtins, modelled on UTF-16 code units. -/

/-- ECMAScript WhiteSpace and LineTerminator code points (`parseInt` trims
    them). -/
def isJsWhitespace (c : Nat) : Bool :=
  c ∈ [9, 10, 11, 12, 13, 32, 160, 0x1680, 0x2000, 0x2001, 0x2002, 0x2003,
    0x2004, 0x2005, 0x2006, 0x2007, 0x2008, 0x2009, 0x200A, 0x2028, 0x2029,
    0x202F, 0x205F, 0x3000, 0xFEFF]

/-- Accumulate the leading decimal digits, ignoring everything from the
    first non-digit on (as `parseInt` does). -/
def digitsAcc : Str → Nat → Nat
  | c :: rest, acc =>
    if 48 ≤ c ∧ c ≤ 57 then digitsAcc rest (acc * 10 + (c - 48)) else acc
  | [], acc => acc

/-- The value of the longest digit prefix; `none` when there is no digit. -/
def digitsVal : Str → Option Nat
  | c :: rest => if 48 ≤ c ∧ c ≤ 57 then some (digitsAcc rest (c - 48)) else none
  | [] => none

/-- JS `parseInt(s, 10)`: trim whitespace, optional sign, longest digit
    prefix; `none` models `NaN`. -/
def jsParseInt (s : Str) : Option Int :=
  match s.dropWhile isJsWhitespace with
  | 43 :: rest => (digitsVal rest).map Int.ofNat
  | 45 :: rest => (digitsVal rest).map (fun v => -(Int.ofNat v))
  | rest => (digitsVal rest).map Int.ofNat

/-- Decimal rendering, most significant digit first (fuelled; `n + 1` fuel
    suffices). -/
def natToStrAux : Nat → Nat → Str
  | 0, _ => []
  | fuel + 1, n =>
    if n < 10 then [48 + n] else natToStrAux fuel (n / 10) ++ [48 + n % 10]

/-- JS number-to-string for the non-negative integers of the delta format. -/
def natToStr (n : Nat) : Str :=
  natToStrAux (n + 1) n

/-- Upper-case hex digit of a value below 16 (as `encodeURI` emits). -/
def hexDig (n : Nat) : Nat :=
  if n < 10 then 48 + n else 55 + n

/-- Value of a hex digit, either case (as the URI decoder accepts). -/
def hexVal (c : Nat) : Option Nat :=
  if 48 ≤ c ∧ c ≤ 57 then some (c - 48)
  else if 65 ≤ c ∧ c ≤ 70 then some (c - 55)
  else if 97 ≤ c ∧ c ≤ 102 then some (c - 87)
  else none

/-- `"%XY"` for one octet. -/
def pctHex (b : Nat) : Str :=
  [37, hexDig (b / 16), hexDig (b % 16)]

/-- UTF-8 octets of a code point. -/
def utf8Bytes (cp : Nat) : List Nat :=
  if cp < 0x80 then [cp]
  else if cp < 0x800 then [0xC0 + cp / 64, 0x80 + cp % 64]
  else if cp < 0x10000 then
    [0xE0 + cp / 4096, 0x80 + cp / 64 % 64, 0x80 + cp % 64]
  else
    [0xF0 + cp / 262144, 0x80 + cp / 4096 % 64, 0x80 + cp / 64 % 64,
      0x80 + cp % 64]

/-- UTF-16 code units of a code point (a surrogate pair above 0xFFFF). -/
def utf16Of (cp : Nat) : Str :=
  if cp < 0x10000 then [cp]
  else [0xD800 + (cp - 0x10000) / 0x400, 0xDC00 + (cp - 0x10000) % 0x400]

/-- `uriReserved` plus `'#'`: kept escaped by `decodeURI`, unescaped by
    `encodeURI`. -/
def reservedURI : List Nat :=
  [59, 47, 63, 58, 64, 38, 61, 43, 36, 44, 35]

/-- The set `encodeURI` leaves unescaped: alphanumerics, the marks
    `- _ . ! ~ * ' ( )`, `uriReserved` and `'#'`. -/
def unescapedURI (c : Nat) : Bool :=
  (65 ≤ c && c ≤ 90) || (97 ≤ c && c ≤ 122) || (48 ≤ c && c ≤ 57) ||
    c ∈ [45, 95, 46, 33, 126, 42, 39, 40, 41] || c ∈ reservedURI

/-- The Encode abstract operation of ECMAScript over UTF-16 code units:
    copies unescaped units, percent-encodes the UTF-8 octets of every other
    code point, and fails (`URIError`) on a lone surrogate. -/
def encodeURIAux : Str → Option Str
  | [] => some []
  | c :: rest =>
    if unescapedURI c then (encodeURIAux rest).map (fun t => c :: t)
    else if 0xDC00 ≤ c ∧ c ≤ 0xDFFF then none
    else if c < 0xD800 ∨ 0xDBFF < c then
      (encodeURIAux rest).map (fun t => (utf8Bytes c).flatMap pctHex ++ t)
    else
      match rest with
      | [] => none
      | c2 :: rest2 =>
        if 0xDC00 ≤ c2 ∧ c2 ≤ 0xDFFF then
          (encodeURIAux rest2).map (fun t =>
            (utf8Bytes (0x10000 + (c - 0xD800) * 0x400 + (c2 - 0xDC00))).flatMap
              pctHex ++ t)
        else none

/-- JS `encodeURI`. -/
def encodeURI (s : Str) : Option Str :=
  encodeURIAux s

/-- Read one `%HH` escape group: the octet and the remaining input. -/
def readGroup : Str → Option (Nat × Str)
  | 37 :: g1 :: g2 :: rest =>
    match hexVal g1, hexVal g2 with
    | some y1, some y2 => some (16 * y1 + y2, rest)
    | _, _ => none
  | _ => none

/-- Read `n` consecutive escape groups. -/
def readGroups : Nat → Str → Option (List Nat × Str)
  | 0, s => some ([], s)
  | n + 1, s =>
    match readGroup s with
    | some (b, rest) =>
      match readGroups n rest with
      | some (bs, rest2) => some (b :: bs, rest2)
      | none => none
    | none => none

/-- The Decode abstract operation with `decodeURI`'s reserved set: copies
    plain units, decodes strictly valid percent-encoded UTF-8 sequences,
    keeps the original escape of a reserved single octet, and fails
    (`URIError`) on anything malformed.  The first argument is fuel, one
    unit per decoded chunk; every chunk consumes at least one input unit,
    so fuel equal to the input length never runs out. -/
def decodeAux : Nat → Str → Option Str
  | _, [] => some []
  | 0, _ :: _ => none
  | fuel + 1, 37 :: rest1 =>
    match rest1 with
    | h1 :: h2 :: rest =>
      match hexVal h1, hexVal h2 with
      | some x1, some x2 =>
        let B := 16 * x1 + x2
        if B < 0x80 then
          if B ∈ reservedURI then
            (decodeAux fuel rest).map (fun t => 37 :: h1 :: h2 :: t)
          else (decodeAux fuel rest).map (fun t => B :: t)
        else if B < 0xC0 then none
        else if B < 0xE0 then
          match readGroups 1 rest with
          | some ([B2], rest2) =>
            if 0x80 ≤ B2 ∧ B2 < 0xC0 then
              let V := (B - 0xC0) * 64 + (B2 - 0x80)
              if V < 0x80 then none
              else (decodeAux fuel rest2).map (fun t => V :: t)
            else none
          | _ => none
        else if B < 0xF0 then
          match readGroups 2 rest with
          | some ([B2, B3], rest2) =>
            if (0x80 ≤ B2 ∧ B2 < 0xC0) ∧ (0x80 ≤ B3 ∧ B3 < 0xC0) then
              let V := (B - 0xE0) * 4096 + (B2 - 0x80) * 64 + (B3 - 0x80)
              if V < 0x800 ∨ (0xD800 ≤ V ∧ V ≤ 0xDFFF) then none
              else (decodeAux fuel rest2).map (fun t => V :: t)
            else none
          | _ => none
        else if B < 0xF8 then
          match readGroups 3 rest with
          | some ([B2, B3, B4], rest2) =>
            if (0x80 ≤ B2 ∧ B2 < 0xC0) ∧ (0x80 ≤ B3 ∧ B3 < 0xC0) ∧
                (0x80 ≤ B4 ∧ B4 < 0xC0) then
              let V := (B - 0xF0) * 262144 + (B2 - 0x80) * 4096 +
                (B3 - 0x80) * 64 + (B4 - 0x80)
              if V < 0x10000 ∨ 0x10FFFF < V then none
              else (decodeAux fuel rest2).map (fun t => utf16Of V ++ t)
            else none
          | _ => none
        else none
      | _, _ => none
    | _ => none
  | fuel + 1, c :: rest => (decodeAux fuel rest).map (fun t => c :: t)

/-- JS `decodeURI`. -/
def decodeURI (s : Str) : Option Str :=
  decodeAux s.length s

/-- `.replace(/%20/g, " ")` of index.js:1659: left-to-right,
    non-overlapping. -/
def replaceP20 : Str → Str
  | 37 :: 50 :: 48 :: rest => 32 :: replaceP20 rest
  | c :: rest => c :: replaceP20 rest
  | [] => []

/-- The errors the delta functions raise (index.js:1690, 1702, 1721, 1728)
    and the `URIError` that `encodeURI` itself throws inside `diffToDelta`. -/
inductive Err where
  | uriError (text : Str)
  | illegalEscape (param : Str)
  | invalidOp (token : Str)
  | invalidNumber (param : Str)
  | deltaLengthMismatch (pointer len : Nat)
  | invalidPatchString (line : Str)
  | invalidPatchMode (sign line : Str)
deriving Repr, DecidableEq

/-- One token of the delta (index.js:1644-1656). -/
def deltaToken (d : Diff) : Except Err Str :=
  match d.op with
  | Op.insert =>
    match encodeURI d.text with
    | some e => Except.ok (43 :: e)
    | none => Except.error (Err.uriError d.text)
  | Op.delete => Except.ok (45 :: natToStr d.text.length)
  | Op.equal => Except.ok (61 :: natToStr d.text.length)

/-- All tokens, stopping at the first `URIError`. -/
def deltaTokens : List Diff → Except Err (List Str)
  | [] => Except.ok []
  | d :: rest =>
    match deltaToken d, deltaTokens rest with
    | Except.ok t, Except.ok ts => Except.ok (t :: ts)
    | Except.error e, _ => Except.error e
    | _, Except.error e => Except.error e

/-- index.js:1640-1660: join the tokens with tabs and put spaces back for
    `%20`. -/
def diffToDelta (diffs : List Diff) : Except Err Str :=
  (deltaTokens diffs).map (fun ts => replaceP20 (List.intercalate [9] ts))


/-- The token loop of index.js:1676-1725: `pointer` is the cursor in
    `text1`, the diffs accumulate in reverse.  `text1.substring(pointer,
    (pointer += n))` reads the old pointer first, so the slice is
    `[pointer, pointer + n)` and the pointer advances by `n` even past the
    end of `text1`. -/
def delta_loop (text1 : Str) : List Str → Nat → List Diff →
    Except Err (Nat × List Diff)
  | [], pointer, acc => Except.ok (pointer, acc)
  | t :: rest, pointer, acc =>
    match t with
    | [] => delta_loop text1 rest pointer acc
    | c :: param =>
      if c = 43 then
        match decodeURI param with
        | some txt =>
          delta_loop text1 rest pointer (⟨DIFF_INSERT, txt⟩ :: acc)
        | none => Except.error (Err.illegalEscape param)
      else if c = 45 ∨ c = 61 then
        match jsParseInt param with
        | none => Except.error (Err.invalidNumber param)
        | some n =>
          if n < 0 then Except.error (Err.invalidNumber param)
          else
            delta_loop text1 rest (pointer + n.toNat)
              (⟨if c = 61 then DIFF_EQUAL else DIFF_DELETE,
                jsSubstring text1 pointer (pointer + n.toNat)⟩ :: acc)
      else Except.error (Err.invalidOp (c :: param))

/-- index.js:1670-1738. -/
def diffFromDelta (text1 delta : Str) : Except Err (List Diff) :=
  match delta_loop text1 (delta.splitOn 9) 0 [] with
  | Except.error e => Except.error e
  | Except.ok (pointer, acc) =>
    if pointer ≠ text1.length then
      Except.error (Err.deltaLengthMismatch pointer text1.length)
    else Except.ok acc.reverse

/-- The token loop processes an appended list sequentially. -/
theorem delta_loop_append (text1 : Str) (xs ys : List Str) (p : Nat)
    (a : List Diff) :
    delta_loop text1 (xs ++ ys) p a =
      match delta_loop text1 xs p a with
      | Except.ok (p2, a2) => delta_loop text1 ys p2 a2
      | Except.error e => Except.error e := by
  induction xs generalizing p a with
  | nil => simp [delta_loop]
  | cons t rest ih =>
    cases t with
    | nil =>
      simp only [List.cons_append, delta_loop]
      exact ih p a
    | cons c param =>
      simp only [List.cons_append, delta_loop]
      by_cases hc : c = 43
      · rw [if_pos hc, if_pos hc]
        cases decodeURI param with
        | some txt => exact ih _ _
        | none => rfl
      · rw [if_neg hc, if_neg hc]
        by_cases hce : c = 45 ∨ c = 61
        · rw [if_pos hce, if_pos hce]
          cases jsParseInt param with
          | none => rfl
          | some n =>
            dsimp only
            by_cases hn : n < 0
            · rw [if_pos hn, if_pos hn]
            · rw [if_neg hn, if_neg hn]
              exact ih _ _
        · rw [if_neg hce, if_neg hce]

/-- Claim C10, counterexample: the delta "q\t-x" contains the token "-x"
    whose parameter "x" does not parse as a number, yet `diff_from_delta`
    raises "Invalid diff operation" for the earlier token "q", not
    "Invalid number". -/
theorem claimC10_counterexample :
    (([113, 9, 45, 120] : Str).splitOn 9 = [[113], [45, 120]] ∧
      jsParseInt [120] = none) ∧
    diffFromDelta [] [113, 9, 45, 120] =
      Except.error (Err.invalidOp [113]) :=
  ⟨⟨rfl, rfl⟩, rfl⟩

/-- Claim C10, amended: "Invalid number" is raised for the first
    `-`/`=` token whose parameter does not `parseInt` to a non-negative
    integer, provided every earlier token was processed without error. -/
theorem claimC10_amended (text1 delta : Str) (ts1 : List Str) (c : Nat)
    (param : Str) (rest : List Str)
    (hsplit : delta.splitOn 9 = ts1 ++ (c :: param) :: rest)
    (hc : c = 45 ∨ c = 61)
    (hbad : ∀ n : Int, jsParseInt param = some n → n < 0)
    (p1 : Nat) (a1 : List Diff)
    (hpre : delta_loop text1 ts1 0 [] = Except.ok (p1, a1)) :
    diffFromDelta text1 delta = Except.error (Err.invalidNumber param) := by
  have hc43 : ¬c = 43 := by rcases hc with h | h <;> omega
  have hstep : delta_loop text1 ((c :: param) :: rest) p1 a1 =
      Except.error (Err.invalidNumber param) := by
    simp only [delta_loop]
    rw [if_neg hc43, if_pos hc]
    rcases hparse : jsParseInt param with _ | n
    · rfl
    · have hn := hbad n hparse
      dsimp only
      rw [if_pos hn]
  unfold diffFromDelta
  rw [hsplit, delta_loop_append, hpre]
  dsimp only
  rw [hstep]

/-- Witness for the amended C10 at text1 = "", delta = "-x". -/
theorem claimC10_witness :
    diffFromDelta [] [45, 120] = Except.error (Err.invalidNumber [120]) :=
  claimC10_amended [] [45, 120] [] 45 [120] [] rfl (Or.inl rfl)
    (fun n h => Option.noConfusion ((rfl : jsParseInt [120] = none) ▸ h))
    0 [] rfl

/-! ### Facts about decimal rendering and `parseInt` -/

theorem natToStrAux_digits :
    ∀ fuel n : Nat, ∀ c ∈ natToStrAux fuel n, 48 ≤ c ∧ c ≤ 57 := by
  intro fuel
  induction fuel with
  | zero => intro n c hc; simp [natToStrAux] at hc
  | succ fuel ih =>
    intro n c hc
    rw [natToStrAux] at hc
    by_cases h : n < 10
    · rw [if_pos h] at hc
      simp at hc
      omega
    · rw [if_neg h] at hc
      rcases List.mem_append.mp hc with h1 | h1
      · exact ih _ c h1
      · simp at h1
        have : n % 10 < 10 := Nat.mod_lt _ (by omega)
        omega

theorem natToStrAux_ne_nil (fuel n : Nat) :
    natToStrAux (fuel + 1) n ≠ [] := by
  rw [natToStrAux]
  by_cases h : n < 10
  · rw [if_pos h]; simp
  · rw [if_neg h]; simp

theorem natToStrAux_foldl :
    ∀ fuel n : Nat, n < fuel → ∀ acc : Nat,
      (natToStrAux fuel n).foldl (fun a c => a * 10 + (c - 48)) acc =
        acc * 10 ^ (natToStrAux fuel n).length + n := by
  intro fuel
  induction fuel with
  | zero => intro n h; omega
  | succ fuel ih =>
    intro n h acc
    rw [natToStrAux]
    by_cases h10 : n < 10
    · rw [if_pos h10]
      simp [List.foldl]
    · rw [if_neg h10]
      have hfuel : n / 10 < fuel := by omega
      rw [List.foldl_append, ih _ hfuel acc, List.length_append]
      simp [List.foldl]
      rw [pow_succ]
      have := Nat.div_add_mod n 10
      ring_nf
      omega

theorem digitsAcc_of_digits :
    ∀ s : Str, (∀ c ∈ s, 48 ≤ c ∧ c ≤ 57) → ∀ acc : Nat,
      digitsAcc s acc = s.foldl (fun a c => a * 10 + (c - 48)) acc := by
  intro s
  induction s with
  | nil => intro _ acc; rfl
  | cons c t ih =>
    intro h acc
    rw [digitsAcc, if_pos (h c (by simp))]
    rw [List.foldl_cons]
    exact ih (fun x hx => h x (by simp [hx])) _

/-- `parseInt` of a string headed by something that is neither whitespace
    nor a sign just reads the digit prefix. -/
theorem jsParseInt_no_sign (c : Nat) (t : Str) (h43 : c ≠ 43) (h45 : c ≠ 45)
    (hw : isJsWhitespace c = false) :
    jsParseInt (c :: t) = (digitsVal (c :: t)).map Int.ofNat := by
  unfold jsParseInt
  rw [List.dropWhile_cons_of_neg (by simp [hw])]
  split
  · rename_i heq; exact absurd (List.cons.injEq .. ▸ heq).1 h43
  · rename_i heq; exact absurd (List.cons.injEq .. ▸ heq).1 h45
  · rfl

/-- `parseInt` reads back the decimal rendering. -/
theorem jsParseInt_natToStr (n : Nat) :
    jsParseInt (natToStr n) = some (Int.ofNat n) := by
  unfold natToStr
  rcases hs : natToStrAux (n + 1) n with _ | ⟨c, t⟩
  · exact absurd hs (natToStrAux_ne_nil n n)
  have hdig : ∀ x ∈ c :: t, 48 ≤ x ∧ x ≤ 57 := by
    rw [← hs]; exact natToStrAux_digits _ n
  have hc := hdig c (by simp)
  rw [jsParseInt_no_sign c t (by omega) (by omega)
    (by simp [isJsWhitespace]; omega)]
  rw [digitsVal, if_pos hc]
  rw [digitsAcc_of_digits t (fun x hx => hdig x (by simp [hx]))]
  have := natToStrAux_foldl (n + 1) n (by omega) 0
  rw [hs, List.foldl_cons] at this
  simp only [Option.map_some']
  rw [show (0 : Nat) * 10 + (c - 48) = c - 48 from by omega] at this
  rw [this]
  norm_num

/-! ### Facts about hex escapes and the `%20` replacement -/

theorem hexVal_hexDig : ∀ x : Nat, x < 16 → hexVal (hexDig x) = some x := by
  decide

theorem hexDig_range : ∀ x : Nat, x < 16 → 48 ≤ hexDig x ∧ hexDig x ≤ 70 := by
  decide

theorem pctHex_not20 :
    ∀ b : Nat, b < 256 → b ≠ 32 →
      ¬(hexDig (b / 16) = 50 ∧ hexDig (b % 16) = 48) := by
  decide

theorem replaceP20_cons (c : Nat) (t : Str) (hc : c ≠ 37) :
    replaceP20 (c :: t) = c :: replaceP20 t := by
  rw [replaceP20.eq_def]
  split
  · rename_i heq
    injection heq with e1 _
    exact absurd e1 hc
  · rename_i heq
    injection heq with e1 e2
    rw [e1, e2]
  · rename_i heq
    exact absurd heq (by simp)

theorem replaceP20_esc20 (t : Str) :
    replaceP20 (37 :: 50 :: 48 :: t) = 32 :: replaceP20 t := rfl

theorem replaceP20_esc (h1 h2 : Nat) (t : Str) (e1 : h1 ≠ 37) (e2 : h2 ≠ 37)
    (hne : ¬(h1 = 50 ∧ h2 = 48)) :
    replaceP20 (37 :: h1 :: h2 :: t) = 37 :: h1 :: h2 :: replaceP20 t := by
  rw [replaceP20.eq_def]
  split
  · rename_i heq
    injection heq with _ e
    injection e with f1 e
    injection e with f2 _
    exact absurd ⟨f1, f2⟩ hne
  · rename_i heq
    injection heq with f1 f2
    rw [← f1, ← f2, replaceP20_cons h1 _ e1, replaceP20_cons h2 _ e2]
  · rename_i heq
    exact absurd heq (by simp)

theorem replaceP20_pct (b : Nat) (hb : b < 256) (h32 : b ≠ 32) (t : Str) :
    replaceP20 (pctHex b ++ t) = pctHex b ++ replaceP20 t := by
  have r1 := hexDig_range (b / 16) (by omega)
  have r2 := hexDig_range (b % 16) (by omega)
  rw [pctHex]
  exact replaceP20_esc _ _ t (by omega) (by omega) (pctHex_not20 b hb h32)

theorem replaceP20_pct32 (t : Str) :
    replaceP20 (pctHex 32 ++ t) = 32 :: replaceP20 t := rfl

/-- Strings made of non-`%` units and complete `%XY` escapes: the shape of
    `encodeURI` output, across which the `%20` replacement distributes. -/
inductive EscTok : Str → Prop
  | nil : EscTok []
  | plain (c : Nat) (t : Str) : c ≠ 37 → EscTok t → EscTok (c :: t)
  | esc (x y : Nat) (t : Str) : x ≠ 37 → y ≠ 37 → EscTok t →
      EscTok (37 :: x :: y :: t)

theorem EscTok.append {s t : Str} (hs : EscTok s) (ht : EscTok t) :
    EscTok (s ++ t) := by
  induction hs with
  | nil => exact ht
  | plain c u hc _ ih => exact EscTok.plain c _ hc ih
  | esc x y u hx hy _ ih => exact EscTok.esc x y _ hx hy ih

theorem EscTok.pctHex (b : Nat) (hb : b < 256) {t : Str} (ht : EscTok t) :
    EscTok (DMP.pctHex b ++ t) := by
  have r1 := hexDig_range (b / 16) (by omega)
  have r2 := hexDig_range (b % 16) (by omega)
  exact EscTok.esc _ _ t (by omega) (by omega) ht

theorem replaceP20_append_of_escTok {s : Str} (hs : EscTok s) (t : Str) :
    replaceP20 (s ++ t) = replaceP20 s ++ replaceP20 t := by
  induction hs with
  | nil => rfl
  | plain c u hc _ ih =>
    rw [List.cons_append, replaceP20_cons c _ hc, replaceP20_cons c u hc, ih,
      List.cons_append]
  | esc x y u hx hy _ ih =>
    by_cases h20 : x = 50 ∧ y = 48
    · obtain ⟨hx50, hy48⟩ := h20
      subst hx50; subst hy48
      rw [List.cons_append, List.cons_append, List.cons_append,
        replaceP20_esc20, replaceP20_esc20, ih, List.cons_append]
    · rw [List.cons_append, List.cons_append, List.cons_append,
        replaceP20_esc x y _ hx hy h20, replaceP20_esc x y u hx hy h20, ih]
      simp

/-! ### Shape of `encodeURI` output -/

theorem unescaped_range (c : Nat) (h : unescapedURI c = true) :
    33 ≤ c ∧ c ≤ 126 ∧ c ≠ 37 := by
  simp only [unescapedURI, reservedURI, Bool.or_eq_true, Bool.and_eq_true,
    decide_eq_true_eq, List.mem_cons, List.not_mem_nil, or_false] at h
  rcases h with ⟨h1, h2⟩ | ⟨h1, h2⟩ | ⟨h1, h2⟩ | h | h <;> omega

theorem reserved_unescaped (c : Nat) (h : c ∈ reservedURI) :
    unescapedURI c = true := by
  simp only [reservedURI, List.mem_cons, List.not_mem_nil, or_false] at h
  rcases h with rfl | rfl | rfl | rfl | rfl | rfl | rfl | rfl | rfl | rfl |
    rfl <;> decide

theorem utf8Bytes_lt256 (cp : Nat) (h : cp ≤ 0x10FFFF) :
    ∀ b ∈ utf8Bytes cp, b < 256 := by
  intro b hb
  rw [utf8Bytes] at hb
  split at hb
  · simp at hb; omega
  · split at hb
    · simp at hb
      rcases hb with rfl | rfl <;> omega
    · split at hb
      · simp at hb
        rcases hb with rfl | rfl | rfl <;> omega
      · simp at hb
        rcases hb with rfl | rfl | rfl | rfl <;> omega

theorem mem_pctHex_range (b : Nat) (hb : b < 256) :
    ∀ c ∈ pctHex b, 33 ≤ c ∧ c ≤ 126 := by
  have r1 := hexDig_range (b / 16) (by omega)
  have r2 := hexDig_range (b % 16) (by omega)
  intro c hc
  simp only [pctHex, List.mem_cons, List.not_mem_nil, or_false] at hc
  rcases hc with rfl | rfl | rfl <;> omega

theorem escTok_flatMap (bs : List Nat) (hbs : ∀ b ∈ bs, b < 256) {t : Str}
    (ht : EscTok t) : EscTok (bs.flatMap pctHex ++ t) := by
  induction bs with
  | nil => exact ht
  | cons b rest ih =>
    rw [List.flatMap_cons, List.append_assoc]
    exact EscTok.pctHex b (hbs b (by simp))
      (ih (fun x hx => hbs x (by simp [hx])))

theorem mem_flatMap_pctHex_range (bs : List Nat) (hbs : ∀ b ∈ bs, b < 256) :
    ∀ c ∈ bs.flatMap pctHex, 33 ≤ c ∧ c ≤ 126 := by
  intro c hc
  rw [List.mem_flatMap] at hc
  obtain ⟨b, hb, hcb⟩ := hc
  exact mem_pctHex_range b (hbs b hb) c hcb


/-- The output of a successful `encodeURI` is a sequence of plain non-`%`
    units and complete escapes, all printable ASCII. -/
theorem encode_shape :
    ∀ s e : Str, (∀ c ∈ s, c < 65536) → encodeURIAux s = some e →
      EscTok e ∧ ∀ c ∈ e, 33 ≤ c ∧ c ≤ 126 := by
  intro s
  induction s using encodeURIAux.induct with
  | case1 =>
    intro e _ he
    injection he with he
    subst he
    exact ⟨EscTok.nil, by simp⟩
  | case2 c rest hun ih =>
    intro e hb he
    rw [encodeURIAux.eq_def] at he
    dsimp only at he
    rw [if_pos hun] at he
    rcases henc : encodeURIAux rest with _ | e2 <;> rw [henc] at he
    · exact absurd he (by simp)
    simp only [Option.map_some'] at he
    injection he with he
    subst he
    obtain ⟨ht, hr⟩ := ih e2 (fun x hx => hb x (by simp [hx])) henc
    have hcr := unescaped_range c hun
    refine ⟨EscTok.plain c e2 hcr.2.2 ht, ?_⟩
    intro x hx
    rcases List.mem_cons.mp hx with rfl | hx
    · exact ⟨hcr.1, hcr.2.1⟩
    · exact hr x hx
  | case3 c rest hun hsur =>
    intro e _ he
    rw [encodeURIAux.eq_def] at he
    dsimp only at he
    rw [if_neg hun, if_pos hsur] at he
    exact absurd he (by simp)
  | case4 c rest hun hsur hv ih =>
    intro e hb he
    rw [encodeURIAux.eq_def] at he
    dsimp only at he
    rw [if_neg hun, if_neg hsur, if_pos hv] at he
    rcases henc : encodeURIAux rest with _ | e2 <;> rw [henc] at he
    · exact absurd he (by simp)
    simp only [Option.map_some'] at he
    injection he with he
    subst he
    obtain ⟨ht, hr⟩ := ih e2 (fun x hx => hb x (by simp [hx])) henc
    have hlt : ∀ b ∈ utf8Bytes c, b < 256 :=
      utf8Bytes_lt256 c (by have := hb c (by simp); omega)
    refine ⟨escTok_flatMap _ hlt ht, ?_⟩
    intro x hx
    rcases List.mem_append.mp hx with hx | hx
    · exact mem_flatMap_pctHex_range _ hlt x hx
    · exact hr x hx
  | case5 c hun hsur hv =>
    intro e _ he
    rw [encodeURIAux.eq_def] at he
    dsimp only at he
    rw [if_neg hun, if_neg hsur, if_neg hv] at he
    exact absurd he (by simp)
  | case6 c hun hsur hv c2 rest2 hsur2 ih =>
    intro e hb he
    rw [encodeURIAux.eq_def] at he
    dsimp only at he
    rw [if_neg hun, if_neg hsur, if_neg hv] at he
    rw [if_pos hsur2] at he
    rcases henc : encodeURIAux rest2 with _ | e2 <;> rw [henc] at he
    · exact absurd he (by simp)
    simp only [Option.map_some'] at he
    injection he with he
    subst he
    obtain ⟨ht, hr⟩ := ih e2 (fun x hx => hb x (by simp [hx])) henc
    have hlt : ∀ b ∈ utf8Bytes (0x10000 + (c - 0xD800) * 0x400 + (c2 - 0xDC00)),
        b < 256 :=
      utf8Bytes_lt256 _ (by omega)
    refine ⟨escTok_flatMap _ hlt ht, ?_⟩
    intro x hx
    rcases List.mem_append.mp hx with hx | hx
    · exact mem_flatMap_pctHex_range _ hlt x hx
    · exact hr x hx
  | case7 c hun hsur hv c2 rest2 hsur2 =>
    intro e _ he
    rw [encodeURIAux.eq_def] at he
    dsimp only at he
    rw [if_neg hun, if_neg hsur, if_neg hv] at he
    rw [if_neg hsur2] at he
    exact absurd he (by simp)


/-! ### Stepping the URI decoder -/

theorem decodeAux_nil (fuel : Nat) : decodeAux fuel [] = some [] := by
  cases fuel <;> rfl

theorem decodeAux_cons (fuel c : Nat) (t : Str) (hc : c ≠ 37) :
    decodeAux (fuel + 1) (c :: t) =
      (decodeAux fuel t).map (fun r => c :: r) := by
  rw [decodeAux.eq_def]
  split
  · rename_i heq
    exact absurd heq (by simp)
  · rename_i heq _
    exact absurd heq.symm (by simp)
  · rename_i heq1 heq2
    injection heq2 with e1 _
    exact absurd e1 hc
  · rename_i heq1 heq2
    injection heq1 with e0
    injection heq2 with e1 e2
    rw [e0, e1, e2]

theorem readGroup_eq (g1 g2 y1 y2 : Nat) (t : Str)
    (h1 : hexVal g1 = some y1) (h2 : hexVal g2 = some y2) :
    readGroup (37 :: g1 :: g2 :: t) = some (16 * y1 + y2, t) := by
  rw [readGroup, h1, h2]

theorem readGroups1 (g1 g2 y1 y2 : Nat) (t : Str)
    (h1 : hexVal g1 = some y1) (h2 : hexVal g2 = some y2) :
    readGroups 1 (37 :: g1 :: g2 :: t) = some ([16 * y1 + y2], t) := by
  rw [readGroups, readGroup_eq g1 g2 y1 y2 t h1 h2]
  rfl

theorem readGroups2 (g1 g2 g3 g4 y1 y2 y3 y4 : Nat) (t : Str)
    (h1 : hexVal g1 = some y1) (h2 : hexVal g2 = some y2)
    (h3 : hexVal g3 = some y3) (h4 : hexVal g4 = some y4) :
    readGroups 2 (37 :: g1 :: g2 :: 37 :: g3 :: g4 :: t) =
      some ([16 * y1 + y2, 16 * y3 + y4], t) := by
  rw [readGroups, readGroup_eq g1 g2 y1 y2 _ h1 h2]
  dsimp only
  rw [readGroups1 g3 g4 y3 y4 t h3 h4]

theorem readGroups3 (g1 g2 g3 g4 g5 g6 y1 y2 y3 y4 y5 y6 : Nat) (t : Str)
    (h1 : hexVal g1 = some y1) (h2 : hexVal g2 = some y2)
    (h3 : hexVal g3 = some y3) (h4 : hexVal g4 = some y4)
    (h5 : hexVal g5 = some y5) (h6 : hexVal g6 = some y6) :
    readGroups 3 (37 :: g1 :: g2 :: 37 :: g3 :: g4 :: 37 :: g5 :: g6 :: t) =
      some ([16 * y1 + y2, 16 * y3 + y4, 16 * y5 + y6], t) := by
  rw [readGroups, readGroup_eq g1 g2 y1 y2 _ h1 h2]
  dsimp only
  rw [readGroups2 g3 g4 g5 g6 y3 y4 y5 y6 t h3 h4 h5 h6]

theorem decode_esc1 (fuel h1 h2 x1 x2 : Nat) (t : Str)
    (hv1 : hexVal h1 = some x1) (hv2 : hexVal h2 = some x2)
    (hB : 16 * x1 + x2 < 0x80) (hnr : 16 * x1 + x2 ∉ reservedURI) :
    decodeAux (fuel + 1) (37 :: h1 :: h2 :: t) =
      (decodeAux fuel t).map (fun r => (16 * x1 + x2) :: r) := by
  rw [decodeAux.eq_def]
  dsimp only
  rw [hv1, hv2]
  dsimp only
  rw [if_pos hB, if_neg hnr]

theorem decode_esc2 (fuel h1 h2 g1 g2 x1 x2 y1 y2 : Nat) (t : Str)
    (hv1 : hexVal h1 = some x1) (hv2 : hexVal h2 = some x2)
    (hv3 : hexVal g1 = some y1) (hv4 : hexVal g2 = some y2)
    (hB : 0xC0 ≤ 16 * x1 + x2 ∧ 16 * x1 + x2 < 0xE0)
    (hB2 : 0x80 ≤ 16 * y1 + y2 ∧ 16 * y1 + y2 < 0xC0)
    (hV : ¬(16 * x1 + x2 - 0xC0) * 64 + (16 * y1 + y2 - 0x80) < 0x80) :
    decodeAux (fuel + 1) (37 :: h1 :: h2 :: 37 :: g1 :: g2 :: t) =
      (decodeAux fuel t).map
        (fun r => ((16 * x1 + x2 - 0xC0) * 64 + (16 * y1 + y2 - 0x80)) :: r) := by
  rw [decodeAux.eq_def]
  dsimp only
  rw [hv1, hv2]
  dsimp only
  rw [if_neg (by omega), if_neg (by omega), if_pos hB.2,
    readGroups1 g1 g2 y1 y2 t hv3 hv4]
  dsimp only
  rw [if_pos hB2, if_neg hV]

theorem decode_esc3 (fuel h1 h2 g1 g2 g3 g4 x1 x2 y1 y2 y3 y4 : Nat) (t : Str)
    (hv1 : hexVal h1 = some x1) (hv2 : hexVal h2 = some x2)
    (hv3 : hexVal g1 = some y1) (hv4 : hexVal g2 = some y2)
    (hv5 : hexVal g3 = some y3) (hv6 : hexVal g4 = some y4)
    (hB : 0xE0 ≤ 16 * x1 + x2 ∧ 16 * x1 + x2 < 0xF0)
    (hB2 : 0x80 ≤ 16 * y1 + y2 ∧ 16 * y1 + y2 < 0xC0)
    (hB3 : 0x80 ≤ 16 * y3 + y4 ∧ 16 * y3 + y4 < 0xC0)
    (hV : ¬((16 * x1 + x2 - 0xE0) * 4096 + (16 * y1 + y2 - 0x80) * 64 +
        (16 * y3 + y4 - 0x80) < 0x800 ∨
      (0xD800 ≤ (16 * x1 + x2 - 0xE0) * 4096 + (16 * y1 + y2 - 0x80) * 64 +
          (16 * y3 + y4 - 0x80) ∧
        (16 * x1 + x2 - 0xE0) * 4096 + (16 * y1 + y2 - 0x80) * 64 +
            (16 * y3 + y4 - 0x80) ≤ 0xDFFF))) :
    decodeAux (fuel + 1)
        (37 :: h1 :: h2 :: 37 :: g1 :: g2 :: 37 :: g3 :: g4 :: t) =
      (decodeAux fuel t).map
        (fun r => ((16 * x1 + x2 - 0xE0) * 4096 + (16 * y1 + y2 - 0x80) * 64 +
          (16 * y3 + y4 - 0x80)) :: r) := by
  rw [decodeAux.eq_def]
  dsimp only
  rw [hv1, hv2]
  dsimp only
  rw [if_neg (by omega), if_neg (by omega), if_neg (by omega),
    if_pos hB.2, readGroups2 g1 g2 g3 g4 y1 y2 y3 y4 t hv3 hv4 hv5 hv6]
  dsimp only
  rw [if_pos ⟨hB2, hB3⟩, if_neg hV]

theorem decode_esc4
    (fuel h1 h2 g1 g2 g3 g4 g5 g6 x1 x2 y1 y2 y3 y4 y5 y6 : Nat) (t : Str)
    (hv1 : hexVal h1 = some x1) (hv2 : hexVal h2 = some x2)
    (hv3 : hexVal g1 = some y1) (hv4 : hexVal g2 = some y2)
    (hv5 : hexVal g3 = some y3) (hv6 : hexVal g4 = some y4)
    (hv7 : hexVal g5 = some y5) (hv8 : hexVal g6 = some y6)
    (hB : 0xF0 ≤ 16 * x1 + x2 ∧ 16 * x1 + x2 < 0xF8)
    (hB2 : 0x80 ≤ 16 * y1 + y2 ∧ 16 * y1 + y2 < 0xC0)
    (hB3 : 0x80 ≤ 16 * y3 + y4 ∧ 16 * y3 + y4 < 0xC0)
    (hB4 : 0x80 ≤ 16 * y5 + y6 ∧ 16 * y5 + y6 < 0xC0)
    (hV : ¬((16 * x1 + x2 - 0xF0) * 262144 + (16 * y1 + y2 - 0x80) * 4096 +
        (16 * y3 + y4 - 0x80) * 64 + (16 * y5 + y6 - 0x80) < 0x10000 ∨
      0x10FFFF < (16 * x1 + x2 - 0xF0) * 262144 +
        (16 * y1 + y2 - 0x80) * 4096 + (16 * y3 + y4 - 0x80) * 64 +
        (16 * y5 + y6 - 0x80))) :
    decodeAux (fuel + 1)
        (37 :: h1 :: h2 :: 37 :: g1 :: g2 :: 37 :: g3 :: g4 ::
          37 :: g5 :: g6 :: t) =
      (decodeAux fuel t).map
        (fun r => utf16Of ((16 * x1 + x2 - 0xF0) * 262144 +
          (16 * y1 + y2 - 0x80) * 4096 + (16 * y3 + y4 - 0x80) * 64 +
          (16 * y5 + y6 - 0x80)) ++ r) := by
  rw [decodeAux.eq_def]
  dsimp only
  rw [hv1, hv2]
  dsimp only
  rw [if_neg (by omega), if_neg (by omega), if_neg (by omega),
    if_neg (by omega), if_pos hB.2,
    readGroups3 g1 g2 g3 g4 g5 g6 y1 y2 y3 y4 y5 y6 t hv3 hv4 hv5 hv6 hv7 hv8]
  dsimp only
  rw [if_pos ⟨hB2, hB3, hB4⟩, if_neg hV]

/-- Decoding undoes encoding, even after the `%20` → space replacement of
    `diffToDelta`, provided the input is a genuine UTF-16 string. -/
theorem decode_rp_encode :
    ∀ s e : Str, (∀ c ∈ s, c < 65536) → encodeURIAux s = some e →
      ∀ fuel : Nat, (replaceP20 e).length ≤ fuel →
        decodeAux fuel (replaceP20 e) = some s := by
  intro s
  induction s using encodeURIAux.induct with
  | case1 =>
    intro e _ he fuel _
    injection he with he
    subst he
    exact decodeAux_nil fuel
  | case2 c rest hun ih =>
    intro e hb he fuel hfuel
    rw [encodeURIAux.eq_def] at he
    dsimp only at he
    rw [if_pos hun] at he
    rcases henc : encodeURIAux rest with _ | e2 <;> rw [henc] at he
    · exact absurd he (by simp)
    simp only [Option.map_some'] at he
    injection he with he
    subst he
    have hcr := unescaped_range c hun
    have hrp : replaceP20 (c :: e2) = c :: replaceP20 e2 :=
      replaceP20_cons c e2 hcr.2.2
    rw [hrp] at hfuel ⊢
    rcases fuel with _ | f
    · simp at hfuel
    rw [decodeAux_cons f c _ hcr.2.2,
      ih e2 (fun x hx => hb x (by simp [hx])) henc f (by simp at hfuel; omega)]
    rfl
  | case3 c rest hun hsur =>
    intro e _ he fuel _
    rw [encodeURIAux.eq_def] at he
    dsimp only at he
    rw [if_neg hun, if_pos hsur] at he
    exact absurd he (by simp)
  | case4 c rest hun hsur hv ih =>
    intro e hb he fuel hfuel
    rw [encodeURIAux.eq_def] at he
    dsimp only at he
    rw [if_neg hun, if_neg hsur, if_pos hv] at he
    rcases henc : encodeURIAux rest with _ | e2 <;> rw [henc] at he
    · exact absurd he (by simp)
    simp only [Option.map_some'] at he
    injection he with he
    subst he
    have hc16 : c < 65536 := hb c (by simp)
    have hbrec := fun x hx => hb x (List.mem_cons_of_mem c hx)
    by_cases h80 : c < 0x80
    · -- one octet
      have hu : utf8Bytes c = [c] := by rw [utf8Bytes, if_pos h80]
      rw [hu] at hfuel ⊢
      simp only [List.flatMap_cons, List.flatMap_nil, List.append_nil]
        at hfuel ⊢
      by_cases h32 : c = 32
      · subst h32
        rw [replaceP20_pct32] at hfuel ⊢
        rcases fuel with _ | f
        · simp at hfuel
        rw [decodeAux_cons f 32 _ (by omega),
          ih e2 hbrec henc f (by simp at hfuel; omega)]
        rfl
      · rw [replaceP20_pct c (by omega) h32] at hfuel ⊢
        simp only [pctHex, List.cons_append, List.nil_append] at hfuel ⊢
        rcases fuel with _ | f
        · simp at hfuel
        have hnr : ¬16 * (c / 16) + c % 16 ∈ reservedURI := by
          intro hmem
          have : 16 * (c / 16) + c % 16 = c := by omega
          rw [this] at hmem
          exact hun (reserved_unescaped c hmem)
        rw [decode_esc1 f _ _ _ _ _ (hexVal_hexDig _ (by omega))
          (hexVal_hexDig _ (by omega)) (by omega) hnr,
          ih e2 hbrec henc f (by simp at hfuel; omega)]
        have : 16 * (c / 16) + c % 16 = c := by omega
        rw [this]
        rfl
    · by_cases h800 : c < 0x800
      · -- two octets
        have hu : utf8Bytes c = [0xC0 + c / 64, 0x80 + c % 64] := by
          rw [utf8Bytes, if_neg h80, if_pos h800]
        rw [hu] at hfuel ⊢
        simp only [List.flatMap_cons, List.flatMap_nil, List.append_nil,
          List.append_assoc] at hfuel ⊢
        rw [replaceP20_pct _ (by omega) (by omega),
          replaceP20_pct _ (by omega) (by omega)] at hfuel ⊢
        simp only [pctHex, List.cons_append, List.nil_append] at hfuel ⊢
        rcases fuel with _ | f
        · simp at hfuel
        rw [decode_esc2 f _ _ _ _ _ _ _ _ _ (hexVal_hexDig _ (by omega))
          (hexVal_hexDig _ (by omega)) (hexVal_hexDig _ (by omega))
          (hexVal_hexDig _ (by omega)) (by constructor <;> omega)
          (by constructor <;> omega) (by omega),
          ih e2 hbrec henc f (by simp at hfuel; omega)]
        have : (16 * ((0xC0 + c / 64) / 16) + (0xC0 + c / 64) % 16 - 0xC0) * 64 +
            (16 * ((0x80 + c % 64) / 16) + (0x80 + c % 64) % 16 - 0x80) = c := by
          omega
        rw [this]
        rfl
      · -- three octets
        have h10000 : c < 0x10000 := by omega
        have hu : utf8Bytes c =
            [0xE0 + c / 4096, 0x80 + c / 64 % 64, 0x80 + c % 64] := by
          rw [utf8Bytes, if_neg h80, if_neg h800, if_pos h10000]
        have hnsur : ¬(0xD800 ≤ c ∧ c ≤ 0xDFFF) := by
          rcases hv with h | h <;> omega
        rw [hu] at hfuel ⊢
        simp only [List.flatMap_cons, List.flatMap_nil, List.append_nil,
          List.append_assoc] at hfuel ⊢
        rw [replaceP20_pct _ (by omega) (by omega),
          replaceP20_pct _ (by omega) (by omega),
          replaceP20_pct _ (by omega) (by omega)] at hfuel ⊢
        simp only [pctHex, List.cons_append, List.nil_append] at hfuel ⊢
        rcases fuel with _ | f
        · simp at hfuel
        rw [decode_esc3 f _ _ _ _ _ _ _ _ _ _ _ _ _
          (hexVal_hexDig _ (by omega)) (hexVal_hexDig _ (by omega))
          (hexVal_hexDig _ (by omega)) (hexVal_hexDig _ (by omega))
          (hexVal_hexDig _ (by omega)) (hexVal_hexDig _ (by omega))
          (by constructor <;> omega) (by constructor <;> omega)
          (by constructor <;> omega) (by omega),
          ih e2 hbrec henc f (by simp at hfuel; omega)]
        have : (16 * ((0xE0 + c / 4096) / 16) + (0xE0 + c / 4096) % 16 - 0xE0) *
              4096 +
            (16 * ((0x80 + c / 64 % 64) / 16) + (0x80 + c / 64 % 64) % 16 -
              0x80) * 64 +
            (16 * ((0x80 + c % 64) / 16) + (0x80 + c % 64) % 16 - 0x80) = c := by
          omega
        rw [this]
        rfl
  | case5 c hun hsur hv =>
    intro e _ he fuel _
    rw [encodeURIAux.eq_def] at he
    dsimp only at he
    rw [if_neg hun, if_neg hsur, if_neg hv] at he
    exact absurd he (by simp)
  | case6 c hun hsur hv c2 rest2 hsur2 ih =>
    intro e hb he fuel hfuel
    rw [encodeURIAux.eq_def] at he
    dsimp only at he
    rw [if_neg hun, if_neg hsur, if_neg hv, if_pos hsur2] at he
    rcases henc : encodeURIAux rest2 with _ | e2 <;> rw [henc] at he
    · exact absurd he (by simp)
    simp only [Option.map_some', Option.some.injEq] at he
    subst he
    have hbrec := fun x hx =>
      hb x (List.mem_cons_of_mem c (List.mem_cons_of_mem c2 hx))
    have hcr : 0xD800 ≤ c ∧ c ≤ 0xDBFF := by
      obtain ⟨h1, h2⟩ := not_or.mp hv
      constructor <;> omega
    have hV : 0x10000 ≤ 0x10000 + (c - 0xD800) * 0x400 + (c2 - 0xDC00) ∧
        0x10000 + (c - 0xD800) * 0x400 + (c2 - 0xDC00) ≤ 0x10FFFF := by
      obtain ⟨hc1, hc2⟩ := hcr
      obtain ⟨hs1, hs2⟩ := hsur2
      omega
    have hu : utf8Bytes (0x10000 + (c - 0xD800) * 0x400 + (c2 - 0xDC00)) =
        [0xF0 + (0x10000 + (c - 0xD800) * 0x400 + (c2 - 0xDC00)) / 262144,
          0x80 + (0x10000 + (c - 0xD800) * 0x400 + (c2 - 0xDC00)) / 4096 % 64,
          0x80 + (0x10000 + (c - 0xD800) * 0x400 + (c2 - 0xDC00)) / 64 % 64,
          0x80 + (0x10000 + (c - 0xD800) * 0x400 + (c2 - 0xDC00)) % 64] := by
      rw [utf8Bytes, if_neg (by omega), if_neg (by omega), if_neg (by omega)]
    rw [hu] at hfuel ⊢
    simp only [List.flatMap_cons, List.flatMap_nil, List.append_nil,
      List.append_assoc] at hfuel ⊢
    rw [replaceP20_pct _ (by omega) (by omega),
      replaceP20_pct _ (by omega) (by omega),
      replaceP20_pct _ (by omega) (by omega),
      replaceP20_pct _ (by omega) (by omega)] at hfuel ⊢
    simp only [pctHex, List.cons_append, List.nil_append] at hfuel ⊢
    rcases fuel with _ | f
    · simp at hfuel
    rw [decode_esc4 f _ _ _ _ _ _ _ _ _ _ _ _ _ _ _ _ _
      (hexVal_hexDig _ (by omega)) (hexVal_hexDig _ (by omega))
      (hexVal_hexDig _ (by omega)) (hexVal_hexDig _ (by omega))
      (hexVal_hexDig _ (by omega)) (hexVal_hexDig _ (by omega))
      (hexVal_hexDig _ (by omega)) (hexVal_hexDig _ (by omega))
      (by constructor <;> omega) (by constructor <;> omega)
      (by constructor <;> omega) (by constructor <;> omega) (by omega),
      ih e2 hbrec henc f (by simp at hfuel; omega)]
    have harith : (16 * ((0xF0 +
          (0x10000 + (c - 0xD800) * 0x400 + (c2 - 0xDC00)) / 262144) / 16) +
          (0xF0 + (0x10000 + (c - 0xD800) * 0x400 + (c2 - 0xDC00)) / 262144) %
            16 - 0xF0) * 262144 +
        (16 * ((0x80 + (0x10000 + (c - 0xD800) * 0x400 + (c2 - 0xDC00)) / 4096 %
            64) / 16) +
          (0x80 + (0x10000 + (c - 0xD800) * 0x400 + (c2 - 0xDC00)) / 4096 % 64) %
            16 - 0x80) * 4096 +
        (16 * ((0x80 + (0x10000 + (c - 0xD800) * 0x400 + (c2 - 0xDC00)) / 64 %
            64) / 16) +
          (0x80 + (0x10000 + (c - 0xD800) * 0x400 + (c2 - 0xDC00)) / 64 % 64) %
            16 - 0x80) * 64 +
        (16 * ((0x80 + (0x10000 + (c - 0xD800) * 0x400 + (c2 - 0xDC00)) % 64) /
            16) +
          (0x80 + (0x10000 + (c - 0xD800) * 0x400 + (c2 - 0xDC00)) % 64) % 16 -
            0x80) =
        0x10000 + (c - 0xD800) * 0x400 + (c2 - 0xDC00) := by
      omega
    rw [harith]
    have hutf : utf16Of (0x10000 + (c - 0xD800) * 0x400 + (c2 - 0xDC00)) =
        [c, c2] := by
      rw [utf16Of, if_neg (by omega)]
      obtain ⟨hc1, hc2⟩ := hcr
      obtain ⟨hs1, hs2⟩ := hsur2
      have e1 : 0xD800 + (0x10000 + (c - 0xD800) * 0x400 + (c2 - 0xDC00) -
          0x10000) / 0x400 = c := by omega
      have e2 : 0xDC00 + (0x10000 + (c - 0xD800) * 0x400 + (c2 - 0xDC00) -
          0x10000) % 0x400 = c2 := by omega
      rw [e1, e2]
    rw [hutf]
    rfl
  | case7 c hun hsur hv c2 rest2 hsur2 =>
    intro e _ he fuel _
    rw [encodeURIAux.eq_def] at he
    dsimp only at he
    rw [if_neg hun, if_neg hsur, if_neg hv, if_neg hsur2] at he
    exact absurd he (by simp)

/-! ### The delta round trip -/

theorem decodeURI_rp_encode (s e : Str) (hb : ∀ c ∈ s, c < 65536)
    (he : encodeURIAux s = some e) :
    decodeURI (replaceP20 e) = some s :=
  decode_rp_encode s e hb he _ le_rfl

theorem replaceP20_id (s : Str) (h : ∀ c ∈ s, c ≠ 37) :
    replaceP20 s = s := by
  induction s with
  | nil => rfl
  | cons c t ih =>
    rw [replaceP20_cons c t (h c (by simp))]
    rw [ih (fun x hx => h x (by simp [hx]))]

theorem escTok_of_no37 (s : Str) (h : ∀ c ∈ s, c ≠ 37) : EscTok s := by
  induction s with
  | nil => exact EscTok.nil
  | cons c t ih =>
    exact EscTok.plain c t (h c (by simp)) (ih (fun x hx => h x (by simp [hx])))

theorem diffText1_cons (d : Diff) (ds : List Diff) :
    diffText1 (d :: ds) =
      if d.op = DIFF_INSERT then diffText1 ds else d.text ++ diffText1 ds := by
  unfold diffText1
  by_cases h : d.op = DIFF_INSERT
  · rw [if_pos h, List.filter_cons_of_neg (by simp [h])]
  · rw [if_neg h, List.filter_cons_of_pos (by simp [h])]
    rfl

/-- What one delta token looks like, and that its characters are printable
    ASCII (hence neither a tab nor subject to further splitting). -/
theorem deltaToken_shape (d : Diff) (t : Str) (h : deltaToken d = Except.ok t)
    (hb : d.op = DIFF_INSERT → ∀ c ∈ d.text, c < 65536) :
    (∀ c ∈ t, 33 ≤ c ∧ c ≤ 126) ∧
    ((d.op = DIFF_INSERT ∧ ∃ e, encodeURIAux d.text = some e ∧ t = 43 :: e ∧
        EscTok e) ∨
      (d.op = DIFF_DELETE ∧ t = 45 :: natToStr d.text.length) ∨
      (d.op = DIFF_EQUAL ∧ t = 61 :: natToStr d.text.length)) := by
  have hdig : ∀ n : Nat, ∀ c ∈ natToStr n, 33 ≤ c ∧ c ≤ 126 := by
    intro n c hc
    have := natToStrAux_digits (n + 1) n c hc
    omega
  unfold deltaToken at h
  rcases hop : d.op with _ | _ | _ <;> rw [hop] at h
  · -- delete
    injection h with h
    subst h
    refine ⟨?_, Or.inr (Or.inl ⟨rfl, rfl⟩)⟩
    intro c hc
    rcases List.mem_cons.mp hc with rfl | hc
    · omega
    · exact hdig _ c hc
  · -- insert
    rcases henc : encodeURI d.text with _ | e <;> rw [henc] at h
    · exact absurd h (by simp)
    injection h with h
    subst h
    obtain ⟨hesc, hrange⟩ := encode_shape d.text e (hb hop) henc
    refine ⟨?_, Or.inl ⟨rfl, e, henc, rfl, hesc⟩⟩
    intro c hc
    rcases List.mem_cons.mp hc with rfl | hc
    · omega
    · exact hrange c hc
  · -- equal
    injection h with h
    subst h
    refine ⟨?_, Or.inr (Or.inr ⟨rfl, rfl⟩)⟩
    intro c hc
    rcases List.mem_cons.mp hc with rfl | hc
    · omega
    · exact hdig _ c hc

theorem mem_replaceP20 (s : Str) (c : Nat) (hc : c ∈ replaceP20 s) :
    c ∈ s ∨ c = 32 := by
  induction s using replaceP20.induct with
  | case1 rest ih =>
    rw [replaceP20_esc20] at hc
    rcases List.mem_cons.mp hc with rfl | hc
    · exact Or.inr rfl
    · rcases ih hc with h | h
      · exact Or.inl (by simp [h])
      · exact Or.inr h
  | case2 a rest hne ih =>
    have ha : a ≠ 37 ∨ ∀ r, rest ≠ 50 :: 48 :: r := by
      by_cases h37 : a = 37
      · subst h37
        refine Or.inr (fun r hr => ?_)
        exact hne r rfl hr
      · exact Or.inl h37
    have hstep : replaceP20 (a :: rest) = a :: replaceP20 rest := by
      rcases ha with h | h
      · exact replaceP20_cons a rest h
      · rw [replaceP20.eq_def]
        split
        · rename_i heq
          injection heq with e1 e2
          subst e1
          exact absurd e2 (h _)
        · rename_i heq
          injection heq with e1 e2
          rw [e1, e2]
        · rename_i heq
          exact absurd heq (by simp)
    rw [hstep] at hc
    rcases List.mem_cons.mp hc with rfl | hc
    · exact Or.inl (by simp)
    · rcases ih hc with h | h
      · exact Or.inl (by simp [h])
      · exact Or.inr h
  | case3 =>
    rw [show replaceP20 [] = ([] : Str) from rfl] at hc
    simp at hc

theorem intercalate_tab_cons2 (t u : Str) (rest : List Str) :
    List.intercalate [9] (t :: u :: rest) =
      t ++ 9 :: List.intercalate [9] (u :: rest) := by
  simp [List.intercalate, List.intersperse]

theorem replaceP20_intercalate :
    ∀ ts : List Str, (∀ t ∈ ts, EscTok t) →
      replaceP20 (List.intercalate [9] ts) =
        List.intercalate [9] (ts.map replaceP20) := by
  intro ts
  induction ts with
  | nil => intro _; rfl
  | cons t rest ih =>
    intro h
    rcases rest with _ | ⟨u, rest2⟩
    · simp [List.intercalate]
    · rw [intercalate_tab_cons2, List.map_cons, List.map_cons,
        intercalate_tab_cons2,
        replaceP20_append_of_escTok (h t (by simp)),
        replaceP20_cons 9 _ (by omega), ih (fun x hx => h x (by simp [hx]))]
      rfl

theorem jsSubstring_chunk (s u v : Str) (p : Nat)
    (hdrop : s.drop p = u ++ v) (hp : p ≤ s.length) :
    jsSubstring s (↑p) (↑(p + u.length)) = u := by
  have hlen : p + u.length ≤ s.length := by
    have := congrArg List.length hdrop
    simp at this
    omega
  rw [jsSubstring_nat s p (p + u.length) (by omega) hlen, List.drop_take,
    hdrop]
  have h : p + u.length - p = u.length := by omega
  rw [h, List.take_left]

theorem drop_after_chunk (s u v : Str) (p : Nat)
    (hdrop : s.drop p = u ++ v) :
    s.drop (p + u.length) = v := by
  have h1 : (s.drop p).drop u.length = v := by rw [hdrop, List.drop_left]
  have h2 := List.drop_drop u.length p s
  rw [← h2]
  exact h1

/-- Running the parse loop on the rendered (and `%20`-replaced) tokens of a
    diff list rebuilds exactly that list and consumes all of `text1`. -/
theorem delta_loop_roundtrip :
    ∀ ds : List Diff,
      (∀ d ∈ ds, d.op = DIFF_INSERT → ∀ c ∈ d.text, c < 65536) →
      ∀ ts : List Str, deltaTokens ds = Except.ok ts →
      ∀ text1 : Str, ∀ pointer : Nat, ∀ acc : List Diff,
        text1.drop pointer = diffText1 ds → pointer ≤ text1.length →
        delta_loop text1 (ts.map replaceP20) pointer acc =
          Except.ok (text1.length, ds.reverse ++ acc) := by
  intro ds
  induction ds with
  | nil =>
    intro _ ts hts text1 pointer acc hdrop hle
    injection hts with hts
    subst hts
    have hl := congrArg List.length hdrop
    rw [List.length_drop] at hl
    simp [diffText1] at hl
    have hp : pointer = text1.length := by omega
    subst hp
    simp [delta_loop]
  | cons d ds ih =>
    intro hb ts hts text1 pointer acc hdrop hle
    rw [deltaTokens] at hts
    rcases htok : deltaToken d with e | t <;> rw [htok] at hts
    · exact absurd hts (by simp)
    rcases htoks : deltaTokens ds with e | ts2 <;> rw [htoks] at hts
    · exact absurd hts (by simp)
    dsimp only at hts
    injection hts with hts
    subst hts
    have hbd := hb d (by simp)
    have hbrec : ∀ x ∈ ds, x.op = DIFF_INSERT → ∀ c ∈ x.text, c < 65536 :=
      fun x hx => hb x (by simp [hx])
    obtain ⟨hrange, hcases⟩ := deltaToken_shape d t htok hbd
    have hlist : ∀ n : Nat, ∀ c ∈ natToStr n, c ≠ 37 := by
      intro n c hc
      have := natToStrAux_digits (n + 1) n c hc
      omega
    rcases hcases with ⟨hop, e, henc, hte, hesc⟩ | ⟨hop, hte⟩ | ⟨hop, hte⟩
    · -- insert token
      subst hte
      rw [List.map_cons, replaceP20_cons 43 _ (by omega)]
      simp only [delta_loop]
      rw [if_pos trivial, decodeURI_rp_encode d.text e (hbd hop) henc]
      dsimp only
      rw [Diff_eta d DIFF_INSERT hop]
      rw [ih hbrec ts2 htoks text1 pointer (d :: acc)
        (by rw [hdrop, diffText1_cons, if_pos hop]) hle]
      simp
    · -- delete token
      subst hte
      have hd1 : text1.drop pointer = d.text ++ diffText1 ds := by
        rw [hdrop, diffText1_cons, if_neg (by rw [hop]; decide)]
      have hlen : pointer + d.text.length ≤ text1.length := by
        have := congrArg List.length hd1
        simp at this
        omega
      rw [List.map_cons, replaceP20_id _ (by
        intro c hc
        rcases List.mem_cons.mp hc with rfl | hc
        · omega
        · exact hlist _ c hc)]
      simp only [delta_loop]
      rw [if_pos (Or.inl trivial), jsParseInt_natToStr]
      dsimp only
      rw [if_neg (show ¬Int.ofNat (List.length d.text) < 0 from
          not_lt.mpr (Int.ofNat_nonneg _)),
        if_neg (show ¬(45 : Nat) = 61 from by decide)]
      rw [show (Int.ofNat (List.length d.text)).toNat = d.text.length from
        rfl]
      rw [show ((pointer : Int) + (d.text.length : Int)) =
        ((pointer + d.text.length : Nat) : Int) from by push_cast; ring]
      rw [jsSubstring_chunk text1 d.text (diffText1 ds) pointer hd1 hle]
      rw [Diff_eta d DIFF_DELETE hop]
      rw [ih hbrec ts2 htoks text1 (pointer + d.text.length) (d :: acc)
        (drop_after_chunk text1 d.text (diffText1 ds) pointer hd1)
        (by omega)]
      simp
    · -- equal token
      subst hte
      have hd1 : text1.drop pointer = d.text ++ diffText1 ds := by
        rw [hdrop, diffText1_cons, if_neg (by rw [hop]; decide)]
      have hlen : pointer + d.text.length ≤ text1.length := by
        have := congrArg List.length hd1
        simp at this
        omega
      rw [List.map_cons, replaceP20_id _ (by
        intro c hc
        rcases List.mem_cons.mp hc with rfl | hc
        · omega
        · exact hlist _ c hc)]
      simp only [delta_loop]
      rw [if_pos (Or.inr trivial), jsParseInt_natToStr]
      dsimp only
      rw [if_neg (show ¬Int.ofNat (List.length d.text) < 0 from
          not_lt.mpr (Int.ofNat_nonneg _)),
        if_pos trivial]
      rw [show (Int.ofNat (List.length d.text)).toNat = d.text.length from
        rfl]
      rw [show ((pointer : Int) + (d.text.length : Int)) =
        ((pointer + d.text.length : Nat) : Int) from by push_cast; ring]
      rw [jsSubstring_chunk text1 d.text (diffText1 ds) pointer hd1 hle]
      rw [Diff_eta d DIFF_EQUAL hop]
      rw [ih hbrec ts2 htoks text1 (pointer + d.text.length) (d :: acc)
        (drop_after_chunk text1 d.text (diffText1 ds) pointer hd1)
        (by omega)]
      simp

theorem deltaTokens_props :
    ∀ ds : List Diff, ∀ ts : List Str,
      (∀ d ∈ ds, d.op = DIFF_INSERT → ∀ c ∈ d.text, c < 65536) →
      deltaTokens ds = Except.ok ts →
      ∀ t ∈ ts, EscTok t ∧ ∀ c ∈ replaceP20 t, c ≠ 9 := by
  intro ds
  induction ds with
  | nil =>
    intro ts _ hts
    injection hts with hts
    subst hts
    simp
  | cons d rest ih =>
    intro ts hb hts
    rw [deltaTokens] at hts
    rcases htok : deltaToken d with e | t <;> rw [htok] at hts
    · exact absurd hts (by simp)
    rcases htoks : deltaTokens rest with e | ts2 <;> rw [htoks] at hts
    · exact absurd hts (by simp)
    dsimp only at hts
    injection hts with hts
    subst hts
    intro u hu
    rcases List.mem_cons.mp hu with rfl | hu
    · obtain ⟨hrange, hcases⟩ := deltaToken_shape d u htok (hb d (by simp))
      have hno9 : ∀ c ∈ replaceP20 u, c ≠ 9 := by
        intro c hc
        rcases mem_replaceP20 u c hc with h | rfl
        · have := hrange c h
          omega
        · omega
      refine ⟨?_, hno9⟩
      rcases hcases with ⟨_, e, _, hte, hesc⟩ | ⟨_, hte⟩ | ⟨_, hte⟩
      · subst hte
        exact EscTok.plain 43 e (by omega) hesc
      · subst hte
        refine escTok_of_no37 _ ?_
        intro c hc
        rcases List.mem_cons.mp hc with rfl | hc
        · omega
        · have := natToStrAux_digits (List.length d.text + 1)
            (List.length d.text) c hc
          omega
      · subst hte
        refine escTok_of_no37 _ ?_
        intro c hc
        rcases List.mem_cons.mp hc with rfl | hc
        · omega
        · have := natToStrAux_digits (List.length d.text + 1)
            (List.length d.text) c hc
          omega
    · exact ih ts2 (fun x hx => hb x (by simp [hx])) htoks u hu

/-- Claim C4, counterexample: the single-diff script
    `[INSERT "\uD800"]` satisfies both cleanup invariants, yet
    `diff_to_delta` itself raises `URIError` (the lone surrogate cannot be
    `encodeURI`-escaped), so the round trip raises instead of reproducing
    the script. -/
theorem claimC4_counterexample :
    ((∀ x ∈ [(⟨DIFF_INSERT, [0xD800]⟩ : Diff)], x.text ≠ []) ∧
      List.Chain' (fun u v : Diff => u.op ≠ v.op)
        [(⟨DIFF_INSERT, [0xD800]⟩ : Diff)]) ∧
    diffToDelta [(⟨DIFF_INSERT, [0xD800]⟩ : Diff)] =
      Except.error (Err.uriError [0xD800]) := by
  refine ⟨⟨by simp, List.chain'_singleton _⟩, rfl⟩

/-- Claim C4, amended: the delta round trip
    `diff_from_delta(diff_text1(d), diff_to_delta(d)) = d` holds for every
    script whose insertions are well-formed UTF-16 (all code units below
    2^16 — `diff_to_delta` succeeding rules out lone surrogates), with the
    claim's cleanup invariants as stated. -/
theorem claimC4_amended (d : List Diff)
    (hwf : ∀ x ∈ d, x.op = DIFF_INSERT → ∀ c ∈ x.text, c < 65536)
    (hne : ∀ x ∈ d, x.text ≠ [])
    (hadj : List.Chain' (fun u v : Diff => u.op ≠ v.op) d)
    (delta : Str) (h : diffToDelta d = Except.ok delta) :
    diffFromDelta (diffText1 d) delta = Except.ok d := by
  unfold diffToDelta at h
  rcases hts : deltaTokens d with e | ts <;> rw [hts] at h
  · exact absurd h (by simp [Except.map])
  simp only [Except.map] at h
  injection h with h
  subst h
  have hprops := deltaTokens_props d ts hwf hts
  rcases hts0 : ts with _ | ⟨t0, ts2⟩
  · -- only possible for d = []
    subst hts0
    rcases d with _ | ⟨d0, ds⟩
    · rfl
    · rw [deltaTokens] at hts
      rcases htok : deltaToken d0 with e | t <;> rw [htok] at hts
      · exact absurd hts (by simp)
      rcases htoks : deltaTokens ds with e | w <;> rw [htoks] at hts
      · exact absurd hts (by simp)
      dsimp only at hts
      injection hts with hts
      exact absurd hts (by simp)
  subst hts0
  rw [replaceP20_intercalate _ (fun t ht => (hprops t ht).1)]
  unfold diffFromDelta
  rw [List.splitOn_intercalate _ 9
    (by
      intro l hl
      rw [List.mem_map] at hl
      obtain ⟨t, ht, rfl⟩ := hl
      intro hmem
      exact (hprops t ht).2 9 hmem rfl)
    (by simp)]
  rw [delta_loop_roundtrip d hwf (t0 :: ts2) hts (diffText1 d) 0 []
    (by simp) (by simp)]
  dsimp only
  rw [if_neg (by simp)]
  simp

/-- Witness for the amended C4 at the cleaned script
    `[EQUAL "ab", DELETE "c", INSERT " "]` (delta `"=2\t-1\t+ "`). -/
theorem claimC4_witness :
    diffFromDelta
        (diffText1 [(⟨DIFF_EQUAL, [97, 98]⟩ : Diff), ⟨DIFF_DELETE, [99]⟩,
          ⟨DIFF_INSERT, [32]⟩])
        [61, 50, 9, 45, 49, 9, 43, 32] =
      Except.ok [(⟨DIFF_EQUAL, [97, 98]⟩ : Diff), ⟨DIFF_DELETE, [99]⟩,
        ⟨DIFF_INSERT, [32]⟩] :=
  claimC4_amended
    [(⟨DIFF_EQUAL, [97, 98]⟩ : Diff), ⟨DIFF_DELETE, [99]⟩,
      ⟨DIFF_INSERT, [32]⟩]
    (by decide) (by decide)
    (List.chain'_cons.mpr ⟨by decide,
      List.chain'_cons.mpr ⟨by decide, List.chain'_singleton _⟩⟩)
    [61, 50, 9, 45, 49, 9, 43, 32] rfl

/-! ### Patch objects (index.js:2618-2633) and patch construction

`start1`/`start2` are `null` until `patchMake` assigns them; `patchMake`
always assigns them before the first diff is pushed, so the embedding uses
plain integers (the `patch not initialized` branch of index.js:1944 is
unreachable from the embedded entry points).  Loops whose bound is not
structural take fuel and return `none` when it runs out. -/

structure patchObj where
  diffs : List Diff := []
  start1 : Int := 0
  start2 : Int := 0
  length1 : Nat := 0
  length2 : Nat := 0
deriving Repr, DecidableEq

/-- The pattern-growing loop of index.js:1953-1963. -/
def patchAddContextLoop (cfg : Config) (text : Str) (start2 : Int)
    (length1 : Nat) : Nat → Str → Nat → Option (Str × Nat)
  | 0, _, _ => none
  | fuel + 1, pattern, padding =>
    if jsIndexOf text pattern ≠ jsLastIndexOf text pattern text.length ∧
        (pattern.length : Int) <
          (cfg.matchMaxBits : Int) - cfg.patchMargin - cfg.patchMargin then
      let padding2 := padding + cfg.patchMargin
      patchAddContextLoop cfg text start2 length1 fuel
        (jsSubstring text (start2 - padding2) (start2 + length1 + padding2))
        padding2
    else some (pattern, padding)

/-- index.js:1939-1992. -/
def patchAddContext_ (cfg : Config) (fuel : Nat) (patch : patchObj)
    (text : Str) : Option patchObj :=
  if text.length = 0 then some patch
  else
    match patchAddContextLoop cfg text patch.start2 patch.length1 fuel
        (jsSubstring text patch.start2 (patch.start2 + patch.length1)) 0 with
    | none => none
    | some (_, padding0) =>
      let padding := padding0 + cfg.patchMargin
      let pre := jsSubstring text (patch.start2 - padding) patch.start2
      let diffs1 :=
        if pre ≠ [] then ⟨DIFF_EQUAL, pre⟩ :: patch.diffs
        else patch.diffs
      let suf := jsSubstring text (patch.start2 + patch.length1)
        (patch.start2 + patch.length1 + padding)
      let diffs2 :=
        if suf ≠ [] then diffs1 ++ [⟨DIFF_EQUAL, suf⟩] else diffs1
      some
        { diffs := diffs2
          start1 := patch.start1 - pre.length
          start2 := patch.start2 - pre.length
          length1 := patch.length1 + (pre.length + suf.length)
          length2 := patch.length2 + (pre.length + suf.length) }

/-- The walk of index.js:2082-2152, carried state:
    `(patch, patches-reversed, charCount1, charCount2, prepatch, postpatch)`. -/
def patchMakeLoop (cfg : Config) (fuel : Nat) :
    List Diff → patchObj → List patchObj → Nat → Nat → Str → Str →
      Option (List patchObj)
  | [], patch, acc, _, _, prepatchText, _ =>
    if patch.diffs ≠ [] then
      match patchAddContext_ cfg fuel patch prepatchText with
      | none => none
      | some patch2 => some (patch2 :: acc).reverse
    else some acc.reverse
  | df :: rest, patch, acc, charCount1, charCount2, prepatchText,
      postpatchText =>
    let patch1 : patchObj :=
      if patch.diffs = [] ∧ df.op ≠ DIFF_EQUAL then
        { patch with start1 := charCount1, start2 := charCount2 }
      else patch
    let next := fun (patch2 : patchObj) (acc2 : List patchObj)
        (cc1 cc2 : Nat) (pre post : Str) =>
      patchMakeLoop cfg fuel rest patch2 acc2
        (if df.op ≠ DIFF_INSERT then cc1 + df.text.length else cc1)
        (if df.op ≠ DIFF_DELETE then cc2 + df.text.length else cc2) pre post
    match df.op with
    | Op.insert =>
      next { patch1 with
          diffs := patch1.diffs ++ [df]
          length2 := patch1.length2 + df.text.length }
        acc charCount1 charCount2 prepatchText
        (jsSubstring postpatchText 0 charCount2 ++ df.text ++
          jsSubstringFrom postpatchText charCount2)
    | Op.delete =>
      next { patch1 with
          diffs := patch1.diffs ++ [df]
          length1 := patch1.length1 + df.text.length }
        acc charCount1 charCount2 prepatchText
        (jsSubstring postpatchText 0 charCount2 ++
          jsSubstringFrom postpatchText (charCount2 + df.text.length))
    | Op.equal =>
      if df.text.length ≤ 2 * cfg.patchMargin ∧ patch1.diffs ≠ [] ∧
          rest ≠ [] then
        next { patch1 with
            diffs := patch1.diffs ++ [df]
            length1 := patch1.length1 + df.text.length
            length2 := patch1.length2 + df.text.length }
          acc charCount1 charCount2 prepatchText postpatchText
      else if 2 * cfg.patchMargin ≤ df.text.length then
        if patch1.diffs ≠ [] then
          match patchAddContext_ cfg fuel patch1 prepatchText with
          | none => none
          | some patch2 =>
            patchMakeLoop cfg fuel rest {} (patch2 :: acc)
              (charCount2 + df.text.length)
              (charCount2 + df.text.length) postpatchText postpatchText
        else next patch1 acc charCount1 charCount2 prepatchText postpatchText
      else next patch1 acc charCount1 charCount2 prepatchText postpatchText

/-- index.js:2016-2161, methods 2 and 3 (`text1` together with `diffs`; the
    other call shapes reduce to this after computing their inputs). -/
def patchMake (cfg : Config) (fuel : Nat) (text1 : Str) (diffs : List Diff) :
    Option (List patchObj) :=
  if diffs = [] then some []
  else patchMakeLoop cfg fuel diffs {} [] 0 0 text1 text1

/-- The chunk-filling loop of index.js:2424-2476, state
    `(patch, bigpatch.diffs, start1, start2, empty)`. -/
def splitInner (cfg : Config) : Nat → patchObj → List Diff → Int → Int →
    Bool → Option (patchObj × List Diff × Int × Int × Bool)
  | 0, _, _, _, _, _ => none
  | fuel + 1, patch, bigdiffs, start1, start2, empty =>
    match bigdiffs with
    | [] => some (patch, [], start1, start2, empty)
    | df :: brest =>
      if ¬((patch.length1 : Int) <
          (cfg.matchMaxBits : Int) - cfg.patchMargin) then
        some (patch, df :: brest, start1, start2, empty)
      else if df.op = DIFF_INSERT then
        splitInner cfg fuel
          { patch with
            diffs := patch.diffs ++ [df]
            length2 := patch.length2 + df.text.length }
          brest start1 (start2 + (df.text.length : Int)) false
      else if df.op = DIFF_DELETE ∧ patch.diffs.length = 1 ∧
          (patch.diffs.head?.map Diff.op) = some DIFF_EQUAL ∧
          df.text.length > 2 * cfg.matchMaxBits then
        splitInner cfg fuel
          { patch with
            diffs := patch.diffs ++ [⟨df.op, df.text⟩]
            length1 := patch.length1 + df.text.length }
          brest (start1 + (df.text.length : Int)) start2 false
      else
        let dtext := jsSubstring df.text 0
          ((cfg.matchMaxBits : Int) - patch.length1 - cfg.patchMargin)
        splitInner cfg fuel
          { patch with
            diffs := patch.diffs ++ [⟨df.op, dtext⟩]
            length1 := patch.length1 + dtext.length
            length2 := if df.op = DIFF_EQUAL then
                patch.length2 + dtext.length
              else patch.length2 }
          (if dtext = df.text then brest
            else ⟨df.op, df.text.drop dtext.length⟩ :: brest)
          (start1 + (dtext.length : Int))
          (if df.op = DIFF_EQUAL then start2 + (dtext.length : Int)
            else start2)
          (if df.op = DIFF_EQUAL then empty else false)

/-- The per-bigpatch loop of index.js:2412-2504. -/
def splitOuter (cfg : Config) : Nat → Nat → List Diff → Int → Int → Str →
    List patchObj → Option (List patchObj)
  | 0, _, _, _, _, _, _ => none
  | ofuel + 1, ifuel, bigdiffs, start1, start2, precontext, acc =>
    match bigdiffs with
    | [] => some acc.reverse
    | _ :: _ =>
      let patch0 : patchObj :=
        { diffs := if precontext ≠ [] then [⟨DIFF_EQUAL, precontext⟩] else []
          start1 := start1 - precontext.length
          start2 := start2 - precontext.length
          length1 := if precontext ≠ [] then precontext.length else 0
          length2 := if precontext ≠ [] then precontext.length else 0 }
      match splitInner cfg ifuel patch0 bigdiffs start1 start2 true with
      | none => none
      | some (patch1, bigrest, start1b, start2b, empty) =>
        let pre2 := diffText2 patch1.diffs
        let precontext2 :=
          jsSubstringFrom pre2 ((pre2.length : Int) - cfg.patchMargin)
        let postcontext :=
          jsSubstring (diffText1 bigrest) 0 cfg.patchMargin
        let patch2 :=
          if postcontext ≠ [] then
            { patch1 with
              length1 := patch1.length1 + postcontext.length
              length2 := patch1.length2 + postcontext.length
              diffs :=
                match patch1.diffs.getLast? with
                | some dl =>
                  if dl.op = DIFF_EQUAL then
                    patch1.diffs.dropLast ++
                      [⟨DIFF_EQUAL, dl.text ++ postcontext⟩]
                  else patch1.diffs ++ [⟨DIFF_EQUAL, postcontext⟩]
                | none => patch1.diffs ++ [⟨DIFF_EQUAL, postcontext⟩] }
          else patch1
        splitOuter cfg ofuel ifuel bigrest start1b start2b precontext2
          (if empty then acc else patch2 :: acc)

/-- index.js:2396-2506. -/
def patchSplitMax (cfg : Config) (ofuel ifuel : Nat) :
    List patchObj → Option (List patchObj)
  | [] => some []
  | p :: rest =>
    if p.length1 ≤ cfg.matchMaxBits then
      (patchSplitMax cfg ofuel ifuel rest).map (fun l => p :: l)
    else
      match splitOuter cfg ofuel ifuel p.diffs p.start1 p.start2 [] [] with
      | none => none
      | some small =>
        (patchSplitMax cfg ofuel ifuel rest).map (fun l => small ++ l)

/-- Replace the last element of a list. -/
def updateLast (f : patchObj → patchObj) : List patchObj → List patchObj
  | [] => []
  | [p] => [f p]
  | p :: rest => p :: updateLast f rest

/-- Pad or grow the first diff of the first patch (index.js:2350-2368). -/
def padFirst (paddingLength : Nat) (nullPadding : Str) (p : patchObj) :
    patchObj :=
  match p.diffs.head? with
  | none =>
    { p with
      diffs := ⟨DIFF_EQUAL, nullPadding⟩ :: p.diffs
      start1 := p.start1 - (paddingLength : Int)
      start2 := p.start2 - (paddingLength : Int)
      length1 := p.length1 + paddingLength
      length2 := p.length2 + paddingLength }
  | some d0 =>
    if d0.op ≠ DIFF_EQUAL then
      { p with
        diffs := ⟨DIFF_EQUAL, nullPadding⟩ :: p.diffs
        start1 := p.start1 - (paddingLength : Int)
        start2 := p.start2 - (paddingLength : Int)
        length1 := p.length1 + paddingLength
        length2 := p.length2 + paddingLength }
    else if d0.text.length < paddingLength then
      { p with
        diffs := ⟨DIFF_EQUAL, nullPadding.drop d0.text.length ++ d0.text⟩
          :: p.diffs.tail
        start1 := p.start1 - ((paddingLength - d0.text.length : Nat) : Int)
        start2 := p.start2 - ((paddingLength - d0.text.length : Nat) : Int)
        length1 := p.length1 + (paddingLength - d0.text.length)
        length2 := p.length2 + (paddingLength - d0.text.length) }
    else p

/-- Pad or grow the last diff of the last patch (index.js:2371-2385). -/
def padLast (paddingLength : Nat) (nullPadding : Str) (p : patchObj) :
    patchObj :=
  match p.diffs.getLast? with
  | none =>
    { p with
      diffs := p.diffs ++ [⟨DIFF_EQUAL, nullPadding⟩]
      length1 := p.length1 + paddingLength
      length2 := p.length2 + paddingLength }
  | some dl =>
    if dl.op ≠ DIFF_EQUAL then
      { p with
        diffs := p.diffs ++ [⟨DIFF_EQUAL, nullPadding⟩]
        length1 := p.length1 + paddingLength
        length2 := p.length2 + paddingLength }
    else if dl.text.length < paddingLength then
      { p with
        diffs := p.diffs.dropLast ++
          [⟨DIFF_EQUAL, dl.text ++ nullPadding.take
            (paddingLength - dl.text.length)⟩]
        length1 := p.length1 + (paddingLength - dl.text.length)
        length2 := p.length2 + (paddingLength - dl.text.length) }
    else p

/-- index.js:2335-2388; `none` models the crash on an empty patch list
    (`patches[0]` is `undefined`).  Returns the null padding together with
    the updated list. -/
def patchAddPadding (cfg : Config) (patches : List patchObj) :
    Option (Str × List patchObj) :=
  match patches with
  | [] => none
  | first :: rest =>
    let paddingLength := cfg.patchMargin
    let nullPadding : Str := (List.range paddingLength).map (fun x => x + 1)
    let bump := fun (p : patchObj) =>
      { p with
        start1 := p.start1 + (paddingLength : Int)
        start2 := p.start2 + (paddingLength : Int) }
    some (nullPadding,
      updateLast (padLast paddingLength nullPadding)
        (padFirst paddingLength nullPadding (bump first) :: rest.map bump))

/-! ### Patch serialization (index.js:2641-2683, 2513-2521) and parsing
    (index.js:2529-2612) -/

/-- JS number-to-string for a (possibly negative) integer. -/
def intToStr (n : Int) : Str :=
  if n < 0 then 45 :: natToStr (-n).toNat else natToStr n.toNat

/-- The `start,length` coordinate rendering of index.js:2644-2658. -/
def coordStr (start : Int) (len : Nat) : Str :=
  if len = 0 then intToStr start ++ [44, 48]
  else if len = 1 then intToStr (start + 1)
  else intToStr (start + 1) ++ [44] ++ natToStr len

/-- `patchObj.prototype.toString` (index.js:2641-2683). -/
def patchToString (p : patchObj) : Except Err Str :=
  let header := [64, 64, 32, 45] ++ coordStr p.start1 p.length1 ++
    [32, 43] ++ coordStr p.start2 p.length2 ++ [32, 64, 64, 10]
  match bodyLines p.diffs with
  | Except.error e => Except.error e
  | Except.ok body => Except.ok (replaceP20 (header ++ body))
where
  bodyLines : List Diff → Except Err Str
    | [] => Except.ok []
    | d :: rest =>
      let op : Nat :=
        match d.op with
        | Op.insert => 43
        | Op.delete => 45
        | Op.equal => 32
      match encodeURI d.text with
      | none => Except.error (Err.uriError d.text)
      | some e =>
        match bodyLines rest with
        | Except.error err => Except.error err
        | Except.ok b => Except.ok (op :: e ++ [10] ++ b)

/-- index.js:2513-2521. -/
def patchToText (patches : List patchObj) : Except Err Str :=
  match patches with
  | [] => Except.ok []
  | p :: rest =>
    match patchToString p, patchToText rest with
    | Except.ok t, Except.ok ts => Except.ok (t ++ ts)
    | Except.error e, _ => Except.error e
    | _, Except.error e => Except.error e

/-- Longest digit prefix and the rest. -/
def spanDigits (s : Str) : Str × Str :=
  match s with
  | [] => ([], [])
  | c :: rest =>
    if 48 ≤ c ∧ c ≤ 57 then
      let (d, r) := spanDigits rest
      (c :: d, r)
    else ([], c :: rest)

/-- The header regex `^@@ -(\d+),?(\d*) \+(\d+),?(\d*) @@$` of
    index.js:2538: the four capture groups, or `none`. -/
def stripComma : Str → Str
  | 44 :: rr => rr
  | r => r

def coordParse (r0 : Str) : Str × Str × Str :=
  ((spanDigits r0).1,
    (spanDigits (stripComma (spanDigits r0).2)).1,
    (spanDigits (stripComma (spanDigits r0).2)).2)

def parsePatchHeader (line : Str) : Option (Str × Str × Str × Str) :=
  match line with
  | 64 :: 64 :: 32 :: 45 :: r0 =>
    let (d1, d2, r3) := coordParse r0
    if d1 = [] then none
    else
      match r3 with
      | 32 :: 43 :: r4 =>
        let (d3, d4, r7) := coordParse r4
        if d3 = [] then none
        else if r7 = [32, 64, 64] then some (d1, d2, d3, d4) else none
      | _ => none
  | _ => none

/-- Interpret one side of the header (index.js:2549-2571): the group pair
    `(m1, m2)` gives `(start, length)`. -/
def headerCoord (d1 d2 : Str) : Int × Nat :=
  let n1 : Int := Int.ofNat (digitsAcc d1 0)
  if d2 = [] then (n1 - 1, 1)
  else if d2 = [48] then (n1, 0)
  else (n1 - 1, digitsAcc d2 0)

/-- The body loop of index.js:2575-2608: consume diff lines until the next
    `@` header, accumulating diffs. -/
def patchBodyLoop : List Str → List Diff →
    Except Err (List Diff × List Str)
  | [], acc => Except.ok (acc.reverse, [])
  | l :: rest, acc =>
    match decodeURI (l.drop 1) with
    | none => Except.error (Err.illegalEscape (l.drop 1))
    | some line =>
      match l.head? with
      | some 45 => patchBodyLoop rest (⟨DIFF_DELETE, line⟩ :: acc)
      | some 43 => patchBodyLoop rest (⟨DIFF_INSERT, line⟩ :: acc)
      | some 32 => patchBodyLoop rest (⟨DIFF_EQUAL, line⟩ :: acc)
      | some 64 => Except.ok (acc.reverse, l :: rest)
      | none => patchBodyLoop rest acc
      | some c => Except.error (Err.invalidPatchMode [c] line)

/-- The outer loop of index.js:2540-2609 (fuelled: each iteration consumes
    at least the header line). -/
def patchFromTextLoop : Nat → List Str → Except Err (List patchObj)
  | 0, _ => Except.error (Err.invalidPatchString [])
  | _, [] => Except.ok []
  | fuel + 1, hline :: rest =>
    match parsePatchHeader hline with
    | none => Except.error (Err.invalidPatchString hline)
    | some (d1, d2, d3, d4) =>
      let (s1, l1) := headerCoord d1 d2
      let (s2, l2) := headerCoord d3 d4
      match patchBodyLoop rest [] with
      | Except.error e => Except.error e
      | Except.ok (diffs, remaining) =>
        match patchFromTextLoop fuel remaining with
        | Except.error e => Except.error e
        | Except.ok ps =>
          Except.ok
            ({ diffs := diffs, start1 := s1, start2 := s2,
               length1 := l1, length2 := l2 } :: ps)

/-- index.js:2529-2612. -/
def patchFromText (textline : Str) : Except Err (List patchObj) :=
  if textline = [] then Except.ok []
  else patchFromTextLoop (textline.length + 1) (textline.splitOn 10)

/-! ### The patch length invariants (claim C5) -/

/-- `length1`/`length2` agree with the texts the diffs describe. -/
def patchInv (p : patchObj) : Prop :=
  p.length1 = (diffText1 p.diffs).length ∧
    p.length2 = (diffText2 p.diffs).length

theorem foldr_text_append (a b : List Diff) :
    List.foldr (fun d acc => d.text ++ acc) [] (a ++ b) =
      List.foldr (fun d acc => d.text ++ acc) [] a ++
        List.foldr (fun d acc => d.text ++ acc) [] b := by
  induction a with
  | nil => rfl
  | cons x rest ih => simp [ih]

theorem diffText1_append (a b : List Diff) :
    diffText1 (a ++ b) = diffText1 a ++ diffText1 b := by
  unfold diffText1
  rw [List.filter_append, foldr_text_append]

theorem diffText2_append (a b : List Diff) :
    diffText2 (a ++ b) = diffText2 a ++ diffText2 b := by
  unfold diffText2
  rw [List.filter_append, foldr_text_append]

theorem diffText2_cons (d : Diff) (ds : List Diff) :
    diffText2 (d :: ds) =
      if d.op = DIFF_DELETE then diffText2 ds else d.text ++ diffText2 ds := by
  unfold diffText2
  by_cases h : d.op = DIFF_DELETE
  · rw [if_pos h, List.filter_cons_of_neg (by simp [h])]
  · rw [if_neg h, List.filter_cons_of_pos (by simp [h])]
    rfl

theorem diffText1_single_equal (s : Str) :
    diffText1 [(⟨DIFF_EQUAL, s⟩ : Diff)] = s := by
  rw [diffText1_cons, if_neg (fun h => Op.noConfusion h)]
  simp [diffText1]

theorem diffText2_single_equal (s : Str) :
    diffText2 [(⟨DIFF_EQUAL, s⟩ : Diff)] = s := by
  rw [diffText2_cons, if_neg (fun h => Op.noConfusion h)]
  simp [diffText2]

theorem patchInv_empty : patchInv {} :=
  ⟨rfl, rfl⟩

theorem addContext_len1 (ds : List Diff) (pre suf : Str) :
    (diffText1 (if suf ≠ [] then
        (if pre ≠ [] then (⟨DIFF_EQUAL, pre⟩ :: ds) else ds) ++
          [⟨DIFF_EQUAL, suf⟩]
      else (if pre ≠ [] then (⟨DIFF_EQUAL, pre⟩ :: ds) else ds))).length =
      pre.length + (diffText1 ds).length + suf.length := by
  by_cases hp : pre = [] <;> by_cases hs : suf = []
  · rw [if_neg (by simpa using hs), if_neg (by simpa using hp)]
    simp [hp, hs]
  · rw [if_pos (by simpa using hs), if_neg (by simpa using hp),
      diffText1_append, diffText1_single_equal]
    simp [hp]
  · rw [if_neg (by simpa using hs), if_pos (by simpa using hp),
      diffText1_cons, if_neg (fun h => Op.noConfusion h)]
    simp [hs]
  · rw [if_pos (by simpa using hs), if_pos (by simpa using hp),
      diffText1_append, diffText1_single_equal, diffText1_cons,
      if_neg (fun h => Op.noConfusion h)]
    simp
    omega

theorem addContext_len2 (ds : List Diff) (pre suf : Str) :
    (diffText2 (if suf ≠ [] then
        (if pre ≠ [] then (⟨DIFF_EQUAL, pre⟩ :: ds) else ds) ++
          [⟨DIFF_EQUAL, suf⟩]
      else (if pre ≠ [] then (⟨DIFF_EQUAL, pre⟩ :: ds) else ds))).length =
      pre.length + (diffText2 ds).length + suf.length := by
  by_cases hp : pre = [] <;> by_cases hs : suf = []
  · rw [if_neg (by simpa using hs), if_neg (by simpa using hp)]
    simp [hp, hs]
  · rw [if_pos (by simpa using hs), if_neg (by simpa using hp),
      diffText2_append, diffText2_single_equal]
    simp [hp]
  · rw [if_neg (by simpa using hs), if_pos (by simpa using hp),
      diffText2_cons, if_neg (fun h => Op.noConfusion h)]
    simp [hs]
  · rw [if_pos (by simpa using hs), if_pos (by simpa using hp),
      diffText2_append, diffText2_single_equal, diffText2_cons,
      if_neg (fun h => Op.noConfusion h)]
    simp
    omega

theorem patchAddContext_inv (cfg : Config) (fuel : Nat) (patch p2 : patchObj)
    (text : Str) (hinv : patchInv patch)
    (h : patchAddContext_ cfg fuel patch text = some p2) : patchInv p2 := by
  unfold patchAddContext_ at h
  by_cases h0 : text.length = 0
  · rw [if_pos h0] at h
    injection h with h
    subst h
    exact hinv
  rw [if_neg h0] at h
  rcases hloop : patchAddContextLoop cfg text patch.start2 patch.length1 fuel
      (jsSubstring text patch.start2 (patch.start2 + patch.length1)) 0
    with _ | ⟨pat, padding0⟩ <;> rw [hloop] at h
  · exact absurd h (by simp)
  dsimp only at h
  injection h with h
  subst h
  obtain ⟨h1, h2⟩ := hinv
  constructor
  · dsimp only
    rw [addContext_len1, ← h1]
    omega
  · dsimp only
    rw [addContext_len2, ← h2]
    omega

theorem diffText1_single (d : Diff) :
    diffText1 [d] = if d.op = DIFF_INSERT then [] else d.text := by
  rw [diffText1_cons]
  split <;> simp [diffText1]

theorem diffText2_single (d : Diff) :
    diffText2 [d] = if d.op = DIFF_DELETE then [] else d.text := by
  rw [diffText2_cons]
  split <;> simp [diffText2]

theorem patchMakeLoop_inv (cfg : Config) (fuel : Nat) :
    ∀ dfs : List Diff, ∀ patch : patchObj, ∀ acc : List patchObj,
      ∀ cc1 cc2 : Nat, ∀ pre post : Str, ∀ ps : List patchObj,
      patchInv patch → (∀ p ∈ acc, patchInv p) →
      patchMakeLoop cfg fuel dfs patch acc cc1 cc2 pre post = some ps →
      ∀ p ∈ ps, patchInv p := by
  intro dfs
  induction dfs with
  | nil =>
    intro patch acc cc1 cc2 pre post ps hp hacc h
    rw [patchMakeLoop] at h
    by_cases hne : patch.diffs ≠ []
    · rw [if_pos hne] at h
      rcases hctx : patchAddContext_ cfg fuel patch pre with _ | p2 <;>
        rw [hctx] at h
      · exact absurd h (by simp)
      injection h with h
      subst h
      intro p hmem
      rw [List.mem_reverse] at hmem
      rcases List.mem_cons.mp hmem with rfl | hmem
      · exact patchAddContext_inv cfg fuel patch p pre hp hctx
      · exact hacc p hmem
    · rw [if_neg hne] at h
      injection h with h
      subst h
      intro p hmem
      rw [List.mem_reverse] at hmem
      exact hacc p hmem
  | cons df rest ih =>
    intro patch acc cc1 cc2 pre post ps hp hacc h
    rw [patchMakeLoop] at h
    dsimp only at h
    have hp1 : patchInv (if patch.diffs = [] ∧ df.op ≠ DIFF_EQUAL then
        { patch with start1 := (cc1 : Int), start2 := (cc2 : Int) }
      else patch) := by
      split
      · exact hp
      · exact hp
    set P1 := (if patch.diffs = [] ∧ df.op ≠ DIFF_EQUAL then
        { patch with start1 := (cc1 : Int), start2 := (cc2 : Int) }
      else patch) with hP1
    rcases hop : df.op with _ | _ | _ <;> rw [hop] at h <;> dsimp only at h
    · -- delete
      refine ih _ _ _ _ _ _ _ ⟨?_, ?_⟩ hacc h
      · dsimp only
        rw [diffText1_append, diffText1_single, if_neg (by rw [hop]; decide), List.length_append]
        rw [hp1.1]
      · dsimp only
        rw [diffText2_append, diffText2_single, if_pos (by rw [hop]; rfl),
          List.length_append]
        simp [hp1.2]
    · -- insert
      refine ih _ _ _ _ _ _ _ ⟨?_, ?_⟩ hacc h
      · dsimp only
        rw [diffText1_append, diffText1_single, if_pos (by rw [hop]; rfl),
          List.length_append]
        simp [hp1.1]
      · dsimp only
        rw [diffText2_append, diffText2_single, if_neg (by rw [hop]; decide), List.length_append]
        rw [hp1.2]
    · -- equal
      by_cases hsmall : df.text.length ≤ 2 * cfg.patchMargin ∧
          P1.diffs ≠ [] ∧ rest ≠ []
      · rw [if_pos hsmall] at h
        refine ih _ _ _ _ _ _ _ ⟨?_, ?_⟩ hacc h
        · dsimp only
          rw [diffText1_append, diffText1_single, if_neg (by rw [hop]; decide), List.length_append]
          rw [hp1.1]
        · dsimp only
          rw [diffText2_append, diffText2_single, if_neg (by rw [hop]; decide), List.length_append]
          rw [hp1.2]
      · rw [if_neg hsmall] at h
        by_cases hbig : 2 * cfg.patchMargin ≤ df.text.length
        · rw [if_pos hbig] at h
          by_cases hne : P1.diffs ≠ []
          · rw [if_pos hne] at h
            rcases hctx : patchAddContext_ cfg fuel P1 pre with _ | p2 <;>
              rw [hctx] at h
            · exact absurd h (by simp)
            refine ih _ _ _ _ _ _ _ patchInv_empty ?_ h
            intro p hmem
            rcases List.mem_cons.mp hmem with rfl | hmem
            · exact patchAddContext_inv cfg fuel P1 p pre hp1 hctx
            · exact hacc p hmem
          · rw [if_neg hne] at h
            exact ih _ _ _ _ _ _ _ hp1 hacc h
        · rw [if_neg hbig] at h
          exact ih _ _ _ _ _ _ _ hp1 hacc h

/-- The patches built by `patch_make` satisfy the length invariants. -/
theorem patchMake_inv (cfg : Config) (fuel : Nat) (text1 : Str)
    (diffs : List Diff) (ps : List patchObj)
    (h : patchMake cfg fuel text1 diffs = some ps) :
    ∀ p ∈ ps, patchInv p := by
  unfold patchMake at h
  by_cases hd : diffs = []
  · rw [if_pos hd] at h
    injection h with h
    subst h
    simp
  · rw [if_neg hd] at h
    exact patchMakeLoop_inv cfg fuel diffs {} [] 0 0 text1 text1 ps
      patchInv_empty (by simp) h

theorem splitInner_inv (cfg : Config) :
    ∀ fuel : Nat, ∀ patch : patchObj, ∀ bigdiffs : List Diff, ∀ s1 s2 : Int,
      ∀ emp : Bool, ∀ out : patchObj × List Diff × Int × Int × Bool,
      patchInv patch →
      splitInner cfg fuel patch bigdiffs s1 s2 emp = some out →
      patchInv out.1 := by
  intro fuel
  induction fuel with
  | zero =>
    intro patch bigdiffs s1 s2 emp out _ h
    exact absurd h (by simp [splitInner])
  | succ f ih =>
    intro patch bigdiffs s1 s2 emp out hp h
    rcases bigdiffs with _ | ⟨df, brest⟩ <;> rw [splitInner] at h
    · injection h with h
      subst h
      exact hp
    dsimp only at h
    by_cases hguard : ¬((patch.length1 : Int) <
        (cfg.matchMaxBits : Int) - cfg.patchMargin)
    · rw [if_pos hguard] at h
      injection h with h
      subst h
      exact hp
    rw [if_neg hguard] at h
    by_cases hins : df.op = DIFF_INSERT
    · rw [if_pos hins] at h
      refine ih _ _ _ _ _ _ ⟨?_, ?_⟩ h
      · dsimp only
        rw [diffText1_append, diffText1_single, if_pos hins,
          List.length_append]
        simp [hp.1]
      · dsimp only
        rw [diffText2_append, diffText2_single,
          if_neg (show ¬df.op = DIFF_DELETE from by rw [hins]; decide),
          List.length_append]
        rw [hp.2]
    rw [if_neg hins] at h
    by_cases hmon : df.op = DIFF_DELETE ∧ patch.diffs.length = 1 ∧
        (patch.diffs.head?.map Diff.op) = some DIFF_EQUAL ∧
        df.text.length > 2 * cfg.matchMaxBits
    · rw [if_pos hmon] at h
      refine ih _ _ _ _ _ _ ⟨?_, ?_⟩ h
      · dsimp only
        rw [diffText1_append, diffText1_single,
          if_neg (show ¬df.op = DIFF_INSERT from by rw [hmon.1]; decide),
          List.length_append]
        rw [hp.1]
      · dsimp only
        rw [diffText2_append, diffText2_single, if_pos hmon.1,
          List.length_append]
        simp [hp.2]
    rw [if_neg hmon] at h
    by_cases heq : df.op = DIFF_EQUAL
    · refine ih _ _ _ _ _ _ ⟨?_, ?_⟩ h
      · dsimp only
        rw [diffText1_append, diffText1_single,
          if_neg (show ¬df.op = DIFF_INSERT from by rw [heq]; decide),
          List.length_append]
        rw [hp.1]
      · dsimp only
        rw [diffText2_append, diffText2_single,
          if_neg (show ¬df.op = DIFF_DELETE from by rw [heq]; decide),
          List.length_append, if_pos heq]
        rw [hp.2]
    · have hdel : df.op = DIFF_DELETE := by
        rcases hop2 : df.op with _ | _ | _
        · rfl
        · exact absurd hop2 hins
        · exact absurd hop2 heq
      refine ih _ _ _ _ _ _ ⟨?_, ?_⟩ h
      · dsimp only
        rw [diffText1_append, diffText1_single,
          if_neg (show ¬df.op = DIFF_INSERT from by rw [hdel]; decide),
          List.length_append]
        rw [hp.1]
      · dsimp only
        rw [diffText2_append, diffText2_single, if_pos hdel,
          List.length_append, if_neg heq]
        simp [hp.2]

theorem patchInv_post (p1 : patchObj) (post : Str) (hp : patchInv p1)
    (hpost : post ≠ []) :
    patchInv
      { p1 with
        length1 := p1.length1 + post.length
        length2 := p1.length2 + post.length
        diffs :=
          match p1.diffs.getLast? with
          | some dl =>
            if dl.op = DIFF_EQUAL then
              p1.diffs.dropLast ++ [⟨DIFF_EQUAL, dl.text ++ post⟩]
            else p1.diffs ++ [⟨DIFF_EQUAL, post⟩]
          | none => p1.diffs ++ [⟨DIFF_EQUAL, post⟩] } := by
  rcases hlast : p1.diffs.getLast? with _ | dl
  · constructor
    · dsimp only
      rw [diffText1_append, diffText1_single_equal, List.length_append,
        hp.1]
    · dsimp only
      rw [diffText2_append, diffText2_single_equal, List.length_append,
        hp.2]
  · obtain ⟨l2, hl2⟩ := List.getLast?_eq_some_iff.mp hlast
    by_cases hdleq : dl.op = DIFF_EQUAL
    · constructor
      · dsimp only
        rw [if_pos hdleq, hl2, List.dropLast_concat, diffText1_append,
          diffText1_single_equal, hp.1, hl2, diffText1_append,
          diffText1_single, if_neg (show ¬dl.op = DIFF_INSERT from by
            rw [hdleq]; decide)]
        simp
        omega
      · dsimp only
        rw [if_pos hdleq, hl2, List.dropLast_concat, diffText2_append,
          diffText2_single_equal, hp.2, hl2, diffText2_append,
          diffText2_single, if_neg (show ¬dl.op = DIFF_DELETE from by
            rw [hdleq]; decide)]
        simp
        omega
    · constructor
      · dsimp only
        rw [if_neg hdleq, diffText1_append, diffText1_single_equal,
          List.length_append, hp.1]
      · dsimp only
        rw [if_neg hdleq, diffText2_append, diffText2_single_equal,
          List.length_append, hp.2]

theorem splitOuter_inv (cfg : Config) :
    ∀ ofuel ifuel : Nat, ∀ bigdiffs : List Diff, ∀ s1 s2 : Int,
      ∀ pre : Str, ∀ acc qs : List patchObj,
      (∀ p ∈ acc, patchInv p) →
      splitOuter cfg ofuel ifuel bigdiffs s1 s2 pre acc = some qs →
      ∀ q ∈ qs, patchInv q := by
  intro ofuel
  induction ofuel with
  | zero =>
    intro ifuel bigdiffs s1 s2 pre acc qs _ h
    exact absurd h (by simp [splitOuter])
  | succ of ih =>
    intro ifuel bigdiffs s1 s2 pre acc qs hacc h
    rcases bigdiffs with _ | ⟨df, brest⟩ <;> rw [splitOuter] at h
    · injection h with h
      subst h
      intro q hq
      rw [List.mem_reverse] at hq
      exact hacc q hq
    dsimp only at h
    have hp0 : patchInv
        { diffs := if pre ≠ [] then [(⟨DIFF_EQUAL, pre⟩ : Diff)] else []
          start1 := s1 - (pre.length : Int)
          start2 := s2 - (pre.length : Int)
          length1 := if pre ≠ [] then pre.length else 0
          length2 := if pre ≠ [] then pre.length else 0 } := by
      by_cases hpre : pre ≠ []
      · constructor
        · dsimp only
          rw [if_pos hpre, if_pos hpre, diffText1_single_equal]
        · dsimp only
          rw [if_pos hpre, if_pos hpre, diffText2_single_equal]
      · constructor
        · dsimp only
          rw [if_neg hpre, if_neg hpre]
          rfl
        · dsimp only
          rw [if_neg hpre, if_neg hpre]
          rfl
    rcases hinner : splitInner cfg ifuel
        { diffs := if pre ≠ [] then [(⟨DIFF_EQUAL, pre⟩ : Diff)] else []
          start1 := s1 - (pre.length : Int)
          start2 := s2 - (pre.length : Int)
          length1 := if pre ≠ [] then pre.length else 0
          length2 := if pre ≠ [] then pre.length else 0 }
        (df :: brest) s1 s2 true
      with _ | ⟨patch1, bigrest, s1b, s2b, empty⟩ <;> rw [hinner] at h
    · exact absurd h (by simp)
    dsimp only at h
    have hp1 : patchInv patch1 :=
      splitInner_inv cfg ifuel _ (df :: brest) s1 s2 true _ hp0 hinner
    have hp2 : patchInv (if jsSubstring (diffText1 bigrest) 0
        (cfg.patchMargin : Int) ≠ [] then
        { patch1 with
          length1 := patch1.length1 +
            (jsSubstring (diffText1 bigrest) 0
              (cfg.patchMargin : Int)).length
          length2 := patch1.length2 +
            (jsSubstring (diffText1 bigrest) 0
              (cfg.patchMargin : Int)).length
          diffs :=
            match patch1.diffs.getLast? with
            | some dl =>
              if dl.op = DIFF_EQUAL then
                patch1.diffs.dropLast ++
                  [⟨DIFF_EQUAL, dl.text ++ jsSubstring (diffText1 bigrest) 0
                    (cfg.patchMargin : Int)⟩]
              else patch1.diffs ++
                [⟨DIFF_EQUAL, jsSubstring (diffText1 bigrest) 0
                  (cfg.patchMargin : Int)⟩]
            | none => patch1.diffs ++
              [⟨DIFF_EQUAL, jsSubstring (diffText1 bigrest) 0
                (cfg.patchMargin : Int)⟩] }
      else patch1) := by
      by_cases hpost : jsSubstring (diffText1 bigrest) 0
          (cfg.patchMargin : Int) ≠ []
      · rw [if_pos hpost]
        exact patchInv_post patch1 _ hp1 hpost
      · rw [if_neg hpost]
        exact hp1
    refine ih ifuel bigrest s1b s2b _ _ qs ?_ h
    intro p hmem
    by_cases hemp : empty = true
    · rw [hemp, if_pos rfl] at hmem
      exact hacc p hmem
    · rw [Bool.not_eq_true] at hemp
      rw [hemp, if_neg (by decide)] at hmem
      rcases List.mem_cons.mp hmem with rfl | hmem
      · exact hp2
      · exact hacc p hmem

theorem patchSplitMax_inv (cfg : Config) (ofuel ifuel : Nat) :
    ∀ ps qs : List patchObj, (∀ p ∈ ps, patchInv p) →
      patchSplitMax cfg ofuel ifuel ps = some qs →
      ∀ q ∈ qs, patchInv q := by
  intro ps
  induction ps with
  | nil =>
    intro qs _ h
    injection h with h
    subst h
    simp
  | cons p rest ih =>
    intro qs hps h
    rw [patchSplitMax] at h
    by_cases hsz : p.length1 ≤ cfg.matchMaxBits
    · rw [if_pos hsz] at h
      rcases hrec : patchSplitMax cfg ofuel ifuel rest with _ | qs2 <;>
        rw [hrec] at h
      · exact absurd h (by simp)
      simp only [Option.map_some'] at h
      injection h with h
      subst h
      intro q hq
      rcases List.mem_cons.mp hq with rfl | hq
      · exact hps q (by simp)
      · exact ih qs2 (fun x hx => hps x (by simp [hx])) hrec q hq
    · rw [if_neg hsz] at h
      rcases hout : splitOuter cfg ofuel ifuel p.diffs p.start1 p.start2 []
          [] with _ | small <;> rw [hout] at h
      · exact absurd h (by simp)
      rcases hrec : patchSplitMax cfg ofuel ifuel rest with _ | qs2 <;>
        rw [hrec] at h
      · exact absurd h (by simp)
      simp only [Option.map_some'] at h
      injection h with h
      subst h
      intro q hq
      rcases List.mem_append.mp hq with hq | hq
      · exact splitOuter_inv cfg ofuel ifuel p.diffs p.start1 p.start2 []
          [] small (by simp) hout q hq
      · exact ih qs2 (fun x hx => hps x (by simp [hx])) hrec q hq

theorem updateLast_mem (f : patchObj → patchObj) :
    ∀ l : List patchObj, ∀ q ∈ updateLast f l,
      q ∈ l ∨ ∃ p ∈ l, q = f p := by
  intro l
  induction l with
  | nil =>
    intro q hq
    exact absurd hq (by simp [updateLast])
  | cons p rest ih =>
    intro q hq
    rcases rest with _ | ⟨r2, rest2⟩
    · rw [show updateLast f [p] = [f p] from rfl] at hq
      rcases List.mem_cons.mp hq with rfl | hq
      · exact Or.inr ⟨p, by simp, rfl⟩
      · exact absurd hq (by simp)
    · rw [show updateLast f (p :: r2 :: rest2) =
          p :: updateLast f (r2 :: rest2) from rfl] at hq
      rcases List.mem_cons.mp hq with rfl | hq
      · exact Or.inl (by simp)
      · rcases ih q hq with h | ⟨x, hx, hfx⟩
        · exact Or.inl (by simp [h])
        · exact Or.inr ⟨x, by simp [hx], hfx⟩

theorem padFirst_inv (paddingLength : Nat) (nullPadding : Str)
    (hlen : nullPadding.length = paddingLength) (p : patchObj)
    (hp : patchInv p) : patchInv (padFirst paddingLength nullPadding p) := by
  unfold padFirst
  have h1 := hp.1
  have h2 := hp.2
  rcases hd : p.diffs with _ | ⟨d0, tl⟩ <;> rw [hd] at h1 h2
  · dsimp only [List.head?]
    refine ⟨?_, ?_⟩ <;> dsimp only
    · rw [diffText1_cons, if_neg (fun hh => Op.noConfusion hh),
        List.length_append, hlen]
      simp [diffText1] at h1
      simp [diffText1, h1]
    · rw [diffText2_cons, if_neg (fun hh => Op.noConfusion hh),
        List.length_append, hlen]
      simp [diffText2] at h2
      simp [diffText2, h2]
  · dsimp only [List.head?]
    by_cases hop : d0.op ≠ DIFF_EQUAL
    · rw [if_pos hop]
      refine ⟨?_, ?_⟩ <;> dsimp only
      · rw [diffText1_cons, if_neg (fun hh => Op.noConfusion hh),
          List.length_append, hlen, h1]
        omega
      · rw [diffText2_cons, if_neg (fun hh => Op.noConfusion hh),
          List.length_append, hlen, h2]
        omega
    · rw [if_neg hop]
      rw [not_not] at hop
      by_cases hsh : d0.text.length < paddingLength
      · rw [if_pos hsh]
        rw [diffText1_cons, if_neg (by rw [hop]; decide),
          List.length_append] at h1
        rw [diffText2_cons, if_neg (by rw [hop]; decide),
          List.length_append] at h2
        refine ⟨?_, ?_⟩ <;> dsimp only
        · rw [diffText1_cons, if_neg (fun hh => Op.noConfusion hh)]
          dsimp only [List.tail]
          rw [List.length_append, List.length_append, List.length_drop,
            hlen, h1]
          omega
        · rw [diffText2_cons, if_neg (fun hh => Op.noConfusion hh)]
          dsimp only [List.tail]
          rw [List.length_append, List.length_append, List.length_drop,
            hlen, h2]
          omega
      · rw [if_neg hsh]
        exact hp

theorem padLast_inv (paddingLength : Nat) (nullPadding : Str)
    (hlen : nullPadding.length = paddingLength) (p : patchObj)
    (hp : patchInv p) : patchInv (padLast paddingLength nullPadding p) := by
  unfold padLast
  rcases hd : p.diffs.getLast? with _ | dl
  · refine ⟨?_, ?_⟩ <;> dsimp only
    · rw [diffText1_append, diffText1_single_equal, List.length_append,
        hp.1, hlen]
    · rw [diffText2_append, diffText2_single_equal, List.length_append,
        hp.2, hlen]
  · dsimp only
    by_cases hop : dl.op ≠ DIFF_EQUAL
    · rw [if_pos hop]
      refine ⟨?_, ?_⟩ <;> dsimp only
      · rw [diffText1_append, diffText1_single_equal, List.length_append,
          hp.1, hlen]
      · rw [diffText2_append, diffText2_single_equal, List.length_append,
          hp.2, hlen]
    · rw [if_neg hop]
      rw [not_not] at hop
      obtain ⟨l2, hl2⟩ := List.getLast?_eq_some_iff.mp hd
      by_cases hsh : dl.text.length < paddingLength
      · rw [if_pos hsh]
        have h1 := hp.1
        have h2 := hp.2
        rw [hl2, diffText1_append, diffText1_single,
          if_neg (show ¬dl.op = DIFF_INSERT from by rw [hop]; decide),
          List.length_append] at h1
        rw [hl2, diffText2_append, diffText2_single,
          if_neg (show ¬dl.op = DIFF_DELETE from by rw [hop]; decide),
          List.length_append] at h2
        refine ⟨?_, ?_⟩ <;> dsimp only
        · rw [hl2, List.dropLast_concat, diffText1_append,
            diffText1_single_equal, List.length_append, List.length_append,
            List.length_take, hlen]
          omega
        · rw [hl2, List.dropLast_concat, diffText2_append,
            diffText2_single_equal, List.length_append, List.length_append,
            List.length_take, hlen]
          omega
      · rw [if_neg hsh]
        exact hp

/-- `patch_add_padding` preserves the length invariants. -/
theorem patchAddPadding_inv (cfg : Config) (ps qs : List patchObj)
    (pad : Str) (hps : ∀ p ∈ ps, patchInv p)
    (h : patchAddPadding cfg ps = some (pad, qs)) :
    ∀ q ∈ qs, patchInv q := by
  unfold patchAddPadding at h
  rcases ps with _ | ⟨first, rest⟩
  · exact absurd h (by simp)
  dsimp only at h
  injection h with h
  have h2 := congrArg Prod.snd h
  dsimp only at h2
  subst h2
  have hlen : ((List.range cfg.patchMargin).map (fun x => x + 1) :
      Str).length = cfg.patchMargin := by simp
  intro q hq
  rcases updateLast_mem _ _ q hq with hq | ⟨x, hx, hfx⟩
  · rcases List.mem_cons.mp hq with rfl | hq
    · exact padFirst_inv _ _ hlen _ (hps first (by simp))
    · rw [List.mem_map] at hq
      obtain ⟨x, hx, hbx⟩ := hq
      subst hbx
      exact hps x (by simp [hx])
  · subst hfx
    refine padLast_inv _ _ hlen x ?_
    rcases List.mem_cons.mp hx with rfl | hx
    · exact padFirst_inv _ _ hlen _ (hps first (by simp))
    · rw [List.mem_map] at hx
      obtain ⟨y, hy, hby⟩ := hx
      subst hby
      exact hps y (by simp [hy])

instance (p : patchObj) : Decidable (patchInv p) := by
  unfold patchInv
  infer_instance

/-- Claim C5: every patch built by `patch_make` satisfies
    `length1 = Σ len(text)` over non-INSERT diffs and
    `length2 = Σ len(text)` over non-DELETE diffs, and both
    `patch_split_max` and `patch_add_padding` preserve the invariant for
    every patch in the list. -/
theorem claimC5 :
    (∀ cfg : Config, ∀ fuel : Nat, ∀ text1 : Str, ∀ diffs : List Diff,
      ∀ ps : List patchObj, patchMake cfg fuel text1 diffs = some ps →
      ∀ p ∈ ps, patchInv p) ∧
    (∀ cfg : Config, ∀ ofuel ifuel : Nat, ∀ ps qs : List patchObj,
      (∀ p ∈ ps, patchInv p) → patchSplitMax cfg ofuel ifuel ps = some qs →
      ∀ q ∈ qs, patchInv q) ∧
    (∀ cfg : Config, ∀ ps qs : List patchObj, ∀ pad : Str,
      (∀ p ∈ ps, patchInv p) → patchAddPadding cfg ps = some (pad, qs) →
      ∀ q ∈ qs, patchInv q) :=
  ⟨patchMake_inv, patchSplitMax_inv,
    fun cfg ps qs pad hps h => patchAddPadding_inv cfg ps qs pad hps h⟩

/-- Witness for C5 on the patch of `patch_make("XY", [EQ "X", INS "test",
    EQ "Y"])`, its split (a no-op at this size) and its padding. -/
theorem claimC5_witness :
    patchInv ⟨[⟨DIFF_EQUAL, [88]⟩, ⟨DIFF_INSERT, [116, 101, 115, 116]⟩,
        ⟨DIFF_EQUAL, [89]⟩], 0, 0, 2, 6⟩ ∧
    patchInv ⟨[⟨DIFF_EQUAL, [2, 3, 4, 88]⟩,
        ⟨DIFF_INSERT, [116, 101, 115, 116]⟩,
        ⟨DIFF_EQUAL, [89, 1, 2, 3]⟩], 1, 1, 8, 12⟩ :=
  ⟨claimC5.1 {} 50 [88, 89]
      [⟨DIFF_EQUAL, [88]⟩, ⟨DIFF_INSERT, [116, 101, 115, 116]⟩,
        ⟨DIFF_EQUAL, [89]⟩]
      [⟨[⟨DIFF_EQUAL, [88]⟩, ⟨DIFF_INSERT, [116, 101, 115, 116]⟩,
        ⟨DIFF_EQUAL, [89]⟩], 0, 0, 2, 6⟩]
      (by decide) _ (List.mem_singleton.mpr rfl),
    claimC5.2.2 {}
      [⟨[⟨DIFF_EQUAL, [88]⟩, ⟨DIFF_INSERT, [116, 101, 115, 116]⟩,
        ⟨DIFF_EQUAL, [89]⟩], 0, 0, 2, 6⟩]
      [⟨[⟨DIFF_EQUAL, [2, 3, 4, 88]⟩, ⟨DIFF_INSERT, [116, 101, 115, 116]⟩,
        ⟨DIFF_EQUAL, [89, 1, 2, 3]⟩], 1, 1, 8, 12⟩]
      [1, 2, 3, 4] (by decide) (by decide) _ (List.mem_singleton.mpr rfl)⟩

/-! ### Claim C6: `patch_split_max` and the `match_max_bits` bound -/

/-- A deliberate over-long deletion (the index.js:2437-2448 branch). -/
def hasMonster (cfg : Config) (ds : List Diff) : Prop :=
  ∃ d ∈ ds, d.op = DIFF_DELETE ∧ 2 * cfg.matchMaxBits < d.text.length

theorem len_jsSub0 (s : Str) (k : Int) :
    (jsSubstring s 0 k).length ≤ k.toNat := by
  unfold jsSubstring
  dsimp only
  rw [List.length_drop, List.length_take]
  omega

theorem len_jsSubFrom (s : Str) (m : Nat) :
    (jsSubstringFrom s ((s.length : Int) - m)).length ≤ m := by
  unfold jsSubstringFrom jsSubstring
  dsimp only
  rw [List.length_drop, List.length_take]
  omega

theorem splitInner_bound (cfg : Config) :
    ∀ fuel : Nat, ∀ patch : patchObj, ∀ bigdiffs : List Diff, ∀ s1 s2 : Int,
      ∀ emp : Bool, ∀ out : patchObj × List Diff × Int × Int × Bool,
      (patch.length1 + cfg.patchMargin ≤ cfg.matchMaxBits ∨
        hasMonster cfg patch.diffs) →
      splitInner cfg fuel patch bigdiffs s1 s2 emp = some out →
      out.1.length1 + cfg.patchMargin ≤ cfg.matchMaxBits ∨
        hasMonster cfg out.1.diffs := by
  intro fuel
  induction fuel with
  | zero =>
    intro patch bigdiffs s1 s2 emp out _ h
    exact absurd h (by simp [splitInner])
  | succ f ih =>
    intro patch bigdiffs s1 s2 emp out hb h
    rcases bigdiffs with _ | ⟨df, brest⟩ <;> rw [splitInner] at h
    · injection h with h
      subst h
      exact hb
    dsimp only at h
    by_cases hguard : ¬((patch.length1 : Int) <
        (cfg.matchMaxBits : Int) - cfg.patchMargin)
    · rw [if_pos hguard] at h
      injection h with h
      subst h
      exact hb
    rw [if_neg hguard] at h
    rw [not_not] at hguard
    by_cases hins : df.op = DIFF_INSERT
    · rw [if_pos hins] at h
      refine ih _ _ _ _ _ _ ?_ h
      rcases hb with hb | ⟨d, hd, hdel, hlen⟩
      · exact Or.inl hb
      · exact Or.inr ⟨d, by simp [hd], hdel, hlen⟩
    rw [if_neg hins] at h
    by_cases hmon : df.op = DIFF_DELETE ∧ patch.diffs.length = 1 ∧
        (patch.diffs.head?.map Diff.op) = some DIFF_EQUAL ∧
        df.text.length > 2 * cfg.matchMaxBits
    · rw [if_pos hmon] at h
      refine ih _ _ _ _ _ _ ?_ h
      exact Or.inr ⟨⟨df.op, df.text⟩, by simp, hmon.1, hmon.2.2.2⟩
    rw [if_neg hmon] at h
    refine ih _ _ _ _ _ _ ?_ h
    rcases hb with hb | ⟨d, hd, hdel, hlen⟩
    · refine Or.inl ?_
      dsimp only
      have hcap := len_jsSub0 df.text
        ((cfg.matchMaxBits : Int) - patch.length1 - cfg.patchMargin)
      omega
    · exact Or.inr ⟨d, by simp [hd], hdel, hlen⟩

theorem splitOuter_bound (cfg : Config)
    (hm : 2 * cfg.patchMargin ≤ cfg.matchMaxBits) :
    ∀ ofuel ifuel : Nat, ∀ bigdiffs : List Diff, ∀ s1 s2 : Int,
      ∀ pre : Str, ∀ acc qs : List patchObj,
      (∀ p ∈ acc, p.length1 ≤ cfg.matchMaxBits ∨ hasMonster cfg p.diffs) →
      pre.length ≤ cfg.patchMargin →
      splitOuter cfg ofuel ifuel bigdiffs s1 s2 pre acc = some qs →
      ∀ q ∈ qs, q.length1 ≤ cfg.matchMaxBits ∨ hasMonster cfg q.diffs := by
  intro ofuel
  induction ofuel with
  | zero =>
    intro ifuel bigdiffs s1 s2 pre acc qs _ _ h
    exact absurd h (by simp [splitOuter])
  | succ of ih =>
    intro ifuel bigdiffs s1 s2 pre acc qs hacc hpre h
    rcases bigdiffs with _ | ⟨df, brest⟩ <;> rw [splitOuter] at h
    · injection h with h
      subst h
      intro q hq
      rw [List.mem_reverse] at hq
      exact hacc q hq
    dsimp only at h
    rcases hinner : splitInner cfg ifuel
        { diffs := if pre ≠ [] then [(⟨DIFF_EQUAL, pre⟩ : Diff)] else []
          start1 := s1 - (pre.length : Int)
          start2 := s2 - (pre.length : Int)
          length1 := if pre ≠ [] then pre.length else 0
          length2 := if pre ≠ [] then pre.length else 0 }
        (df :: brest) s1 s2 true
      with _ | ⟨patch1, bigrest, s1b, s2b, empty⟩ <;> rw [hinner] at h
    · exact absurd h (by simp)
    dsimp only at h
    have hb1 : patch1.length1 + cfg.patchMargin ≤ cfg.matchMaxBits ∨
        hasMonster cfg patch1.diffs := by
      refine splitInner_bound cfg ifuel _ (df :: brest) s1 s2 true _
        (Or.inl ?_) hinner
      dsimp only
      split <;> omega
    have hpost := len_jsSub0 (diffText1 bigrest) (cfg.patchMargin : Int)
    have hb2 : (if jsSubstring (diffText1 bigrest) 0
          (cfg.patchMargin : Int) ≠ [] then
          { patch1 with
            length1 := patch1.length1 +
              (jsSubstring (diffText1 bigrest) 0
                (cfg.patchMargin : Int)).length
            length2 := patch1.length2 +
              (jsSubstring (diffText1 bigrest) 0
                (cfg.patchMargin : Int)).length
            diffs :=
              match patch1.diffs.getLast? with
              | some dl =>
                if dl.op = DIFF_EQUAL then
                  patch1.diffs.dropLast ++
                    [⟨DIFF_EQUAL, dl.text ++ jsSubstring (diffText1 bigrest)
                      0 (cfg.patchMargin : Int)⟩]
                else patch1.diffs ++
                  [⟨DIFF_EQUAL, jsSubstring (diffText1 bigrest) 0
                    (cfg.patchMargin : Int)⟩]
              | none => patch1.diffs ++
                [⟨DIFF_EQUAL, jsSubstring (diffText1 bigrest) 0
                  (cfg.patchMargin : Int)⟩] }
        else patch1).length1 ≤ cfg.matchMaxBits ∨
        hasMonster cfg (if jsSubstring (diffText1 bigrest) 0
          (cfg.patchMargin : Int) ≠ [] then
          { patch1 with
            length1 := patch1.length1 +
              (jsSubstring (diffText1 bigrest) 0
                (cfg.patchMargin : Int)).length
            length2 := patch1.length2 +
              (jsSubstring (diffText1 bigrest) 0
                (cfg.patchMargin : Int)).length
            diffs :=
              match patch1.diffs.getLast? with
              | some dl =>
                if dl.op = DIFF_EQUAL then
                  patch1.diffs.dropLast ++
                    [⟨DIFF_EQUAL, dl.text ++ jsSubstring (diffText1 bigrest)
                      0 (cfg.patchMargin : Int)⟩]
                else patch1.diffs ++
                  [⟨DIFF_EQUAL, jsSubstring (diffText1 bigrest) 0
                    (cfg.patchMargin : Int)⟩]
              | none => patch1.diffs ++
                [⟨DIFF_EQUAL, jsSubstring (diffText1 bigrest) 0
                  (cfg.patchMargin : Int)⟩] }
        else patch1).diffs := by
      by_cases hne : jsSubstring (diffText1 bigrest) 0
          (cfg.patchMargin : Int) ≠ []
      · simp only [if_pos hne]
        rcases hb1 with hb1 | ⟨d, hd, hdel, hlen⟩
        · refine Or.inl ?_
          dsimp only
          omega
        · refine Or.inr ?_
          dsimp only
          rcases hlast : patch1.diffs.getLast? with _ | dl
        -- none: diffs ++ [EQ]: membership preserved
          · exact ⟨d, by simp [hd], hdel, hlen⟩
          · dsimp only
            by_cases hdleq : dl.op = DIFF_EQUAL
            · rw [if_pos hdleq]
              obtain ⟨l2, hl2⟩ := List.getLast?_eq_some_iff.mp hlast
              rw [hl2, List.dropLast_concat]
              rw [hl2] at hd
              rcases List.mem_append.mp hd with hd2 | hd2
              · exact ⟨d, by simp [hd2], hdel, hlen⟩
              · rw [List.mem_singleton] at hd2
                subst hd2
                rw [hdleq] at hdel
                exact absurd hdel (by decide)
            · rw [if_neg hdleq]
              exact ⟨d, by simp [hd], hdel, hlen⟩
      · simp only [if_neg hne]
        rcases hb1 with hb1 | hmon
        · exact Or.inl (by omega)
        · exact Or.inr hmon
    refine ih ifuel bigrest s1b s2b _ _ qs ?_ ?_ h
    · intro p hp
      by_cases hemp : empty = true
      · rw [hemp, if_pos rfl] at hp
        exact hacc p hp
      · rw [Bool.not_eq_true] at hemp
        rw [hemp, if_neg (by decide)] at hp
        rcases List.mem_cons.mp hp with rfl | hp
        · exact hb2
        · exact hacc p hp
    · have h2 := len_jsSubFrom (diffText2 patch1.diffs) cfg.patchMargin
      exact h2

/-- Claim C6, counterexample: splitting the patch
    `@@ -3,78 +3,8 @@ cdef -"70 digits" uvwx` (length1 = 78 > 32) returns it
    essentially unchanged — the large-deletion branch of index.js:2437-2448
    deliberately lets the whole deletion through, so the resulting patch
    still has `length1 > match_max_bits`. -/
theorem claimC6_counterexample :
    patchSplitMax {} 10 50
        [⟨[⟨DIFF_EQUAL, [99, 100, 101, 102]⟩,
          ⟨DIFF_DELETE, [49, 50, 51, 52, 53, 54, 55, 56, 57, 48,
            49, 50, 51, 52, 53, 54, 55, 56, 57, 48,
            49, 50, 51, 52, 53, 54, 55, 56, 57, 48,
            49, 50, 51, 52, 53, 54, 55, 56, 57, 48,
            49, 50, 51, 52, 53, 54, 55, 56, 57, 48,
            49, 50, 51, 52, 53, 54, 55, 56, 57, 48,
            49, 50, 51, 52, 53, 54, 55, 56, 57, 48]⟩,
          ⟨DIFF_EQUAL, [117, 118, 119, 120]⟩], 2, 2, 78, 8⟩] =
      some [⟨[⟨DIFF_EQUAL, [99, 100, 101, 102]⟩,
          ⟨DIFF_DELETE, [49, 50, 51, 52, 53, 54, 55, 56, 57, 48,
            49, 50, 51, 52, 53, 54, 55, 56, 57, 48,
            49, 50, 51, 52, 53, 54, 55, 56, 57, 48,
            49, 50, 51, 52, 53, 54, 55, 56, 57, 48,
            49, 50, 51, 52, 53, 54, 55, 56, 57, 48,
            49, 50, 51, 52, 53, 54, 55, 56, 57, 48,
            49, 50, 51, 52, 53, 54, 55, 56, 57, 48]⟩,
          ⟨DIFF_EQUAL, [117, 118, 119, 120]⟩], 2, 2, 78, 8⟩] ∧
    ({} : Config).matchMaxBits < 78 := by
  constructor
  · decide
  · decide

/-- Claim C6, amended: after `patch_split_max` every patch satisfies
    `length1 ≤ match_max_bits` unless it carries a deliberate over-long
    deletion (a DELETE longer than `2 * match_max_bits`, the
    index.js:2437-2448 branch), assuming `2 * patch_margin ≤
    match_max_bits` (as with the default 4 and 32). -/
theorem claimC6_amended (cfg : Config)
    (hm : 2 * cfg.patchMargin ≤ cfg.matchMaxBits) (ofuel ifuel : Nat) :
    ∀ ps qs : List patchObj, patchSplitMax cfg ofuel ifuel ps = some qs →
      ∀ q ∈ qs, q.length1 ≤ cfg.matchMaxBits ∨
        ∃ d ∈ q.diffs, d.op = DIFF_DELETE ∧
          2 * cfg.matchMaxBits < d.text.length := by
  intro ps
  induction ps with
  | nil =>
    intro qs h
    injection h with h
    subst h
    simp
  | cons p rest ih =>
    intro qs h
    rw [patchSplitMax] at h
    by_cases hsz : p.length1 ≤ cfg.matchMaxBits
    · rw [if_pos hsz] at h
      rcases hrec : patchSplitMax cfg ofuel ifuel rest with _ | qs2 <;>
        rw [hrec] at h
      · exact absurd h (by simp)
      simp only [Option.map_some'] at h
      injection h with h
      subst h
      intro q hq
      rcases List.mem_cons.mp hq with rfl | hq
      · exact Or.inl hsz
      · exact ih qs2 hrec q hq
    · rw [if_neg hsz] at h
      rcases hout : splitOuter cfg ofuel ifuel p.diffs p.start1 p.start2 []
          [] with _ | small <;> rw [hout] at h
      · exact absurd h (by simp)
      rcases hrec : patchSplitMax cfg ofuel ifuel rest with _ | qs2 <;>
        rw [hrec] at h
      · exact absurd h (by simp)
      simp only [Option.map_some'] at h
      injection h with h
      subst h
      intro q hq
      rcases List.mem_append.mp hq with hq | hq
      · exact splitOuter_bound cfg hm ofuel ifuel p.diffs p.start1 p.start2
          [] [] small (by simp) (by simp) hout q hq
      · exact ih qs2 hrec q hq

/-- Witness for the amended C6: the split of the first C6 example keeps
    its over-long deletion, satisfying the disjunction's second arm. -/
theorem claimC6_witness :
    (⟨[⟨DIFF_EQUAL, [99, 100, 101, 102]⟩,
        ⟨DIFF_DELETE, [49, 50, 51, 52, 53, 54, 55, 56, 57, 48,
          49, 50, 51, 52, 53, 54, 55, 56, 57, 48,
          49, 50, 51, 52, 53, 54, 55, 56, 57, 48,
          49, 50, 51, 52, 53, 54, 55, 56, 57, 48,
          49, 50, 51, 52, 53, 54, 55, 56, 57, 48,
          49, 50, 51, 52, 53, 54, 55, 56, 57, 48,
          49, 50, 51, 52, 53, 54, 55, 56, 57, 48]⟩,
        ⟨DIFF_EQUAL, [117, 118, 119, 120]⟩], 2, 2, 78, 8⟩ :
      patchObj).length1 ≤ ({} : Config).matchMaxBits ∨
      ∃ d ∈ (⟨[⟨DIFF_EQUAL, [99, 100, 101, 102]⟩,
        ⟨DIFF_DELETE, [49, 50, 51, 52, 53, 54, 55, 56, 57, 48,
          49, 50, 51, 52, 53, 54, 55, 56, 57, 48,
          49, 50, 51, 52, 53, 54, 55, 56, 57, 48,
          49, 50, 51, 52, 53, 54, 55, 56, 57, 48,
          49, 50, 51, 52, 53, 54, 55, 56, 57, 48,
          49, 50, 51, 52, 53, 54, 55, 56, 57, 48,
          49, 50, 51, 52, 53, 54, 55, 56, 57, 48]⟩,
        ⟨DIFF_EQUAL, [117, 118, 119, 120]⟩], 2, 2, 78, 8⟩ :
      patchObj).diffs, d.op = DIFF_DELETE ∧
        2 * ({} : Config).matchMaxBits < d.text.length :=
  claimC6_amended {} (by decide) 10 50
    [⟨[⟨DIFF_EQUAL, [99, 100, 101, 102]⟩,
      ⟨DIFF_DELETE, [49, 50, 51, 52, 53, 54, 55, 56, 57, 48,
        49, 50, 51, 52, 53, 54, 55, 56, 57, 48,
        49, 50, 51, 52, 53, 54, 55, 56, 57, 48,
        49, 50, 51, 52, 53, 54, 55, 56, 57, 48,
        49, 50, 51, 52, 53, 54, 55, 56, 57, 48,
        49, 50, 51, 52, 53, 54, 55, 56, 57, 48,
        49, 50, 51, 52, 53, 54, 55, 56, 57, 48]⟩,
      ⟨DIFF_EQUAL, [117, 118, 119, 120]⟩], 2, 2, 78, 8⟩]
    _ (by decide) _ (List.mem_singleton.mpr rfl)

/-! ### The patch text round trip (claim C8) -/

/-- Join a list of lines, terminating each with a newline. -/
def linesJoin : List Str → Str
  | [] => []
  | l :: ls => l ++ 10 :: linesJoin ls

theorem splitOn_linesJoin (L : List Str) (hL : ∀ l ∈ L, (10 : Nat) ∉ l)
    (rest : Str) :
    (linesJoin L ++ rest).splitOn 10 = L ++ rest.splitOn 10 := by
  induction L with
  | nil => rfl
  | cons l ls ih =>
    have h1 : linesJoin (l :: ls) ++ rest =
        l ++ 10 :: (linesJoin ls ++ rest) := by
      rw [linesJoin]; simp
    rw [h1]
    show (l ++ 10 :: (linesJoin ls ++ rest)).splitOnP (· == 10) = _
    rw [List.splitOnP_first _ _
      (fun x hx => by
        simp only [beq_iff_eq]
        intro hx10
        exact hL l (by simp) (hx10 ▸ hx)) 10 (by simp)]
    show _ = l :: (ls ++ rest.splitOn 10)
    rw [← ih (fun x hx => hL x (by simp [hx]))]
    rfl

theorem linesJoin_length (L : List Str) : L.length ≤ (linesJoin L).length := by
  induction L with
  | nil => simp [linesJoin]
  | cons l ls ih => rw [linesJoin]; simp; omega

theorem natToStr_digits (n : Nat) : ∀ c ∈ natToStr n, 48 ≤ c ∧ c ≤ 57 :=
  natToStrAux_digits (n + 1) n

theorem natToStr_ne_nil (n : Nat) : natToStr n ≠ [] :=
  natToStrAux_ne_nil n n

theorem digitsAcc_natToStr (n : Nat) : digitsAcc (natToStr n) 0 = n := by
  rw [digitsAcc_of_digits _ (natToStr_digits n) 0]
  have := natToStrAux_foldl (n + 1) n (by omega) 0
  rw [natToStr]
  rw [this]
  simp

/-- `spanDigits` splits a digit block followed by a non-digit exactly there. -/
theorem spanDigits_digits (d : Str) (hd : ∀ c ∈ d, 48 ≤ c ∧ c ≤ 57)
    (rest : Str) (hr : ∀ c, rest.head? = some c → ¬(48 ≤ c ∧ c ≤ 57)) :
    spanDigits (d ++ rest) = (d, rest) := by
  induction d with
  | nil =>
    cases rest with
    | nil => rfl
    | cons c t =>
      rw [List.nil_append, spanDigits, if_neg (hr c rfl)]
  | cons c d' ih =>
    rw [List.cons_append, spanDigits, if_pos (hd c (by simp)),
      ih (fun x hx => hd x (by simp [hx]))]

/-- Decoding a string with no `%` in it just copies it. -/
theorem decodeAux_plain (s : Str) : ∀ fuel : Nat, (∀ c ∈ s, c ≠ 37) →
    s.length ≤ fuel → decodeAux fuel s = some s := by
  induction s with
  | nil => intro fuel _ _; exact decodeAux_nil fuel
  | cons c t ih =>
    intro fuel h hf
    cases fuel with
    | zero => simp at hf
    | succ f =>
      rw [decodeAux_cons f c t (h c (by simp)),
        ih f (fun x hx => h x (by simp [hx])) (by simp at hf; omega)]
      rfl

theorem decodeURI_plain (s : Str) (h : ∀ c ∈ s, c ≠ 37) :
    decodeURI s = some s :=
  decodeAux_plain s s.length h le_rfl

/-- The header of `patchObj.prototype.toString`, without the newline. -/
def headerCore (p : patchObj) : Str :=
  [64, 64, 32, 45] ++ coordStr p.start1 p.length1 ++
    [32, 43] ++ coordStr p.start2 p.length2 ++ [32, 64, 64]

theorem mem_intToStr (n : Int) (c : Nat) (hc : c ∈ intToStr n) :
    c = 45 ∨ (48 ≤ c ∧ c ≤ 57) := by
  rw [intToStr] at hc
  split at hc
  · rcases List.mem_cons.mp hc with rfl | hc
    · exact Or.inl rfl
    · exact Or.inr (natToStr_digits _ c hc)
  · exact Or.inr (natToStr_digits _ c hc)

theorem mem_coordStr (s : Int) (len : Nat) (c : Nat)
    (hc : c ∈ coordStr s len) : c = 44 ∨ c = 45 ∨ (48 ≤ c ∧ c ≤ 57) := by
  rw [coordStr] at hc
  split at hc
  · rcases List.mem_append.mp hc with h | h
    · rcases mem_intToStr _ c h with h | h
      · exact Or.inr (Or.inl h)
      · exact Or.inr (Or.inr h)
    · simp at h
      rcases h with rfl | rfl
      · exact Or.inl rfl
      · exact Or.inr (Or.inr (by omega))
  · split at hc
    · rcases mem_intToStr _ c hc with h | h
      · exact Or.inr (Or.inl h)
      · exact Or.inr (Or.inr h)
    · rcases List.mem_append.mp hc with h | h
      · rcases List.mem_append.mp h with h2 | h2
        · rcases mem_intToStr _ c h2 with h3 | h3
          · exact Or.inr (Or.inl h3)
          · exact Or.inr (Or.inr h3)
        · simp at h2
          exact Or.inl h2
      · exact Or.inr (Or.inr (natToStr_digits _ c h))

theorem mem_headerCore (p : patchObj) (c : Nat) (hc : c ∈ headerCore p) :
    c = 64 ∨ c = 32 ∨ c = 43 ∨ c = 44 ∨ c = 45 ∨ (48 ≤ c ∧ c ≤ 57) := by
  rw [headerCore] at hc
  simp only [List.append_assoc, List.mem_append, List.mem_cons,
    List.not_mem_nil, or_false] at hc
  rcases hc with (rfl | rfl | rfl | rfl) | h | (rfl | rfl) | h | (rfl | rfl | rfl)
  · exact Or.inl rfl
  · exact Or.inl rfl
  · exact Or.inr (Or.inl rfl)
  · exact Or.inr (Or.inr (Or.inr (Or.inr (Or.inl rfl))))
  · rcases mem_coordStr _ _ c h with h | h | h
    · exact Or.inr (Or.inr (Or.inr (Or.inl h)))
    · exact Or.inr (Or.inr (Or.inr (Or.inr (Or.inl h))))
    · exact Or.inr (Or.inr (Or.inr (Or.inr (Or.inr h))))
  · exact Or.inr (Or.inl rfl)
  · exact Or.inr (Or.inr (Or.inl rfl))
  · rcases mem_coordStr _ _ c h with h | h | h
    · exact Or.inr (Or.inr (Or.inr (Or.inl h)))
    · exact Or.inr (Or.inr (Or.inr (Or.inr (Or.inl h))))
    · exact Or.inr (Or.inr (Or.inr (Or.inr (Or.inr h))))
  · exact Or.inr (Or.inl rfl)
  · exact Or.inl rfl
  · exact Or.inl rfl

theorem headerCore_no37 (p : patchObj) : ∀ c ∈ headerCore p, c ≠ 37 := by
  intro c hc
  rcases mem_headerCore p c hc with h | h | h | h | h | h <;> omega

theorem headerCore_no10 (p : patchObj) : (10 : Nat) ∉ headerCore p := by
  intro hc
  rcases mem_headerCore p 10 hc with h | h | h | h | h | h <;> omega

theorem stripComma_comma (rr : Str) : stripComma (44 :: rr) = rr := rfl

theorem stripComma_other (r : Str) (h : ∀ rr, r ≠ 44 :: rr) :
    stripComma r = r := by
  cases r with
  | nil => rfl
  | cons c t =>
    rw [stripComma.eq_def]
    split
    · rename_i rr heq
      exact absurd heq (h rr)
    · rfl

/-- Parsing one rendered coordinate recovers the start and length. -/
theorem coordParse_coordStr (s : Int) (len : Nat) (hs : 0 ≤ s) (rest : Str)
    (hr1 : ∀ c, rest.head? = some c → ¬(48 ≤ c ∧ c ≤ 57))
    (hr2 : ∀ rr, rest ≠ 44 :: rr) :
    ∃ d1 d2, coordParse (coordStr s len ++ rest) = (d1, d2, rest) ∧
      d1 ≠ [] ∧ headerCoord d1 d2 = (s, len) := by
  have hofs : Int.ofNat s.toNat = s := by
    rw [Int.ofNat_eq_coe, Int.toNat_of_nonneg hs]
  have hofs1 : Int.ofNat (s + 1).toNat = s + 1 := by
    rw [Int.ofNat_eq_coe, Int.toNat_of_nonneg (by omega)]
  by_cases h0 : len = 0
  · subst h0
    rw [coordStr, if_pos rfl, intToStr, if_neg (by omega : ¬s < 0)]
    have hsp1 : spanDigits ((natToStr s.toNat ++ [44, 48]) ++ rest) =
        (natToStr s.toNat, 44 :: 48 :: rest) := by
      rw [List.append_assoc]
      exact spanDigits_digits _ (natToStr_digits _) _
        (fun c hc => by
          simp only [List.cons_append, List.head?_cons,
            Option.some.injEq] at hc
          omega)
    have hsp2 : spanDigits (48 :: rest) = ([48], rest) :=
      spanDigits_digits [48] (by intro c hc; simp at hc; omega) rest hr1
    refine ⟨natToStr s.toNat, [48], ?_, natToStr_ne_nil _, ?_⟩
    · rw [coordParse, hsp1, stripComma_comma, hsp2]
    · rw [headerCoord]
      rw [if_neg (by simp), if_pos rfl, digitsAcc_natToStr, hofs]
  · by_cases h1 : len = 1
    · subst h1
      rw [coordStr, if_neg (by omega), if_pos rfl, intToStr,
        if_neg (by omega : ¬s + 1 < 0)]
      have hsp1 : spanDigits (natToStr (s + 1).toNat ++ rest) =
          (natToStr (s + 1).toNat, rest) :=
        spanDigits_digits _ (natToStr_digits _) _ hr1
      have hsp2 : spanDigits rest = ([], rest) := by
        cases rest with
        | nil => rfl
        | cons c t => rw [spanDigits, if_neg (hr1 c rfl)]
      refine ⟨natToStr (s + 1).toNat, [], ?_, natToStr_ne_nil _, ?_⟩
      · rw [coordParse, hsp1, stripComma_other rest hr2, hsp2]
      · rw [headerCoord]
        rw [if_pos rfl, digitsAcc_natToStr, hofs1]
        simp
    · rw [coordStr, if_neg h0, if_neg h1, intToStr,
        if_neg (by omega : ¬s + 1 < 0)]
      have hsp1 : spanDigits ((natToStr (s + 1).toNat ++ [44] ++
          natToStr len) ++ rest) =
          (natToStr (s + 1).toNat, 44 :: (natToStr len ++ rest)) := by
        rw [List.append_assoc, List.append_assoc]
        exact spanDigits_digits _ (natToStr_digits _) _
          (fun c hc => by
            simp only [List.cons_append, List.head?_cons,
              Option.some.injEq] at hc
            omega)
      have hsp2 : spanDigits (natToStr len ++ rest) = (natToStr len, rest) :=
        spanDigits_digits _ (natToStr_digits _) _ hr1
      refine ⟨natToStr (s + 1).toNat, natToStr len, ?_, natToStr_ne_nil _, ?_⟩
      · rw [coordParse, hsp1, stripComma_comma, hsp2]
      · rw [headerCoord]
        rw [if_neg (natToStr_ne_nil len)]
        rw [if_neg (fun h48 : natToStr len = [48] => by
          have := digitsAcc_natToStr len
          rw [h48] at this
          simp [digitsAcc] at this
          omega)]
        rw [digitsAcc_natToStr, digitsAcc_natToStr, hofs1]
        simp

/-- The rendered header parses back to the patch's coordinates. -/
theorem parsePatchHeader_headerCore (p : patchObj) (h1 : 0 ≤ p.start1)
    (h2 : 0 ≤ p.start2) :
    ∃ d1 d2 d3 d4,
      parsePatchHeader (headerCore p) = some (d1, d2, d3, d4) ∧
      headerCoord d1 d2 = (p.start1, p.length1) ∧
      headerCoord d3 d4 = (p.start2, p.length2) := by
  have hshape : headerCore p = 64 :: 64 :: 32 :: 45 ::
      (coordStr p.start1 p.length1 ++
        (32 :: 43 :: (coordStr p.start2 p.length2 ++ [32, 64, 64]))) := by
    rw [headerCore]
    simp
  obtain ⟨d3, d4, hcp2, hne3, hco2⟩ :=
    coordParse_coordStr p.start2 p.length2 h2 [32, 64, 64]
      (fun c hc => by simp at hc; omega)
      (fun rr h => by simp at h)
  obtain ⟨d1, d2, hcp1, hne1, hco1⟩ :=
    coordParse_coordStr p.start1 p.length1 h1
      (32 :: 43 :: (coordStr p.start2 p.length2 ++ [32, 64, 64]))
      (fun c hc => by simp at hc; omega)
      (fun rr h => by simp at h)
  refine ⟨d1, d2, d3, d4, ?_, hco1, hco2⟩
  rw [hshape, parsePatchHeader.eq_def]
  dsimp only
  rw [hcp1]
  rw [if_neg hne1]
  dsimp only
  rw [hcp2]
  rw [if_neg hne3, if_pos rfl]

/-- The sign character of a diff line (index.js:2664-2676). -/
def opChar (o : Op) : Nat :=
  match o with
  | Op.insert => 43
  | Op.delete => 45
  | Op.equal => 32

/-- Each line carries the sign of the corresponding diff and decodes back
    to its text. -/
def lineOKs : List Str → List Diff → Prop
  | [], [] => True
  | l :: ls, d :: ds =>
    l.head? = some (opChar d.op) ∧ decodeURI (l.drop 1) = some d.text ∧
      lineOKs ls ds
  | _, _ => False

/-- What may follow a patch body: nothing, the final blank line, or the
    next patch's header (which starts with `@` and decodes). -/
def bodyTail (tail out : List Str) : Prop :=
  (tail = [] ∧ out = []) ∨ (tail = [[]] ∧ out = []) ∨
    (∃ l0 rest r, tail = l0 :: rest ∧ l0.head? = some 64 ∧
      decodeURI (l0.drop 1) = some r ∧ out = tail)

theorem patchBodyLoop_lines :
    ∀ (ls : List Str) (ds : List Diff), lineOKs ls ds →
      ∀ tail out, bodyTail tail out → ∀ acc,
        patchBodyLoop (ls ++ tail) acc =
          Except.ok (acc.reverse ++ ds, out) := by
  intro ls
  induction ls with
  | nil =>
    intro ds h tail out ht acc
    cases ds with
    | cons d ds' => exact absurd h (by simp [lineOKs])
    | nil =>
      rcases ht with ⟨rfl, rfl⟩ | ⟨rfl, rfl⟩ | ⟨l0, rest, r, rfl, h64, hdec, rfl⟩
      · show patchBodyLoop [] acc = _
        rw [patchBodyLoop]
        simp
      · show patchBodyLoop ([] :: []) acc = _
        have hstep : patchBodyLoop ([] :: []) acc =
            Except.ok (acc.reverse, []) := rfl
        rw [hstep]
        simp
      · show patchBodyLoop (l0 :: rest) acc = _
        rw [patchBodyLoop, hdec, h64]
        simp
  | cons l ls ih =>
    intro ds h tail out ht acc
    cases ds with
    | nil => exact absurd h (by simp [lineOKs])
    | cons d ds' =>
      obtain ⟨hhead, hdec, hrest⟩ := h
      cases d with
      | mk o txt =>
        show patchBodyLoop (l :: (ls ++ tail)) acc = _
        rw [patchBodyLoop, hdec]
        rcases o with _ | _ | _
        · rw [show opChar Op.delete = 45 from rfl] at hhead
          rw [hhead]
          dsimp only
          rw [ih ds' hrest tail out ht (⟨DIFF_DELETE, txt⟩ :: acc)]
          simp [DIFF_DELETE]
        · rw [show opChar Op.insert = 43 from rfl] at hhead
          rw [hhead]
          dsimp only
          rw [ih ds' hrest tail out ht (⟨DIFF_INSERT, txt⟩ :: acc)]
          simp [DIFF_INSERT]
        · rw [show opChar Op.equal = 32 from rfl] at hhead
          rw [hhead]
          dsimp only
          rw [ih ds' hrest tail out ht (⟨DIFF_EQUAL, txt⟩ :: acc)]
          simp [DIFF_EQUAL]

/-- The body of `toString`, after the `%20` replacement, is a join of sign
    lines that decode back to the diffs. -/
theorem bodyLines_shape :
    ∀ (ds : List Diff) (b : Str),
      (∀ d ∈ ds, ∀ c ∈ d.text, c < 65536) →
      patchToString.bodyLines ds = Except.ok b →
      ∃ bls, replaceP20 b = linesJoin bls ∧ lineOKs bls ds ∧
        ∀ l ∈ bls, (10 : Nat) ∉ l := by
  intro ds
  induction ds with
  | nil =>
    intro b _ hb
    rw [patchToString.bodyLines] at hb
    injection hb with hb
    subst hb
    exact ⟨[], rfl, trivial, by simp⟩
  | cons d rest ih =>
    intro b hwf hb
    rw [patchToString.bodyLines] at hb
    rcases henc : encodeURI d.text with _ | e <;> rw [henc] at hb
    · exact absurd hb (by simp)
    rcases hbr : patchToString.bodyLines rest with e' | b' <;> rw [hbr] at hb
    · exact absurd hb (by simp)
    obtain ⟨hesc, hrange⟩ := encode_shape d.text e (hwf d (by simp)) henc
    obtain ⟨bls', hrp', hok', h10'⟩ :=
      ih b' (fun x hx => hwf x (by simp [hx])) hbr
    have build : ∀ opc : Nat, opc = opChar d.op → opc ≠ 37 → opc ≠ 10 →
        b = opc :: (e ++ 10 :: b') →
        ∃ bls, replaceP20 b = linesJoin bls ∧ lineOKs bls (d :: rest) ∧
          ∀ l ∈ bls, (10 : Nat) ∉ l := by
      intro opc hopc h37 h10 hbv
      refine ⟨(opc :: replaceP20 e) :: bls', ?_, ?_, ?_⟩
      · rw [hbv, replaceP20_cons opc _ h37,
          replaceP20_append_of_escTok hesc,
          replaceP20_cons 10 _ (by omega), linesJoin, hrp']
        simp
      · show _ ∧ _ ∧ _
        refine ⟨by simp [hopc], ?_, hok'⟩
        show decodeURI (replaceP20 e) = some d.text
        exact decodeURI_rp_encode d.text e (hwf d (by simp)) henc
      · intro l hl
        rcases List.mem_cons.mp hl with rfl | hl
        · intro hmem
          rcases List.mem_cons.mp hmem with h | h
          · omega
          · rcases mem_replaceP20 e 10 h with h2 | h2
            · have := hrange 10 h2
              omega
            · omega
        · exact h10' l hl
    rcases hop : d.op with _ | _ | _ <;> rw [hop] at hb <;> dsimp only at hb <;>
      injection hb with hb
    · exact build 45 (by rw [hop]; rfl) (by omega) (by omega)
        (by rw [← hb]; simp)
    · exact build 43 (by rw [hop]; rfl) (by omega) (by omega)
        (by rw [← hb]; simp)
    · exact build 32 (by rw [hop]; rfl) (by omega) (by omega)
        (by rw [← hb]; simp)
